import Mathlib

/-!
# manga2cbz

A shallow embedding of the core of `manga2cbz` (natural-order comparator,
chapter discovery, CBZ archive writer) and the properties proved about it.

Go strings are byte sequences; they are embedded as lists of natural numbers
(one number below 256 per byte).  The comparator of `internal/sort/natural.go`
mixes rune-level code (`[]rune(s)`, `unicode.IsDigit`) with byte-level code
(`len(s)`, `s[i]`, `a < b`), so the embedding keeps both levels and models the
UTF-8 conversions of the Go runtime explicitly.
-/

namespace Manga2cbz

/-! ## Go strings and the UTF-8 conversions of the Go runtime -/

/-- A Go string: a sequence of bytes, not necessarily valid UTF-8. -/
abbrev GoString := List Nat

/-- Go's `utf8.RuneError`, the replacement character U+FFFD. -/
def RuneError : Nat := 0xFFFD

/-- Lower bound of the second byte accepted after the leading byte `s0`
(`acceptRanges` of package `unicode/utf8`). -/
def acceptLo (s0 : Nat) : Nat :=
  if s0 = 0xE0 then 0xA0 else if s0 = 0xF0 then 0x90 else 0x80

/-- Upper bound of the second byte accepted after the leading byte `s0`
(`acceptRanges` of package `unicode/utf8`). -/
def acceptHi (s0 : Nat) : Nat :=
  if s0 = 0xED then 0x9F else if s0 = 0xF4 then 0x8F else 0xBF

/-- Go's `utf8.DecodeRuneInString`: the first rune of `s` and its width in
bytes.  An invalid or truncated encoding yields `(RuneError, 1)`, the empty
string `(RuneError, 0)`. -/
def DecodeRuneInString : GoString → Nat × Nat
  | [] => (RuneError, 0)
  | s0 :: rest =>
    if s0 < 0x80 then (s0, 1)
    else if s0 < 0xC2 then (RuneError, 1)
    else if s0 < 0xE0 then
      match rest with
      | s1 :: _ =>
        if acceptLo s0 ≤ s1 ∧ s1 ≤ acceptHi s0 then (s0 % 32 * 64 + s1 % 64, 2)
        else (RuneError, 1)
      | _ => (RuneError, 1)
    else if s0 < 0xF0 then
      match rest with
      | s1 :: s2 :: _ =>
        if acceptLo s0 ≤ s1 ∧ s1 ≤ acceptHi s0 ∧ 0x80 ≤ s2 ∧ s2 ≤ 0xBF then
          (s0 % 16 * 4096 + s1 % 64 * 64 + s2 % 64, 3)
        else (RuneError, 1)
      | _ => (RuneError, 1)
    else if s0 < 0xF5 then
      match rest with
      | s1 :: s2 :: s3 :: _ =>
        if acceptLo s0 ≤ s1 ∧ s1 ≤ acceptHi s0 ∧ 0x80 ≤ s2 ∧ s2 ≤ 0xBF
            ∧ 0x80 ≤ s3 ∧ s3 ≤ 0xBF then
          (s0 % 8 * 262144 + s1 % 64 * 4096 + s2 % 64 * 64 + s3 % 64, 4)
        else (RuneError, 1)
      | _ => (RuneError, 1)
    else (RuneError, 1)

/-- The loop of the conversion `[]rune(s)`: decode one rune, advance by its
width.  The first argument bounds the number of iterations. -/
def decodeRunesAux : Nat → GoString → List Nat
  | 0, _ => []
  | _ + 1, [] => []
  | n + 1, b :: rest =>
    (DecodeRuneInString (b :: rest)).1 ::
      decodeRunesAux n (rest.drop ((DecodeRuneInString (b :: rest)).2 - 1))

/-- Go's conversion `[]rune(s)`. Every byte that does not start a valid UTF-8
sequence becomes one `RuneError`. -/
def decodeRunes (s : GoString) : List Nat := decodeRunesAux s.length s

/-- Go's `utf8.EncodeRune` (as used by the conversion `string(r)`): the UTF-8
bytes of one rune; surrogates and values above U+10FFFF encode as U+FFFD. -/
def encodeRune (r : Nat) : GoString :=
  if r ≤ 0x7F then [r]
  else if r ≤ 0x7FF then [0xC0 + r / 64, 0x80 + r % 64]
  else if 0x10FFFF < r ∨ (0xD800 ≤ r ∧ r ≤ 0xDFFF) then [0xEF, 0xBF, 0xBD]
  else if r ≤ 0xFFFF then [0xE0 + r / 4096, 0x80 + r / 64 % 64, 0x80 + r % 64]
  else [0xF0 + r / 262144, 0x80 + r / 4096 % 64, 0x80 + r / 64 % 64, 0x80 + r % 64]

/-- Go's conversion `string(runes)`. -/
def encodeRunes : List Nat → GoString
  | [] => []
  | r :: rs => encodeRune r ++ encodeRunes rs

/-- Go's `utf8.ValidString`, on the decoding loop: no position of `s` decodes
to an encoding error (`RuneError` of width 1 that is not the three bytes of
U+FFFD itself). -/
def ValidStringAux : Nat → GoString → Bool
  | 0, s => s.isEmpty
  | _ + 1, [] => true
  | n + 1, b :: rest =>
    (0 < (DecodeRuneInString (b :: rest)).2
      && ((DecodeRuneInString (b :: rest)).1 != RuneError
          || (DecodeRuneInString (b :: rest)).2 == 3))
      && ValidStringAux n (rest.drop ((DecodeRuneInString (b :: rest)).2 - 1))

/-- Go's `utf8.ValidString`. -/
def ValidString (s : GoString) : Bool := ValidStringAux s.length s

/-- The bytes of a Lean string literal, as a Go string. -/
def str (s : String) : GoString := encodeRunes (s.toList.map Char.toNat)

/-- The Unicode decimal digits (category Nd) of Unicode 15.0.0 as inclusive
code-point ranges: one version of the table `unicode.Digit` of the Go standard
library.  The table grows with the Unicode version of the toolchain. -/
def digitRanges : List (Nat × Nat) :=
  [(0x30, 0x39), (0x660, 0x669), (0x6F0, 0x6F9), (0x7C0, 0x7C9), (0x966, 0x96F),
   (0x9E6, 0x9EF), (0xA66, 0xA6F), (0xAE6, 0xAEF), (0xB66, 0xB6F), (0xBE6, 0xBEF),
   (0xC66, 0xC6F), (0xCE6, 0xCEF), (0xD66, 0xD6F), (0xDE6, 0xDEF), (0xE50, 0xE59),
   (0xED0, 0xED9), (0xF20, 0xF29), (0x1040, 0x1049), (0x1090, 0x1099),
   (0x17E0, 0x17E9), (0x1810, 0x1819), (0x1946, 0x194F), (0x19D0, 0x19D9),
   (0x1A80, 0x1A89), (0x1A90, 0x1A99), (0x1B50, 0x1B59), (0x1BB0, 0x1BB9),
   (0x1C40, 0x1C49), (0x1C50, 0x1C59), (0xA620, 0xA629), (0xA8D0, 0xA8D9),
   (0xA900, 0xA909), (0xA9D0, 0xA9D9), (0xA9F0, 0xA9F9), (0xAA50, 0xAA59),
   (0xABF0, 0xABF9), (0xFF10, 0xFF19), (0x104A0, 0x104A9), (0x10D30, 0x10D39),
   (0x11066, 0x1106F), (0x110F0, 0x110F9), (0x11136, 0x1113F), (0x111D0, 0x111D9),
   (0x112F0, 0x112F9), (0x11450, 0x11459), (0x114D0, 0x114D9), (0x11650, 0x11659),
   (0x116C0, 0x116C9), (0x11730, 0x11739), (0x118E0, 0x118E9), (0x11950, 0x11959),
   (0x11C50, 0x11C59), (0x11D50, 0x11D59), (0x11DA0, 0x11DA9), (0x11F50, 0x11F59),
   (0x16A60, 0x16A69), (0x16AC0, 0x16AC9), (0x16B50, 0x16B59), (0x1D7CE, 0x1D7FF),
   (0x1E140, 0x1E149), (0x1E2F0, 0x1E2F9), (0x1E4F0, 0x1E4F9), (0x1E950, 0x1E959),
   (0x1FBF0, 0x1FBF9)]

/-- Go's `unicode.IsDigit` with the table of Unicode 15.0.0.  Which runes are
decimal digits depends on the toolchain, so the comparator below takes the
predicate as its parameter `isDigit`; this value of the parameter serves to
evaluate the comparator on concrete strings. -/
def unicode15 (r : Nat) : Bool :=
  digitRanges.any (fun p => decide (p.1 ≤ r) && decide (r ≤ p.2))

/-! ## `internal/sort/natural.go`

The only library data the comparator reads is the digit table behind
`unicode.IsDigit`.  It is the parameter `isDigit` of `splitChunks`,
`naturalLess`, `Natural` and of everything that sorts with them. -/

/-- A segment of a string, either numeric or non-numeric. -/
structure chunk where
  value : GoString
  isNumeric : Bool
deriving DecidableEq, Repr

/-- Go's built-in `a < b` on strings: byte-wise lexicographic order, a proper
prefix being smaller. -/
def strLess : GoString → GoString → Bool
  | [], [] => false
  | [], _ :: _ => true
  | _ :: _, [] => false
  | x :: xs, y :: ys => if x < y then true else if y < x then false else strLess xs ys

/-- Returns -1, 0, or 1 for string comparison. -/
def compareStrings (a b : GoString) : Int :=
  if strLess a b then -1
  else if strLess b a then 1
  else 0

/-- Removes leading zeros from a numeric string; the loop
`for i < len(s)-1 && s[i] == '0'` never consumes the last byte. -/
def stripLeadingZeros : GoString → GoString
  | c :: d :: rest => if c = 48 then stripLeadingZeros (d :: rest) else c :: d :: rest
  | s => s

/-- Compares two numeric strings by their integer value; for equal values the
shorter original string comes first. -/
def compareNumeric (a b : GoString) : Int :=
  let aStripped := stripLeadingZeros a
  let bStripped := stripLeadingZeros b
  if aStripped.length ≠ bStripped.length then
    if aStripped.length < bStripped.length then -1 else 1
  else
    let cmp := compareStrings aStripped bStripped
    if cmp ≠ 0 then cmp
    else if a.length < b.length then -1
    else if a.length > b.length then 1
    else 0

/-- Compares two chunks: -1 if a < b, 0 if a == b, 1 if a > b. -/
def compareChunks (a b : chunk) : Int :=
  if a.isNumeric && b.isNumeric then compareNumeric a.value b.value
  else if a.isNumeric != b.isNumeric then
    if a.isNumeric then -1 else 1
  else compareStrings a.value b.value

/-- The outer loop of `splitChunks` over the rune slice: one maximal run of
runes of the same kind per iteration.  `isDigit` is `unicode.IsDigit` of the
toolchain; the next argument bounds the number of iterations. -/
def splitChunksAux (isDigit : Nat → Bool) : Nat → List Nat → List chunk
  | 0, _ => []
  | _ + 1, [] => []
  | n + 1, r :: rest =>
    { value := encodeRunes (r :: rest.takeWhile (fun x => isDigit x == isDigit r)),
      isNumeric := isDigit r } ::
      splitChunksAux isDigit n (rest.dropWhile (fun x => isDigit x == isDigit r))

/-- Divides a string into alternating numeric and non-numeric segments. -/
def splitChunks (isDigit : Nat → Bool) (s : GoString) : List chunk :=
  splitChunksAux isDigit (decodeRunes s).length (decodeRunes s)

/-- The comparison loop of `naturalLess` over the two chunk slices, from the
current index on: the first unequal pair decides, otherwise the slice with
fewer chunks comes first. -/
def naturalLessLoop : List chunk → List chunk → Bool
  | a :: as, b :: bs =>
    if compareChunks a b ≠ 0 then decide (compareChunks a b < 0)
    else naturalLessLoop as bs
  | as, bs => decide (as.length < bs.length)

/-- Returns true if a should come before b in natural order. -/
def naturalLess (isDigit : Nat → Bool) (a b : GoString) : Bool :=
  naturalLessLoop (splitChunks isDigit a) (splitChunks isDigit b)

/-- One pass of the inner loop of Go's insertion sort on the already sorted
prefix, given nearest element first: `x` moves left past every element `p`
with `less x p`. -/
def insertLeft {α : Type} (less : α → α → Bool) (x : α) : List α → List α
  | [] => [x]
  | p :: ps => if less x p then p :: insertLeft less x ps else x :: p :: ps

/-- Go's `sort.SliceStable`, modelled by the stable insertion sort that the
library runs on each block (`insertionSortLessFunc`): elements are taken left
to right and sunk into the sorted prefix, which is kept reversed here. -/
def SliceStable {α : Type} (less : α → α → Bool) (items : List α) : List α :=
  (items.foldl (fun sortedRev x => insertLeft less x sortedRev) []).reverse

/-- Sorts strings in natural/alphanumeric order; the slice after the in-place
sort is the result. -/
def Natural (isDigit : Nat → Bool) (items : List GoString) : List GoString :=
  SliceStable (naturalLess isDigit) items

/-! ## `internal/chapter/images.go`: the image entry -/

/-- An image file to be included in a CBZ archive. -/
structure ImageFile where
  Path : GoString
  Name : GoString
deriving DecidableEq, Repr

/-! ## `internal/cbz/writer.go`

The file system seen by `Create` is a partial map from paths to file contents.
The ZIP wire format belongs to Go's `archive/zip`; an archive is kept as the
ordered list of its entries together with a flag telling whether the central
directory has been written.  Modification times and the compression method are
not modelled.  `os.Stat` succeeds exactly on existing paths, and the calls
whose error the source ignores (`outFile.Close`, `os.Remove`, `srcFile.Close`)
take their nominal effect; every call whose error the source inspects may fail,
as decided by a fault assignment. -/

/-- What a file holds: plain bytes, or the output of a ZIP writer: the entries
stored so far, each a name with the content copied from its source, and whether
the archive is complete (central directory written). -/
inductive Content where
  | bytes (data : List Nat)
  | archive (entries : List (GoString × Content)) (complete : Bool)

/-- The file system: the content of every existing file, by path. -/
abbrev FileSys := GoString → Option Content

/-- The file at `p` is created or replaced with content `c`. -/
def FileSys.write (fs : FileSys) (p : GoString) (c : Content) : FileSys :=
  fun q => if q = p then some c else fs q

/-- Effect of `os.Remove(p)`. -/
def FileSys.remove (fs : FileSys) (p : GoString) : FileSys :=
  fun q => if q = p then none else fs q

/-- Go `error` values returned by `Create`. -/
inductive GoError where
  | alreadyExists (path : GoString)
  | notExist (path : GoString)
  | fault (code : Nat)
deriving DecidableEq, Repr

/-- The calls of `Create` whose error result the source inspects; `i` is the
index of the entry being added. -/
inductive Op where
  | osCreate
  | osOpen (i : Nat)
  | fileStat (i : Nat)
  | createHeader (i : Nat)
  | ioCopy (i : Nat)
  | zipClose
deriving DecidableEq, Repr

/-- A fault assignment: the error, if any, with which each call fails. -/
abbrev Faults := Op → Option GoError

/-- Configures CBZ archive creation behavior. -/
structure CreateOptions where
  Force : Bool
deriving DecidableEq, Repr

/-- State of the output during `Create`: the entries the ZIP writer has stored
and the file system. -/
structure Output where
  zw : List (GoString × Content)
  fs : FileSys

/-- Adds a single image file to the ZIP archive: open the source, stat it,
create the entry header, stream the content.  On success the entry is
appended to the file being written at `outputPath`. -/
def addImageToArchive (faults : Faults) (i : Nat) (outputPath : GoString) (out : Output)
    (img : ImageFile) : Output × Option GoError :=
  match out.fs img.Path with
  | none => (out, some (GoError.notExist img.Path))
  | some content =>
    match faults (Op.osOpen i) with
    | some e => (out, some e)
    | none =>
      match faults (Op.fileStat i) with
      | some e => (out, some e)
      | none =>
        match faults (Op.createHeader i) with
        | some e => (out, some e)
        | none =>
          match faults (Op.ioCopy i) with
          | some e => (out, some e)
          | none =>
            ({ zw := out.zw ++ [(img.Name, content)],
               fs := out.fs.write outputPath
                 (Content.archive (out.zw ++ [(img.Name, content)]) false) }, none)

/-- The loop `for _, img := range images` of `Create` from entry `i` on: the
file-system states after each `addImageToArchive` call, the output reached, and
the error of the first failing entry (which ends the loop). -/
def addImages (faults : Faults) (outputPath : GoString) :
    Nat → List ImageFile → Output → List FileSys × Output × Option GoError
  | _, [], out => ([], out, none)
  | i, img :: rest, out =>
    match addImageToArchive faults i outputPath out img with
    | (out', some e) => ([out'.fs], out', some e)
    | (out', none) =>
      ((out'.fs) :: (addImages faults outputPath (i + 1) rest out').1,
        (addImages faults outputPath (i + 1) rest out').2)

/-- Effect and result of `zipWriter.Close()`: writes the central directory,
which completes the archive, unless it fails. -/
def zipClose (faults : Faults) (outputPath : GoString) (out : Output) :
    FileSys × Option GoError :=
  match faults Op.zipClose with
  | some e => (out.fs, some e)
  | none => (out.fs.write outputPath (Content.archive out.zw true), none)

/-- Effect of a successful `os.Create(outputPath)` followed by
`zip.NewWriter(outFile)`: the file exists and is empty (an existing file is
truncated), and the ZIP writer has stored no entry. -/
def createdOutput (fs : FileSys) (outputPath : GoString) : Output :=
  { zw := [], fs := fs.write outputPath (Content.archive [] false) }

/-- Outcome of a call of `Create`: the file-system states reached during the
call (after each effect, in order), the file system when the call returns, and
the returned error (`none` for `nil`). -/
structure CreateResult where
  trace : List FileSys
  fs : FileSys
  err : Option GoError

/-- Creates a CBZ archive at `outputPath` containing the given images.
The two deferred functions run in reverse order of registration after the
return value is set: first `zipWriter.Close()`, then `outFile.Close()` with the
removal of the output when `success` is false. -/
def Create (faults : Faults) (fs : FileSys) (outputPath : GoString)
    (images : List ImageFile) (opts : CreateOptions) : CreateResult :=
  if !opts.Force && (fs outputPath).isSome then
    { trace := [], fs := fs, err := some (GoError.alreadyExists outputPath) }
  else
    match faults Op.osCreate with
    | some e => { trace := [], fs := fs, err := some e }
    | none =>
      let loop := addImages faults outputPath 0 images (createdOutput fs outputPath)
      let success := loop.2.2.isNone
      let err := loop.2.2
      let closed := zipClose faults outputPath loop.2.1
      let closeFailed := closed.2.isSome && err.isNone
      let err := if closeFailed then closed.2 else err
      let success := if closeFailed then false else success
      let final := if success then closed.1 else closed.1.remove outputPath
      { trace := (createdOutput fs outputPath).fs :: loop.1 ++ [closed.1, final],
        fs := final, err := err }

/-! ## `internal/chapter/chapter.go`

The directory tree seen by `Discover`: a node is a directory with its entries,
in the order `os.ReadDir` lists them, or something that is not a directory.
Paths are kept as lists of components below the root of the tree, the form
`filepath.Abs` gives them; reading an existing directory is taken to succeed.
The tree has no symbolic links: the input directory is a directory itself, not
a link to one (`os.Stat` would follow the link, `filepath.WalkDir` would not). -/

/-- A node of the directory tree. -/
inductive Node where
  | file
  | dir (entries : List (GoString × Node))

/-- Go's `IsDir()` of a `DirEntry` or `FileInfo`. -/
def Node.IsDir : Node → Bool
  | Node.file => false
  | Node.dir _ => true

/-- The entry called `name` among the entries of a directory. -/
def findEntry (name : GoString) : List (GoString × Node) → Option Node
  | [] => none
  | (n, node) :: rest => if n = name then some node else findEntry name rest

/-- The node at a path (as `os.Stat` finds it), if there is one. -/
def Node.lookup : Node → List GoString → Option Node
  | n, [] => some n
  | Node.file, _ :: _ => none
  | Node.dir entries, c :: cs =>
    match findEntry c entries with
    | none => none
    | some n => n.lookup cs

/-- A path error of `Discover`. -/
inductive PathError where
  | notExist (path : List GoString)
  | invalid (path : List GoString)
deriving DecidableEq, Repr

/-- Go's `os.ReadDir`: the entries of the directory at `dir`. -/
def ReadDir (root : Node) (dir : List GoString) :
    Except PathError (List (GoString × Node)) :=
  match root.lookup dir with
  | none => Except.error (PathError.notExist dir)
  | some Node.file => Except.error (PathError.invalid dir)
  | some (Node.dir entries) => Except.ok entries

/-- Go's `strings.HasPrefix`. -/
def HasPrefix (s pre : GoString) : Bool := pre.isPrefixOf s

/-- The path separator `/`. -/
def Separator : Nat := 47

/-- Go's `strings.Join(components, "/")`. -/
def joinSep : List GoString → GoString
  | [] => []
  | [c] => c
  | c :: d :: rest => c ++ Separator :: joinSep (d :: rest)

/-- The absolute path string of a component list: `filepath.Join` of the root
`/` and the components. -/
def pathString (components : List GoString) : GoString :=
  Separator :: joinSep components

/-- A manga chapter directory. -/
structure Chapter where
  Name : GoString
  Path : GoString
deriving DecidableEq, Repr

/-- The Go map `nameToChapter` after the first loop of `sortChapters`, from the
map `m` so far: a later chapter replaces an earlier one of the same name. -/
def nameToChapter (m : GoString → Option Chapter) : List Chapter → GoString → Option Chapter
  | [] => m
  | ch :: rest => nameToChapter (fun n => if n = ch.Name then some ch else m n) rest

/-- Sorts chapters by name in natural order: the names are extracted and
sorted, then the slice is rebuilt from the map by name (a missing key would
give the zero `Chapter`). -/
def sortChapters (isDigit : Nat → Bool) (chapters : List Chapter) : List Chapter :=
  (Natural isDigit (chapters.map Chapter.Name)).map
    (fun name => (nameToChapter (fun _ => none) chapters name).getD { Name := [], Path := [] })

/-- The loop of `discoverFlat` over the directory entries. -/
def discoverFlatLoop (inputDir : List GoString) : List (GoString × Node) → List Chapter
  | [] => []
  | (name, node) :: rest =>
    if !node.IsDir then discoverFlatLoop inputDir rest
    else if HasPrefix name (str ".") then discoverFlatLoop inputDir rest
    else { Name := name, Path := pathString (inputDir ++ [name]) } ::
      discoverFlatLoop inputDir rest

/-- Finds chapter directories one level deep. -/
def discoverFlat (isDigit : Nat → Bool) (root : Node) (inputDir : List GoString) :
    Except PathError (List Chapter) :=
  match ReadDir root inputDir with
  | Except.error e => Except.error e
  | Except.ok entries => Except.ok (sortChapters isDigit (discoverFlatLoop inputDir entries))

/-- Returns true if the directory contains no non-hidden subdirectory; the
argument is the entry list `os.ReadDir(dir)` returns. -/
def isLeafDirectory : List (GoString × Node) → Bool
  | [] => true
  | (name, node) :: rest =>
    if node.IsDir && !HasPrefix name (str ".") then false else isLeafDirectory rest

mutual
/-- Go's `filepath.WalkDir` with the callback of `discoverRecursive`, at the
node `rel` below `inputDir` whose base name is `name`: the chapters appended
while walking this node and, unless the callback returns `SkipDir`, its
entries. -/
def walkDir (inputDir rel : List GoString) (name : GoString) : Node → List Chapter
  | Node.file => []
  | Node.dir entries =>
    if HasPrefix name (str ".") then []
    else if rel = [] then walkEntries inputDir rel entries
    else
      (if isLeafDirectory entries then
        [{ Name := joinSep rel, Path := pathString (inputDir ++ rel) }]
      else []) ++ walkEntries inputDir rel entries
/-- The walk over the entries of the directory at `rel`, in listing order. -/
def walkEntries (inputDir rel : List GoString) : List (GoString × Node) → List Chapter
  | [] => []
  | (name, node) :: rest =>
    walkDir inputDir (rel ++ [name]) name node ++ walkEntries inputDir rel rest
end

/-- The base name of a path given by its components (`d.Name()` of the walk's
root): the last component, `/` for the root of the file system. -/
def baseName (components : List GoString) : GoString :=
  (components.getLast?).getD [Separator]

/-- Finds chapter directories at all depths: the leaf directories. -/
def discoverRecursive (isDigit : Nat → Bool) (root : Node) (inputDir : List GoString) :
    Except PathError (List Chapter) :=
  match root.lookup inputDir with
  | none => Except.error (PathError.notExist inputDir)
  | some node => Except.ok (sortChapters isDigit (walkDir inputDir [] (baseName inputDir) node))

/-- Finds chapter directories in the input directory. -/
def Discover (isDigit : Nat → Bool) (root : Node) (inputDir : List GoString) (recursive : Bool) :
    Except PathError (List Chapter) :=
  match root.lookup inputDir with
  | none => Except.error (PathError.notExist inputDir)
  | some info =>
    if !info.IsDir then Except.error (PathError.invalid inputDir)
    else if recursive then discoverRecursive isDigit root inputDir
    else discoverFlat isDigit root inputDir

/-- The tree `/root` with `.hidden`, `ChapterA`, `ChapterB` and a plain file. -/
def treeFlat : Node :=
  Node.dir [(str "root", Node.dir
    [(str ".hidden", Node.dir [(str "1.jpg", Node.file)]),
     (str "ChapterA", Node.dir [(str "1.jpg", Node.file)]),
     (str "ChapterB", Node.dir [(str "1.jpg", Node.file)]),
     (str "readme.txt", Node.file)])]

/-- The entry list `es` stores the images in order: entry `i` has the name
`images[i].Name` and the content that the file system `fs` holds at
`images[i].Path`. -/
def StoresImages (fs : FileSys) (images : List ImageFile)
    (es : List (GoString × Content)) : Prop :=
  es.map Prod.fst = images.map ImageFile.Name ∧
    es.map (fun e => some e.2) = images.map (fun img => fs img.Path)

/-- A file system holding one image, `/t/valid.jpg`. -/
def fsValid : FileSys :=
  fun p => if p = str "/t/valid.jpg" then some (Content.bytes [0xFF, 0xD8, 0xFF]) else none

/-- A file system holding only a file at `/t/out.cbz`. -/
def fsExisting : FileSys :=
  fun p => if p = str "/t/out.cbz" then some (Content.bytes [1, 2, 3]) else none

/-- The empty file system. -/
def fsEmpty : FileSys := fun _ => none

/-- No call fails. -/
def noFaults : Faults := fun _ => none

/-- Only `zipWriter.Close()` fails. -/
def closeFault : Faults := fun op => if op = Op.zipClose then some (GoError.fault 28) else none

/-- Two strings are equal in the comparator's order: neither is
`naturalLess` than the other. -/
def tied (isDigit : Nat → Bool) (x y : GoString) : Bool :=
  !naturalLess isDigit x y && !naturalLess isDigit y x

/-- Whether `name` can be the name of a directory entry: not empty, not `.` or
`..`, and without a path separator. -/
def validName (name : GoString) : Bool :=
  !name.isEmpty && name != str "." && name != str ".." && !name.contains Separator

mutual
/-- Whether a directory tree is one a file system can hold: in every
directory the entry names are valid and pairwise distinct. -/
def Node.wellFormed : Node → Bool
  | Node.file => true
  | Node.dir entries => wellFormedEntries entries
/-- Well-formedness of the entry list of a directory. -/
def wellFormedEntries : List (GoString × Node) → Bool
  | [] => true
  | (name, node) :: rest =>
    validName name && !(rest.map Prod.fst).contains name && node.wellFormed &&
      wellFormedEntries rest
end

/-- Go's `strings.Split(s, "/")`: the pieces of `s` between separators. -/
def splitSep : GoString → List GoString
  | [] => [[]]
  | c :: rest =>
    if c = Separator then [] :: splitSep rest
    else
      match splitSep rest with
      | [] => [[c]]
      | piece :: pieces => (c :: piece) :: pieces

/-- `Visits es p es'`: from a directory with entries `es` the relative path
`p`, every component of which is an entry that is a directory and does not
start with `.`, leads to a directory with entries `es'`. -/
inductive Visits : List (GoString × Node) → List GoString → List (GoString × Node) → Prop where
  | last (es : List (GoString × Node)) (name : GoString) (es' : List (GoString × Node)) :
      (name, Node.dir es') ∈ es → HasPrefix name (str ".") = false → Visits es [name] es'
  | step (es : List (GoString × Node)) (name : GoString) (es₁ : List (GoString × Node))
      (p : List GoString) (es' : List (GoString × Node)) :
      (name, Node.dir es₁) ∈ es → HasPrefix name (str ".") = false → Visits es₁ p es' →
      Visits es (name :: p) es'

/-- The chapter `discoverRecursive` reports for the directory at `rel` below
`inputDir`. -/
def chapterAt (inputDir rel : List GoString) : Chapter :=
  { Name := joinSep rel, Path := pathString (inputDir ++ rel) }

/-- The tree `/.manga/Chapter1/1.jpg`, with the same content also under the
visible name `/manga`. -/
def treeHiddenRoot : Node :=
  Node.dir
    [(str ".manga", Node.dir [(str "Chapter1", Node.dir [(str "1.jpg", Node.file)])]),
     (str "manga", Node.dir [(str "Chapter1", Node.dir [(str "1.jpg", Node.file)])])]

/-- The tree of `TestDiscover_SkipHiddenRecursive` under `/root`. -/
def treeHiddenVol : Node :=
  Node.dir [(str "root", Node.dir
    [(str ".hiddenVol", Node.dir [(str "Chapter2", Node.dir [(str "page1.jpg", Node.file)])]),
     (str "Volume1", Node.dir [(str "Chapter1", Node.dir [(str "page1.jpg", Node.file)])])])]

/-! ## Go string functions used by the collector and the converter

`strings.ToLower` maps non-ASCII runes through the case tables of Go's
`unicode` package, which are not part of this repository: the mapping of the
runes above U+007F is a parameter `caseTable` of every definition that
lower-cases. -/

/-- Go's `strings.TrimPrefix`. -/
def TrimPrefix (s pre : GoString) : GoString :=
  if HasPrefix s pre then s.drop pre.length else s

/-- Go's `strings.HasSuffix`. -/
def HasSuffix (s suf : GoString) : Bool := suf.isSuffixOf s

/-- Go's `strings.TrimSuffix`. -/
def TrimSuffix (s suf : GoString) : GoString :=
  if HasSuffix s suf then s.take (s.length - suf.length) else s

/-- The loop of `filepath.Ext`, scanning backwards: the first argument holds
the bytes `path[i], path[i-1], ..., path[0]` still to scan, the second the
bytes after position `i`. -/
def extLoop : List Nat → GoString → GoString
  | [], _ => []
  | c :: before, after =>
    if c = Separator then []
    else if c = 46 then c :: after
    else extLoop before (c :: after)

/-- Go's `filepath.Ext`: the suffix beginning at the final dot in the final
element of the path, empty if there is no dot. -/
def Ext (path : GoString) : GoString := extLoop path.reverse []

/-- Go's `filepath.Base`: the last element of the path, after removing
trailing separators. -/
def Base (path : GoString) : GoString :=
  if path = [] then str "."
  else
    if ((path.reverse.dropWhile (fun c => c == Separator)).takeWhile
        (fun c => c != Separator)).reverse = [] then [Separator]
    else ((path.reverse.dropWhile (fun c => c == Separator)).takeWhile
        (fun c => c != Separator)).reverse

/-- Lower-casing of one ASCII byte: `'A'..'Z'` become `'a'..'z'`. -/
def lowerASCII (c : Nat) : Nat := if 65 ≤ c ∧ c ≤ 90 then c + 32 else c

/-- Go's `unicode.ToLower`: ASCII is handled directly, every other rune by
the case table. -/
def unicodeToLower (caseTable : Nat → Nat) (r : Nat) : Nat :=
  if r ≤ 0x7F then (if 65 ≤ r ∧ r ≤ 90 then r + 32 else r) else caseTable r

/-- Go's `strings.ToLower`: byte-wise on ASCII-only strings, otherwise
`strings.Map(unicode.ToLower, s)`, which re-encodes the mapped runes of `s`. -/
def ToLower (caseTable : Nat → Nat) (s : GoString) : GoString :=
  if s.all (fun c => decide (c < 0x80)) then
    if !s.any (fun c => decide (65 ≤ c ∧ c ≤ 90)) then s
    else s.map lowerASCII
  else encodeRunes ((decodeRunes s).map (unicodeToLower caseTable))

/-- A case table that leaves every rune unchanged (for examples whose names
are ASCII). -/
def plainCaseTable : Nat → Nat := fun r => r

/-! ## `internal/chapter/images.go` -/

/-- The Go map `extSet` after the first loop of `CollectImages`, from the
map `m` so far; a key that was never set reads as `false`. -/
def extSetOf (caseTable : Nat → Nat) (m : GoString → Bool) :
    List GoString → GoString → Bool
  | [] => m
  | ext :: rest =>
    extSetOf caseTable
      (fun key => if key = ToLower caseTable (TrimPrefix ext (str ".")) then true else m key)
      rest

/-- The second loop of `CollectImages`: the names of the entries that are not
directories and whose lower-cased extension is in `extSet`. -/
def collectNames (caseTable : Nat → Nat) (extSet : GoString → Bool) :
    List (GoString × Node) → List GoString
  | [] => []
  | (name, node) :: rest =>
    if node.IsDir then collectNames caseTable extSet rest
    else if extSet (ToLower caseTable (TrimPrefix (Ext name) (str "."))) then
      name :: collectNames caseTable extSet rest
    else collectNames caseTable extSet rest

/-- Finds all image files in a directory matching the given extensions,
sorted in natural order. -/
def CollectImages (isDigit : Nat → Bool) (caseTable : Nat → Nat) (root : Node) (dir : List GoString)
    (extensions : List GoString) : Except PathError (List ImageFile) :=
  match ReadDir root dir with
  | Except.error e => Except.error e
  | Except.ok entries =>
    Except.ok ((Natural isDigit (collectNames caseTable
        (extSetOf caseTable (fun _ => false) extensions) entries)).map
      (fun name => { Path := pathString (dir ++ [name]), Name := name }))

/-- One leading `.` removed, if there is one. -/
def dropDot : GoString → GoString
  | 46 :: rest => rest
  | s => s

/-- Two spellings of an extension that differ only by one leading `.` and by
the case of ASCII letters. -/
def sameSpelling (e e' : GoString) : Prop :=
  (dropDot e).map lowerASCII = (dropDot e').map lowerASCII

/-- The suffix of a name after its last `.`, empty if the name has no `.`. -/
def suffixAfterLastDot (name : GoString) : GoString :=
  if 46 ∈ name then (name.reverse.takeWhile (fun c => c != 46)).reverse else []

/-- The directory `/d` of `TestCollectImages_FilterNonImages`, with a
subdirectory added. -/
def treeImages : Node :=
  Node.dir [(str "d", Node.dir
    [(str "01.jpg", Node.file), (str "notes.txt", Node.file), (str "readme.md", Node.file),
     (str "sub.jpg", Node.dir [])])]

/-- The directory `/d` with `1.jpg`, `10.jpg`, `2.jpg`, `notes.txt`. -/
def treePages : Node :=
  Node.dir [(str "d", Node.dir
    [(str "1.jpg", Node.file), (str "10.jpg", Node.file), (str "2.jpg", Node.file),
     (str "notes.txt", Node.file)])]

/-- The directory `/d` with `01.JPG`, `02.Png`, `03.jpeg`. -/
def treeUpper : Node :=
  Node.dir [(str "d", Node.dir
    [(str "01.JPG", Node.file), (str "02.Png", Node.file), (str "03.jpeg", Node.file)])]

/-! ## `internal/convert/converter.go`

WebP decoding and PNG encoding belong to external libraries: whether they
fail is decided by a fault assignment, and the PNG content produced from a
source is a parameter.  `os.MkdirTemp` yields the directory `tempDir` of the
environment. -/

/-- The calls of `ConvertWebPImages` whose error result the source inspects;
`i` is the index of the image being converted. -/
inductive ConvOp where
  | mkdirTemp
  | osOpen (i : Nat)
  | webpDecode (i : Nat)
  | osCreate (i : Nat)
  | pngEncode (i : Nat)
deriving DecidableEq, Repr

/-- What the converter takes from its environment. -/
structure ConvEnv where
  caseTable : Nat → Nat
  faults : ConvOp → Option GoError
  tempDir : GoString
  toPNG : Content → Content

/-- Checks if a filename has a .webp extension (case-insensitive). -/
def isWebP (caseTable : Nat → Nat) (filename : GoString) : Bool :=
  ToLower caseTable (Ext filename) == str ".webp"

/-- Go's `filepath.Join` of a clean directory path and a file name. -/
def joinPath (dir name : GoString) : GoString := dir ++ Separator :: name

/-- The name `convertWebPToPNG` gives the converted file: the name without
its extension, followed by `.png`. -/
def pngName (name : GoString) : GoString :=
  TrimSuffix name (Ext name) ++ str ".png"

/-- Converts a single WebP image to PNG format; the converted file is
written to the temp directory. -/
def convertWebPToPNG (env : ConvEnv) (i : Nat) (fs : FileSys) (img : ImageFile) :
    FileSys × Except GoError ImageFile :=
  match fs img.Path with
  | none => (fs, Except.error (GoError.notExist img.Path))
  | some content =>
    match env.faults (ConvOp.osOpen i) with
    | some e => (fs, Except.error e)
    | none =>
      match env.faults (ConvOp.webpDecode i) with
      | some e => (fs, Except.error e)
      | none =>
        match env.faults (ConvOp.osCreate i) with
        | some e => (fs, Except.error e)
        | none =>
          match env.faults (ConvOp.pngEncode i) with
          | some e =>
            (fs.write (joinPath env.tempDir (pngName img.Name)) (Content.bytes []),
              Except.error e)
          | none =>
            (fs.write (joinPath env.tempDir (pngName img.Name)) (env.toPNG content),
              Except.ok { Path := joinPath env.tempDir (pngName img.Name),
                          Name := pngName img.Name })

/-- The loop `for i, img := range images` of `ConvertWebPImages` from image
`i` on: the file system reached and the result slice, or the error of the
first failing conversion. -/
def convertLoop (env : ConvEnv) :
    Nat → List ImageFile → FileSys → FileSys × Except GoError (List ImageFile)
  | _, [], fs => (fs, Except.ok [])
  | i, img :: rest, fs =>
    if !isWebP env.caseTable img.Name then
      match convertLoop env (i + 1) rest fs with
      | (fs', Except.ok result) => (fs', Except.ok (img :: result))
      | (fs', Except.error e) => (fs', Except.error e)
    else
      match convertWebPToPNG env i fs img with
      | (fs', Except.error e) => (fs', Except.error e)
      | (fs', Except.ok converted) =>
        match convertLoop env (i + 1) rest fs' with
        | (fs'', Except.ok result) => (fs'', Except.ok (converted :: result))
        | (fs'', Except.error e) => (fs'', Except.error e)

/-- Effect of `os.RemoveAll(dir)`: every file below `dir` is removed. -/
def FileSys.removeAll (fs : FileSys) (dir : GoString) : FileSys :=
  fun p => if HasPrefix p (dir ++ [Separator]) then none else fs p

/-- Outcome of `ConvertWebPImages`: the returned slice (`nil` on error), the
directory the returned cleanup function removes (`none` for the no-op cleanup
and for `nil`), the file system, and the returned error. -/
structure ConvertResult where
  images : List ImageFile
  cleanup : Option GoString
  fs : FileSys
  err : Option GoError

/-- Converts any WebP images in the slice to PNG format; non-WebP files are
passed through unchanged. -/
def ConvertWebPImages (env : ConvEnv) (fs : FileSys) (images : List ImageFile) :
    ConvertResult :=
  if !images.any (fun img => isWebP env.caseTable img.Name) then
    { images := images, cleanup := none, fs := fs, err := none }
  else
    match env.faults ConvOp.mkdirTemp with
    | some e => { images := [], cleanup := none, fs := fs, err := some e }
    | none =>
      match convertLoop env 0 images fs with
      | (fs', Except.error e) =>
        { images := [], cleanup := none, fs := fs'.removeAll env.tempDir, err := some e }
      | (fs', Except.ok result) =>
        { images := result, cleanup := some env.tempDir, fs := fs', err := none }

/-- An environment in which no call fails. -/
def plainEnv : ConvEnv :=
  { caseTable := plainCaseTable, faults := fun _ => none, tempDir := str "/tmp/convert",
    toPNG := fun c => c }

/-- A file system holding every path. -/
def fsAll : FileSys := fun _ => some (Content.bytes [])

/-- The entry that normalization returns in place of `img`: the converted
file in the temp directory for a WebP entry, `img` itself otherwise. -/
def convertedEntry (env : ConvEnv) (img : ImageFile) : ImageFile :=
  if isWebP env.caseTable img.Name then
    { Path := joinPath env.tempDir (pngName img.Name), Name := pngName img.Name }
  else img

/-- The tree `/lib/Vol1`, a directory that holds a page of its own and the
chapter directory `Ch1`. -/
def treeMixed : Node :=
  Node.dir [(str "lib", Node.dir
    [(str "Vol1", Node.dir
      [(str "cover.jpg", Node.file),
       (str "Ch1", Node.dir [(str "1.jpg", Node.file)])])])]

/-- The tree `/in` of an input directory without chapter directories: a plain
file and a hidden directory. -/
def treeNoChapters : Node :=
  Node.dir [(str "in", Node.dir
    [(str "notes.txt", Node.file),
     (str ".git", Node.dir [(str "objects", Node.dir [])])])]

/-- The one-level tree `/home/.comics` with the chapters `A` and `B`. -/
def treeDotRoot : Node :=
  Node.dir [(str "home", Node.dir
    [(str ".comics", Node.dir
      [(str "B", Node.dir [(str "1.jpg", Node.file)]),
       (str "A", Node.dir [(str "1.jpg", Node.file)])])])]

/-- Whether `r` is a Unicode scalar value: a code point up to U+10FFFF that is
not a surrogate. -/
def Scalar (r : Nat) : Prop := r ≤ 0x10FFFF ∧ ¬ (0xD800 ≤ r ∧ r ≤ 0xDFFF)

/-- Lexicographic order on sequences of code points: the first position where
the sequences differ decides, and a proper prefix comes first. -/
def codePointLess : List Nat → List Nat → Bool
  | [], [] => false
  | [], _ :: _ => true
  | _ :: _, [] => false
  | x :: xs, y :: ys => if x < y then true else if y < x then false else codePointLess xs ys

/-- The value 0..9 of a decimal digit rune: its offset, modulo ten, within its
range of the table `unicode.Digit` (every range starts at a digit zero). -/
def digitValue (r : Nat) : Nat :=
  match digitRanges.find? (fun p => decide (p.1 ≤ r) && decide (r ≤ p.2)) with
  | some p => (r - p.1) % 10
  | none => 0

/-- The integer denoted by a run of decimal digits, read in base ten, most
significant digit first. -/
def runValue (s : GoString) : Nat :=
  (decodeRunes s).foldl (fun acc r => acc * 10 + digitValue r) 0

/-- Whether `s` is a non-empty string of ASCII decimal digits `'0'..'9'`. -/
def isDigitString (s : GoString) : Bool :=
  !s.isEmpty && s.all (fun c => decide (48 ≤ c) && decide (c ≤ 57))

/-- The natural number denoted by a string of ASCII decimal digits, read in
base ten, most significant digit first. -/
def natValue (s : GoString) : Nat :=
  s.foldl (fun acc c => acc * 10 + (c - 48)) 0

/-- The concatenation of the values of a chunk sequence, in order. -/
def joinValues (cs : List chunk) : GoString :=
  cs.foldr (fun c acc => c.value ++ acc) []

/-- An integer-valued three-way comparison that is a strict total order:
zero exactly on equal arguments, sign-symmetric, and transitive. -/
structure StrictCmp {α : Type} (cmp : α → α → Int) : Prop where
  eq_zero_iff : ∀ a b, cmp a b = 0 ↔ a = b
  neg_iff_pos : ∀ a b, cmp a b < 0 ↔ 0 < cmp b a
  trans : ∀ a b c, cmp a b < 0 → cmp b c < 0 → cmp a c < 0

/-! ## Order lemmas for the byte-wise string comparison -/

theorem strLess_irrefl (a : GoString) : strLess a a = false := by
  induction a with
  | nil => rfl
  | cons x xs ih => simp [strLess, ih]

theorem strLess_asymm : ∀ (a b : GoString), strLess a b = true → strLess b a = false
  | [], [], h => by simp [strLess] at h
  | [], _ :: _, _ => by simp [strLess]
  | _ :: _, [], h => by simp [strLess] at h
  | x :: xs, y :: ys, h => by
    simp only [strLess] at h ⊢
    by_cases hxy : x < y
    · have : ¬ y < x := by omega
      simp [this, hxy]
    · by_cases hyx : y < x
      · simp [hxy, hyx] at h
      · simp only [hxy, hyx, if_false] at h ⊢
        exact strLess_asymm xs ys h

theorem strLess_connected : ∀ (a b : GoString),
    strLess a b = false → strLess b a = false → a = b
  | [], [], _, _ => rfl
  | [], _ :: _, h, _ => by simp [strLess] at h
  | _ :: _, [], _, h => by simp [strLess] at h
  | x :: xs, y :: ys, h₁, h₂ => by
    simp only [strLess] at h₁ h₂
    by_cases hxy : x < y
    · simp [hxy] at h₁
    · by_cases hyx : y < x
      · simp [hyx] at h₂
      · simp only [hxy, hyx, if_false] at h₁ h₂
        have hx : x = y := by omega
        rw [hx, strLess_connected xs ys h₁ h₂]

theorem strLess_trans : ∀ (a b c : GoString),
    strLess a b = true → strLess b c = true → strLess a c = true
  | [], _, [], _, h => by cases ‹GoString› <;> simp [strLess] at h
  | [], _, _ :: _, _, _ => by simp [strLess]
  | _ :: _, [], _, h, _ => by simp [strLess] at h
  | _ :: _, _ :: _, [], _, h => by simp [strLess] at h
  | x :: xs, y :: ys, z :: zs, h₁, h₂ => by
    simp only [strLess] at h₁ h₂ ⊢
    by_cases hxy : x < y
    · by_cases hyz : y < z
      · have : x < z := by omega
        simp [this]
      · by_cases hzy : z < y
        · simp [hyz, hzy] at h₂
        · have : x < z := by omega
          simp [this]
    · by_cases hyx : y < x
      · simp [hxy, hyx] at h₁
      · simp only [hxy, hyx, if_false] at h₁
        have hx : x = y := by omega
        subst hx
        by_cases hyz : x < z
        · simp [hyz]
        · by_cases hzy : z < x
          · simp [hyz, hzy] at h₂
          · simp only [hyz, hzy, if_false] at h₂ ⊢
            exact strLess_trans xs ys zs h₁ h₂

theorem compareStrings_neg_iff (a b : GoString) :
    compareStrings a b < 0 ↔ strLess a b = true := by
  unfold compareStrings
  by_cases h : strLess a b = true
  · simp [h]
  · by_cases h' : strLess b a = true <;> simp [h, h']

theorem compareStrings_pos_iff (a b : GoString) :
    0 < compareStrings a b ↔ strLess b a = true := by
  unfold compareStrings
  by_cases h : strLess a b = true
  · have := strLess_asymm a b h
    simp [h, this]
  · by_cases h' : strLess b a = true <;> simp [h, h']

theorem compareStrings_eq_zero_iff (a b : GoString) :
    compareStrings a b = 0 ↔ a = b := by
  unfold compareStrings
  constructor
  · intro h
    by_cases h₁ : strLess a b = true
    · simp [h₁] at h
    · by_cases h₂ : strLess b a = true
      · simp [h₁, h₂] at h
      · exact strLess_connected a b (by simpa using h₁) (by simpa using h₂)
  · rintro rfl
    simp [strLess_irrefl]

/-! ## The comparators are strict total orders -/

theorem strictCmp_compareStrings : StrictCmp compareStrings where
  eq_zero_iff := compareStrings_eq_zero_iff
  neg_iff_pos a b := by rw [compareStrings_neg_iff, compareStrings_pos_iff]
  trans a b c := by
    simp only [compareStrings_neg_iff]
    exact strLess_trans a b c

theorem stripLeadingZeros_spec : ∀ s : GoString,
    ∃ k, s = List.replicate k 48 ++ stripLeadingZeros s
  | [] => ⟨0, rfl⟩
  | [_] => ⟨0, rfl⟩
  | c :: d :: rest => by
    unfold stripLeadingZeros
    by_cases hc : c = 48
    · obtain ⟨k, hk⟩ := stripLeadingZeros_spec (d :: rest)
      refine ⟨k + 1, ?_⟩
      simp only [hc, if_true, List.replicate_succ, List.cons_append]
      rw [← hk]
    · exact ⟨0, by simp [hc]⟩

theorem stripLeadingZeros_inj (a b : GoString)
    (hs : stripLeadingZeros a = stripLeadingZeros b) (hl : a.length = b.length) : a = b := by
  obtain ⟨k, hk⟩ := stripLeadingZeros_spec a
  obtain ⟨m, hm⟩ := stripLeadingZeros_spec b
  have h₁ : a.length = k + (stripLeadingZeros a).length := by
    conv_lhs => rw [hk]
    simp
  have h₂ : b.length = m + (stripLeadingZeros b).length := by
    conv_lhs => rw [hm]
    simp
  have hkm : k = m := by rw [hs] at h₁; omega
  rw [hk, hm, hs, hkm]

theorem compareNumeric_neg_iff (a b : GoString) :
    compareNumeric a b < 0 ↔
      (stripLeadingZeros a).length < (stripLeadingZeros b).length ∨
      ((stripLeadingZeros a).length = (stripLeadingZeros b).length ∧
        (strLess (stripLeadingZeros a) (stripLeadingZeros b) = true ∨
          (stripLeadingZeros a = stripLeadingZeros b ∧ a.length < b.length))) := by
  unfold compareNumeric
  simp only []
  by_cases hl : (stripLeadingZeros a).length = (stripLeadingZeros b).length
  · simp only [hl, ne_eq, not_true_eq_false, if_false, lt_irrefl, false_or, true_and]
    by_cases hc : compareStrings (stripLeadingZeros a) (stripLeadingZeros b) = 0
    · have he := (compareStrings_eq_zero_iff _ _).1 hc
      rw [if_neg (not_not.2 hc)]
      simp only [he, strLess_irrefl, true_and]
      by_cases h₁ : a.length < b.length
      · simp [h₁]
      · by_cases h₂ : a.length > b.length <;> simp [h₁, h₂]
    · have hne : stripLeadingZeros a ≠ stripLeadingZeros b :=
        fun h => hc ((compareStrings_eq_zero_iff _ _).2 h)
      simp only [hc, not_false_eq_true, if_true, compareStrings_neg_iff, hne, false_and, or_false]
  · simp only [ne_eq, hl, not_false_eq_true, if_true, false_and, or_false]
    by_cases h : (stripLeadingZeros a).length < (stripLeadingZeros b).length <;> simp [h]

theorem compareNumeric_pos_iff (a b : GoString) :
    0 < compareNumeric a b ↔
      (stripLeadingZeros b).length < (stripLeadingZeros a).length ∨
      ((stripLeadingZeros b).length = (stripLeadingZeros a).length ∧
        (strLess (stripLeadingZeros b) (stripLeadingZeros a) = true ∨
          (stripLeadingZeros b = stripLeadingZeros a ∧ b.length < a.length))) := by
  unfold compareNumeric
  simp only []
  by_cases hl : (stripLeadingZeros a).length = (stripLeadingZeros b).length
  · simp only [hl, ne_eq, not_true_eq_false, if_false, lt_irrefl, false_or, true_and]
    by_cases hc : compareStrings (stripLeadingZeros a) (stripLeadingZeros b) = 0
    · have he := (compareStrings_eq_zero_iff _ _).1 hc
      rw [if_neg (not_not.2 hc)]
      simp only [he, strLess_irrefl, true_and]
      by_cases h₁ : a.length < b.length
      · have : ¬ b.length < a.length := by omega
        simp [h₁, this]
      · by_cases h₂ : a.length > b.length
        · simp [h₁, h₂]
        · have : ¬ b.length < a.length := by omega
          simp [h₁, h₂, this]
    · have hne : stripLeadingZeros b ≠ stripLeadingZeros a :=
        fun h => hc ((compareStrings_eq_zero_iff _ _).2 h.symm)
      simp only [hc, not_false_eq_true, if_true, compareStrings_pos_iff, hne, false_and, or_false]
  · have hl' : ¬ (stripLeadingZeros b).length = (stripLeadingZeros a).length := fun h => hl h.symm
    simp only [ne_eq, hl, hl', not_false_eq_true, if_true, false_and, or_false]
    by_cases h : (stripLeadingZeros a).length < (stripLeadingZeros b).length
    · have : ¬ (stripLeadingZeros b).length < (stripLeadingZeros a).length := by omega
      simp [h, this]
    · have : (stripLeadingZeros b).length < (stripLeadingZeros a).length := by omega
      simp [h, this]

theorem compareNumeric_eq_zero_iff (a b : GoString) : compareNumeric a b = 0 ↔ a = b := by
  constructor
  · intro h
    have h₁ : ¬ compareNumeric a b < 0 := by omega
    have h₂ : ¬ 0 < compareNumeric a b := by omega
    rw [compareNumeric_neg_iff] at h₁
    rw [compareNumeric_pos_iff] at h₂
    push_neg at h₁ h₂
    have hl : (stripLeadingZeros a).length = (stripLeadingZeros b).length := by omega
    have hs : stripLeadingZeros a = stripLeadingZeros b := by
      apply strLess_connected
      · simpa using (h₁.2 hl).1
      · simpa using (h₂.2 hl.symm).1
    have hn : a.length = b.length := by
      have := (h₁.2 hl).2 hs
      have := (h₂.2 hl.symm).2 hs.symm
      omega
    exact stripLeadingZeros_inj a b hs hn
  · rintro rfl
    unfold compareNumeric
    simp [(compareStrings_eq_zero_iff _ _).2 rfl]

theorem strictCmp_compareNumeric : StrictCmp compareNumeric where
  eq_zero_iff := compareNumeric_eq_zero_iff
  neg_iff_pos a b := by rw [compareNumeric_neg_iff, compareNumeric_pos_iff]
  trans a b c := by
    simp only [compareNumeric_neg_iff]
    rintro (h₁ | ⟨e₁, h₁⟩) (h₂ | ⟨e₂, h₂⟩)
    · left; omega
    · left; omega
    · left; omega
    · right
      refine ⟨e₁.trans e₂, ?_⟩
      rcases h₁ with h₁ | ⟨s₁, n₁⟩ <;> rcases h₂ with h₂ | ⟨s₂, n₂⟩
      · exact Or.inl (strLess_trans _ _ _ h₁ h₂)
      · left; rw [← s₂]; exact h₁
      · left; rw [s₁]; exact h₂
      · right; exact ⟨s₁.trans s₂, by omega⟩

theorem compareChunks_numeric (a b : chunk) (ha : a.isNumeric = true) (hb : b.isNumeric = true) :
    compareChunks a b = compareNumeric a.value b.value := by
  simp [compareChunks, ha, hb]

theorem compareChunks_text (a b : chunk) (ha : a.isNumeric = false) (hb : b.isNumeric = false) :
    compareChunks a b = compareStrings a.value b.value := by
  simp [compareChunks, ha, hb]

theorem compareChunks_numeric_text (a b : chunk) (ha : a.isNumeric = true)
    (hb : b.isNumeric = false) : compareChunks a b = -1 := by
  simp [compareChunks, ha, hb]

theorem compareChunks_text_numeric (a b : chunk) (ha : a.isNumeric = false)
    (hb : b.isNumeric = true) : compareChunks a b = 1 := by
  simp [compareChunks, ha, hb]

theorem strictCmp_compareChunks : StrictCmp compareChunks where
  eq_zero_iff := by
    rintro ⟨va, na⟩ ⟨vb, nb⟩
    cases na <;> cases nb
    · rw [compareChunks_text _ _ rfl rfl]
      simp [compareStrings_eq_zero_iff]
    · rw [compareChunks_text_numeric _ _ rfl rfl]
      simp
    · rw [compareChunks_numeric_text _ _ rfl rfl]
      simp
    · rw [compareChunks_numeric _ _ rfl rfl]
      simp [compareNumeric_eq_zero_iff]
  neg_iff_pos := by
    rintro ⟨va, na⟩ ⟨vb, nb⟩
    cases na <;> cases nb
    · rw [compareChunks_text _ _ rfl rfl, compareChunks_text _ _ rfl rfl]
      exact strictCmp_compareStrings.neg_iff_pos _ _
    · rw [compareChunks_text_numeric _ _ rfl rfl, compareChunks_numeric_text _ _ rfl rfl]
      simp
    · rw [compareChunks_numeric_text _ _ rfl rfl, compareChunks_text_numeric _ _ rfl rfl]
      simp
    · rw [compareChunks_numeric _ _ rfl rfl, compareChunks_numeric _ _ rfl rfl]
      exact strictCmp_compareNumeric.neg_iff_pos _ _
  trans := by
    rintro ⟨va, na⟩ ⟨vb, nb⟩ ⟨vc, nc⟩
    cases na <;> cases nb <;> cases nc <;> simp [compareChunks]
    · exact strictCmp_compareStrings.trans _ _ _
    · exact strictCmp_compareNumeric.trans _ _ _

/-! ## The comparison loop is a strict total order on chunk sequences -/

theorem naturalLessLoop_nil_left (bs : List chunk) :
    naturalLessLoop [] bs = decide (0 < bs.length) := by
  cases bs <;> simp [naturalLessLoop]

theorem naturalLessLoop_nil_right (as : List chunk) : naturalLessLoop as [] = false := by
  cases as <;> simp [naturalLessLoop]

theorem naturalLessLoop_cons (a b : chunk) (as bs : List chunk) :
    naturalLessLoop (a :: as) (b :: bs) =
      if compareChunks a b ≠ 0 then decide (compareChunks a b < 0)
      else naturalLessLoop as bs := by
  simp [naturalLessLoop]

theorem naturalLessLoop_irrefl (as : List chunk) : naturalLessLoop as as = false := by
  induction as with
  | nil => simp [naturalLessLoop]
  | cons a as ih =>
    rw [naturalLessLoop_cons, if_neg (not_not.2 ((strictCmp_compareChunks.eq_zero_iff a a).2 rfl))]
    exact ih

theorem naturalLessLoop_asymm : ∀ (as bs : List chunk),
    naturalLessLoop as bs = true → naturalLessLoop bs as = false
  | [], bs, _ => naturalLessLoop_nil_right bs
  | _ :: _, [], h => by simp [naturalLessLoop] at h
  | a :: as, b :: bs, h => by
    rw [naturalLessLoop_cons] at h ⊢
    by_cases hab : compareChunks a b = 0
    · have hba : compareChunks b a = 0 :=
        (strictCmp_compareChunks.eq_zero_iff b a).2
          ((strictCmp_compareChunks.eq_zero_iff a b).1 hab).symm
      rw [if_neg (not_not.2 hab)] at h
      rw [if_neg (not_not.2 hba)]
      exact naturalLessLoop_asymm as bs h
    · rw [if_pos hab] at h
      have hlt : compareChunks a b < 0 := by simpa using h
      have hpos := (strictCmp_compareChunks.neg_iff_pos a b).1 hlt
      have hba : compareChunks b a ≠ 0 := by omega
      rw [if_pos hba]
      simp only [decide_eq_false_iff_not]
      omega

theorem naturalLessLoop_connected : ∀ (as bs : List chunk),
    naturalLessLoop as bs = false → naturalLessLoop bs as = false → as = bs
  | [], [], _, _ => rfl
  | [], _ :: _, h, _ => by simp [naturalLessLoop] at h
  | _ :: _, [], _, h => by simp [naturalLessLoop] at h
  | a :: as, b :: bs, h₁, h₂ => by
    rw [naturalLessLoop_cons] at h₁ h₂
    by_cases hab : compareChunks a b = 0
    · have he := (strictCmp_compareChunks.eq_zero_iff a b).1 hab
      have hba : compareChunks b a = 0 := (strictCmp_compareChunks.eq_zero_iff b a).2 he.symm
      rw [if_neg (not_not.2 hab)] at h₁
      rw [if_neg (not_not.2 hba)] at h₂
      rw [he, naturalLessLoop_connected as bs h₁ h₂]
    · exfalso
      have hba : compareChunks b a ≠ 0 := fun h =>
        hab ((strictCmp_compareChunks.eq_zero_iff a b).2
          ((strictCmp_compareChunks.eq_zero_iff b a).1 h).symm)
      rw [if_pos hab] at h₁
      rw [if_pos hba] at h₂
      simp only [decide_eq_false_iff_not] at h₁ h₂
      have := strictCmp_compareChunks.neg_iff_pos b a
      omega

theorem naturalLessLoop_trans : ∀ (as bs cs : List chunk),
    naturalLessLoop as bs = true → naturalLessLoop bs cs = true →
      naturalLessLoop as cs = true
  | _, _, [], _, h => by rw [naturalLessLoop_nil_right] at h; cases h
  | _, [], _ :: _, h, _ => by rw [naturalLessLoop_nil_right] at h; cases h
  | [], _ :: _, _ :: _, _, _ => by simp [naturalLessLoop]
  | a :: as, b :: bs, c :: cs, h₁, h₂ => by
    rw [naturalLessLoop_cons] at h₁ h₂ ⊢
    by_cases hab : compareChunks a b = 0
    · have he := (strictCmp_compareChunks.eq_zero_iff a b).1 hab
      subst he
      rw [if_neg (not_not.2 hab)] at h₁
      by_cases hac : compareChunks a c = 0
      · rw [if_neg (not_not.2 hac)] at h₂ ⊢
        exact naturalLessLoop_trans as bs cs h₁ h₂
      · rw [if_pos hac] at h₂ ⊢
        exact h₂
    · rw [if_pos hab] at h₁
      have hlt : compareChunks a b < 0 := by simpa using h₁
      by_cases hbc : compareChunks b c = 0
      · have he := (strictCmp_compareChunks.eq_zero_iff b c).1 hbc
        subst he
        rw [if_pos hab]
        exact h₁
      · rw [if_pos hbc] at h₂
        have hlt₂ : compareChunks b c < 0 := by simpa using h₂
        have hac := strictCmp_compareChunks.trans a b c hlt hlt₂
        have : compareChunks a c ≠ 0 := by omega
        rw [if_pos this]
        simpa using hac

theorem naturalLess_irrefl {isDigit : Nat → Bool}
    (a : GoString) : naturalLess isDigit a a = false :=
  naturalLessLoop_irrefl _

theorem naturalLess_asymm {isDigit : Nat → Bool}
    (a b : GoString) (h : naturalLess isDigit a b = true) :
    naturalLess isDigit b a = false :=
  naturalLessLoop_asymm _ _ h

theorem naturalLess_transitive {isDigit : Nat → Bool}
    (a b c : GoString) (h₁ : naturalLess isDigit a b = true)
    (h₂ : naturalLess isDigit b c = true) : naturalLess isDigit a c = true :=
  naturalLessLoop_trans _ _ _ h₁ h₂

/-- Incomparability under `naturalLess` is equality of the chunk sequences. -/
theorem naturalLess_tie_iff {isDigit : Nat → Bool} (a b : GoString) :
    (naturalLess isDigit a b = false ∧ naturalLess isDigit b a = false) ↔ splitChunks isDigit a = splitChunks isDigit b := by
  constructor
  · rintro ⟨h₁, h₂⟩
    exact naturalLessLoop_connected _ _ h₁ h₂
  · intro h
    unfold naturalLess
    rw [h]
    exact ⟨naturalLessLoop_irrefl _, naturalLessLoop_irrefl _⟩

/-- Negative transitivity: "not before" is transitive. -/
theorem naturalLess_negTrans {isDigit : Nat → Bool}
    (a b c : GoString) (h₁ : naturalLess isDigit a b = false)
    (h₂ : naturalLess isDigit b c = false) : naturalLess isDigit a c = false := by
  by_contra hac
  have hac : naturalLess isDigit a c = true := by simpa using hac
  by_cases hba : naturalLess isDigit b a = true
  · have := naturalLess_transitive b a c hba hac
    rw [this] at h₂
    cases h₂
  · have hba : naturalLess isDigit b a = false := by simpa using hba
    have he := (naturalLess_tie_iff a b).1 ⟨h₁, hba⟩
    unfold naturalLess at hac h₂
    rw [he, h₂] at hac
    cases hac

/-! ## The stable sort -/

theorem insertLeft_perm {α : Type} (less : α → α → Bool) (x : α) (l : List α) :
    (insertLeft less x l).Perm (x :: l) := by
  induction l with
  | nil => exact List.Perm.refl _
  | cons p ps ih =>
    unfold insertLeft
    by_cases h : less x p = true
    · rw [if_pos h]
      exact (List.Perm.cons p ih).trans (List.Perm.swap x p ps)
    · rw [if_neg h]

theorem foldl_insertLeft_perm {α : Type} (less : α → α → Bool) (items : List α) :
    ∀ acc : List α,
      (items.foldl (fun sortedRev x => insertLeft less x sortedRev) acc).Perm (items ++ acc) := by
  induction items with
  | nil => intro acc; exact List.Perm.refl _
  | cons x xs ih =>
    intro acc
    simp only [List.foldl_cons, List.cons_append]
    refine (ih (insertLeft less x acc)).trans ?_
    refine (List.Perm.append_left xs (insertLeft_perm less x acc)).trans ?_
    exact List.perm_middle

theorem SliceStable_perm {α : Type} (less : α → α → Bool) (items : List α) :
    (SliceStable less items).Perm items := by
  unfold SliceStable
  refine (List.reverse_perm _).trans ?_
  simpa using foldl_insertLeft_perm less items []

theorem insertLeft_pairwise {α : Type} (less : α → α → Bool)
    (hasym : ∀ a b, less a b = true → less b a = false)
    (hneg : ∀ a b c, less a b = false → less b c = false → less a c = false)
    (x : α) (l : List α) (h : l.Pairwise (fun a b => less a b = false)) :
    (insertLeft less x l).Pairwise (fun a b => less a b = false) := by
  induction l with
  | nil => simp [insertLeft]
  | cons p ps ih =>
    rw [List.pairwise_cons] at h
    unfold insertLeft
    by_cases hx : less x p = true
    · rw [if_pos hx, List.pairwise_cons]
      refine ⟨?_, ih h.2⟩
      intro y hy
      rcases List.mem_cons.1 ((insertLeft_perm less x ps).mem_iff.1 hy) with rfl | hy
      · exact hasym _ _ hx
      · exact h.1 y hy
    · have hx : less x p = false := by simpa using hx
      rw [if_neg (by simp [hx]), List.pairwise_cons]
      refine ⟨?_, List.pairwise_cons.2 h⟩
      intro y hy
      rcases List.mem_cons.1 hy with rfl | hy
      · exact hx
      · exact hneg _ _ _ hx (h.1 y hy)

theorem foldl_insertLeft_pairwise {α : Type} (less : α → α → Bool)
    (hasym : ∀ a b, less a b = true → less b a = false)
    (hneg : ∀ a b c, less a b = false → less b c = false → less a c = false)
    (items : List α) :
    ∀ acc : List α, acc.Pairwise (fun a b => less a b = false) →
      (items.foldl (fun sortedRev x => insertLeft less x sortedRev) acc).Pairwise
        (fun a b => less a b = false) := by
  induction items with
  | nil => intro acc h; exact h
  | cons x xs ih =>
    intro acc h
    exact ih _ (insertLeft_pairwise less hasym hneg x acc h)

theorem SliceStable_pairwise {α : Type} (less : α → α → Bool)
    (hasym : ∀ a b, less a b = true → less b a = false)
    (hneg : ∀ a b c, less a b = false → less b c = false → less a c = false)
    (items : List α) :
    (SliceStable less items).Pairwise (fun a b => less b a = false) := by
  unfold SliceStable
  rw [List.pairwise_reverse]
  exact foldl_insertLeft_pairwise less hasym hneg items [] List.Pairwise.nil

theorem Natural_pairwise {isDigit : Nat → Bool} (items : List GoString) :
    (Natural isDigit items).Pairwise (fun a b => naturalLess isDigit b a = false) :=
  SliceStable_pairwise (naturalLess isDigit) naturalLess_asymm naturalLess_negTrans items

/-! ## Numeric chunks: length-then-lexicographic comparison is numeric comparison -/

theorem natValue_foldl (s : GoString) : ∀ acc : Nat,
    s.foldl (fun acc c => acc * 10 + (c - 48)) acc =
      acc * 10 ^ s.length + s.foldl (fun acc c => acc * 10 + (c - 48)) 0 := by
  induction s with
  | nil => intro acc; simp
  | cons c t ih =>
    intro acc
    simp only [List.foldl_cons, List.length_cons]
    rw [ih (acc * 10 + (c - 48)), ih (0 * 10 + (c - 48))]
    ring

theorem natValue_cons (c : Nat) (t : GoString) :
    natValue (c :: t) = (c - 48) * 10 ^ t.length + natValue t := by
  unfold natValue
  rw [List.foldl_cons, natValue_foldl t (0 * 10 + (c - 48))]
  simp

theorem natValue_replicate_append (k : Nat) (s : GoString) :
    natValue (List.replicate k 48 ++ s) = natValue s := by
  induction k with
  | zero => simp
  | succ k ih =>
    rw [List.replicate_succ, List.cons_append, natValue_cons, ih]
    simp

theorem natValue_stripLeadingZeros (s : GoString) :
    natValue (stripLeadingZeros s) = natValue s := by
  obtain ⟨k, hk⟩ := stripLeadingZeros_spec s
  conv_rhs => rw [hk]
  rw [natValue_replicate_append]

/-- All bytes of `s` are ASCII decimal digits. -/
theorem isDigitString_iff (s : GoString) :
    isDigitString s = true ↔ s ≠ [] ∧ ∀ c ∈ s, 48 ≤ c ∧ c ≤ 57 := by
  cases s <;> simp [isDigitString]

theorem natValue_lt_pow (s : GoString) (h : ∀ c ∈ s, 48 ≤ c ∧ c ≤ 57) :
    natValue s < 10 ^ s.length := by
  induction s with
  | nil => simp [natValue]
  | cons c t ih =>
    have ht := ih (fun d hd => h d (List.mem_cons_of_mem _ hd))
    have hc := h c (List.mem_cons_self _ _)
    rw [natValue_cons, List.length_cons, pow_succ]
    have h9 : (c - 48) * 10 ^ t.length ≤ 9 * 10 ^ t.length :=
      Nat.mul_le_mul_right _ (by omega)
    omega

theorem pow_le_natValue (c : Nat) (t : GoString) (hc : 48 < c) :
    10 ^ t.length ≤ natValue (c :: t) := by
  rw [natValue_cons]
  have h1 : 1 * 10 ^ t.length ≤ (c - 48) * 10 ^ t.length :=
    Nat.mul_le_mul_right _ (by omega)
  omega

theorem stripLeadingZeros_ne_nil : ∀ s : GoString, s ≠ [] → stripLeadingZeros s ≠ []
  | [], h => absurd rfl h
  | [_], _ => by simp [stripLeadingZeros]
  | c :: d :: rest, _ => by
    unfold stripLeadingZeros
    by_cases hc : c = 48
    · rw [if_pos hc]
      exact stripLeadingZeros_ne_nil (d :: rest) (by simp)
    · rw [if_neg hc]
      simp

theorem stripLeadingZeros_head : ∀ (s : GoString) (c d : Nat) (rest : GoString),
    stripLeadingZeros s = c :: d :: rest → c ≠ 48
  | [], _, _, _, h => by simp [stripLeadingZeros] at h
  | [_], _, _, _, h => by simp [stripLeadingZeros] at h
  | a :: b :: t, c, d, rest, h => by
    unfold stripLeadingZeros at h
    by_cases ha : a = 48
    · rw [if_pos ha] at h
      exact stripLeadingZeros_head (b :: t) c d rest h
    · rw [if_neg ha] at h
      simp only [List.cons.injEq] at h
      rw [← h.1]
      exact ha

theorem stripLeadingZeros_mem (s : GoString) (c : Nat) (hc : c ∈ stripLeadingZeros s) :
    c ∈ s := by
  obtain ⟨k, hk⟩ := stripLeadingZeros_spec s
  rw [hk]
  exact List.mem_append_right _ hc

/-- Between stripped digit strings the shorter one denotes the smaller number. -/
theorem natValue_lt_of_length_lt (x y : GoString) (hxne : x ≠ [])
    (hx : ∀ c ∈ x, 48 ≤ c ∧ c ≤ 57) (hy : ∀ c ∈ y, 48 ≤ c ∧ c ≤ 57)
    (hl : (stripLeadingZeros x).length < (stripLeadingZeros y).length) :
    natValue x < natValue y := by
  rw [← natValue_stripLeadingZeros x, ← natValue_stripLeadingZeros y]
  have hx' : ∀ c ∈ stripLeadingZeros x, 48 ≤ c ∧ c ≤ 57 :=
    fun c hc => hx c (stripLeadingZeros_mem x c hc)
  have hy' : ∀ c ∈ stripLeadingZeros y, 48 ≤ c ∧ c ≤ 57 :=
    fun c hc => hy c (stripLeadingZeros_mem y c hc)
  have hlt := natValue_lt_pow _ hx'
  match hsy : stripLeadingZeros y, hl, hy' with
  | [], hl, _ => simp at hl
  | [_], hl, _ =>
    have h0 : (stripLeadingZeros x).length = 0 := by simpa using hl
    exact absurd (List.length_eq_zero.1 h0) (stripLeadingZeros_ne_nil x hxne)
  | c :: d :: rest, hl, hy' =>
    have hc48 : c ≠ 48 := stripLeadingZeros_head y c d rest hsy
    have hc := hy' c (List.mem_cons_self _ _)
    have hge := pow_le_natValue c (d :: rest) (by omega)
    have hpow : 10 ^ (stripLeadingZeros x).length ≤ 10 ^ (d :: rest).length :=
      Nat.pow_le_pow_right (by decide) (by simp only [List.length_cons] at hl ⊢; omega)
    omega

/-- Between digit strings of one length the byte-wise order is the numeric order. -/
theorem strLess_iff_natValue_lt : ∀ (x y : GoString),
    (∀ c ∈ x, 48 ≤ c ∧ c ≤ 57) → (∀ c ∈ y, 48 ≤ c ∧ c ≤ 57) → x.length = y.length →
    (strLess x y = true ↔ natValue x < natValue y)
  | [], [], _, _, _ => by simp [strLess, natValue]
  | [], _ :: _, _, _, h => by simp at h
  | _ :: _, [], _, _, h => by simp at h
  | c :: t, d :: u, hx, hy, hl => by
    have hl' : t.length = u.length := by simpa using hl
    have ht : ∀ e ∈ t, 48 ≤ e ∧ e ≤ 57 := fun e he => hx e (List.mem_cons_of_mem _ he)
    have hu : ∀ e ∈ u, 48 ≤ e ∧ e ≤ 57 := fun e he => hy e (List.mem_cons_of_mem _ he)
    have hc := hx c (List.mem_cons_self _ _)
    have hd := hy d (List.mem_cons_self _ _)
    have ih := strLess_iff_natValue_lt t u ht hu hl'
    have bt := natValue_lt_pow t ht
    have bu := natValue_lt_pow u hu
    rw [natValue_cons, natValue_cons, hl']
    rw [hl'] at bt
    unfold strLess
    by_cases hcd : c < d
    · rw [if_pos hcd]
      have : (c - 48 + 1) * 10 ^ u.length ≤ (d - 48) * 10 ^ u.length :=
        Nat.mul_le_mul_right _ (by omega)
      rw [Nat.add_mul] at this
      simp only [true_iff]
      omega
    · rw [if_neg hcd]
      by_cases hdc : d < c
      · rw [if_pos hdc]
        have : (d - 48 + 1) * 10 ^ u.length ≤ (c - 48) * 10 ^ u.length :=
          Nat.mul_le_mul_right _ (by omega)
        rw [Nat.add_mul] at this
        simp only [Bool.false_eq_true, false_iff]
        omega
      · rw [if_neg hdc]
        have he : c = d := by omega
        subst he
        rw [ih]
        omega

/-- Characterisation of `compareNumeric` on ASCII digit strings. -/
theorem compareNumeric_neg_iff_natValue (x y : GoString)
    (hx : isDigitString x = true) (hy : isDigitString y = true) :
    compareNumeric x y < 0 ↔
      natValue x < natValue y ∨ (natValue x = natValue y ∧ x.length < y.length) := by
  obtain ⟨hxne, hxd⟩ := (isDigitString_iff x).1 hx
  obtain ⟨hyne, hyd⟩ := (isDigitString_iff y).1 hy
  have hxd' : ∀ c ∈ stripLeadingZeros x, 48 ≤ c ∧ c ≤ 57 :=
    fun c hc => hxd c (stripLeadingZeros_mem x c hc)
  have hyd' : ∀ c ∈ stripLeadingZeros y, 48 ≤ c ∧ c ≤ 57 :=
    fun c hc => hyd c (stripLeadingZeros_mem y c hc)
  rw [compareNumeric_neg_iff]
  rcases Nat.lt_trichotomy (stripLeadingZeros x).length (stripLeadingZeros y).length
    with hl | hl | hl
  · have := natValue_lt_of_length_lt x y hxne hxd hyd hl
    constructor
    · intro _; exact Or.inl this
    · intro _; exact Or.inl hl
  · have hlex := strLess_iff_natValue_lt _ _ hxd' hyd' hl
    have hlex' := strLess_iff_natValue_lt _ _ hyd' hxd' hl.symm
    rw [natValue_stripLeadingZeros, natValue_stripLeadingZeros] at hlex hlex'
    constructor
    · rintro (h | ⟨_, h | ⟨hs, hn⟩⟩)
      · omega
      · exact Or.inl (hlex.1 h)
      · right
        refine ⟨?_, hn⟩
        rw [← natValue_stripLeadingZeros x, ← natValue_stripLeadingZeros y, hs]
    · rintro (h | ⟨hv, hn⟩)
      · exact Or.inr ⟨hl, Or.inl (hlex.2 h)⟩
      · refine Or.inr ⟨hl, Or.inr ⟨?_, hn⟩⟩
        apply strLess_connected
        · by_contra hc
          have := hlex.1 (by simpa using hc)
          omega
        · by_contra hc
          have := hlex'.1 (by simpa using hc)
          omega
  · have := natValue_lt_of_length_lt y x hyne hyd hxd hl
    constructor
    · rintro (h | ⟨h, _⟩) <;> omega
    · rintro (h | ⟨h, _⟩) <;> omega

/-! ## UTF-8: re-encoding the runes of a valid string -/

theorem encodeRune_two (b s1 : Nat) (hb : 0xC2 ≤ b) (hb' : b < 0xE0)
    (h1 : 0x80 ≤ s1) (h1' : s1 ≤ 0xBF) :
    encodeRune (b % 32 * 64 + s1 % 64) = [b, s1] := by
  unfold encodeRune
  rw [if_neg (by omega), if_pos (by omega)]
  congr 1
  · omega
  · congr 1; omega

theorem encodeRune_three (b s1 s2 : Nat) (hb : 0xE0 ≤ b) (hb' : b < 0xF0)
    (h1 : acceptLo b ≤ s1) (h1' : s1 ≤ acceptHi b) (h2 : 0x80 ≤ s2) (h2' : s2 ≤ 0xBF) :
    encodeRune (b % 16 * 4096 + s1 % 64 * 64 + s2 % 64) = [b, s1, s2] := by
  unfold acceptLo at h1
  unfold acceptHi at h1'
  unfold encodeRune
  split_ifs at h1 h1' <;>
  · rw [if_neg (by omega), if_neg (by omega), if_neg (by omega), if_pos (by omega)]
    congr 1
    · omega
    · congr 1
      · omega
      · congr 1; omega

theorem encodeRune_four (b s1 s2 s3 : Nat) (hb : 0xF0 ≤ b) (hb' : b < 0xF5)
    (h1 : acceptLo b ≤ s1) (h1' : s1 ≤ acceptHi b) (h2 : 0x80 ≤ s2) (h2' : s2 ≤ 0xBF)
    (h3 : 0x80 ≤ s3) (h3' : s3 ≤ 0xBF) :
    encodeRune (b % 8 * 262144 + s1 % 64 * 4096 + s2 % 64 * 64 + s3 % 64) = [b, s1, s2, s3] := by
  unfold acceptLo at h1
  unfold acceptHi at h1'
  unfold encodeRune
  split_ifs at h1 h1' <;>
  · rw [if_neg (by omega), if_neg (by omega), if_neg (by omega), if_neg (by omega)]
    congr 1
    · omega
    · congr 1
      · omega
      · congr 1
        · omega
        · congr 1; omega

theorem encode_decode_step (b : Nat) (rest : GoString)
    (hv : (DecodeRuneInString (b :: rest)).1 ≠ RuneError ∨
      (DecodeRuneInString (b :: rest)).2 = 3) :
    encodeRune (DecodeRuneInString (b :: rest)).1 ++
      rest.drop ((DecodeRuneInString (b :: rest)).2 - 1) = b :: rest := by
  unfold DecodeRuneInString at hv ⊢
  by_cases h1 : b < 0x80
  · simp only [h1, if_true]
    simp [encodeRune, show b ≤ 127 by omega]
  · simp only [h1, if_false] at hv ⊢
    by_cases h2 : b < 0xC2
    · simp [h2] at hv
    · simp only [h2, if_false] at hv ⊢
      by_cases h3 : b < 0xE0
      · simp only [h3, if_true] at hv ⊢
        match rest, hv with
        | [], hv => simp at hv
        | s1 :: t, hv =>
          simp only at hv ⊢
          by_cases hc : acceptLo b ≤ s1 ∧ s1 ≤ acceptHi b
          · simp only [hc, and_self, if_true]
            have hlo : 0x80 ≤ s1 := by
              have := hc.1; unfold acceptLo at this; split_ifs at this <;> omega
            have hhi : s1 ≤ 0xBF := by
              have := hc.2; unfold acceptHi at this; split_ifs at this <;> omega
            rw [encodeRune_two b s1 (by omega) h3 hlo hhi]
            simp
          · simp [hc] at hv
      · simp only [h3, if_false] at hv ⊢
        by_cases h4 : b < 0xF0
        · simp only [h4, if_true] at hv ⊢
          match rest, hv with
          | [], hv => simp at hv
          | [_], hv => simp at hv
          | s1 :: s2 :: t, hv =>
            simp only at hv ⊢
            by_cases hc : acceptLo b ≤ s1 ∧ s1 ≤ acceptHi b ∧ 0x80 ≤ s2 ∧ s2 ≤ 0xBF
            · simp only [hc, and_self, if_true]
              rw [encodeRune_three b s1 s2 (by omega) h4 hc.1 hc.2.1 hc.2.2.1 hc.2.2.2]
              simp
            · simp [hc] at hv
        · simp only [h4, if_false] at hv ⊢
          by_cases h5 : b < 0xF5
          · simp only [h5, if_true] at hv ⊢
            match rest, hv with
            | [], hv => simp at hv
            | [_], hv => simp at hv
            | [_, _], hv => simp at hv
            | s1 :: s2 :: s3 :: t, hv =>
              simp only at hv ⊢
              by_cases hc : acceptLo b ≤ s1 ∧ s1 ≤ acceptHi b ∧ 0x80 ≤ s2 ∧ s2 ≤ 0xBF
                  ∧ 0x80 ≤ s3 ∧ s3 ≤ 0xBF
              · simp only [hc, and_self, if_true]
                rw [encodeRune_four b s1 s2 s3 (by omega) h5 hc.1 hc.2.1 hc.2.2.1 hc.2.2.2.1
                  hc.2.2.2.2.1 hc.2.2.2.2.2]
                simp
              · simp [hc] at hv
          · simp [h5] at hv
theorem encode_decodeRunesAux : ∀ (n : Nat) (s : GoString),
    s.length ≤ n → ValidStringAux n s = true → encodeRunes (decodeRunesAux n s) = s
  | 0, s, hl, _ => by
    have : s = [] := List.length_eq_zero.1 (by omega)
    subst this
    rfl
  | _ + 1, [], _, _ => rfl
  | n + 1, b :: rest, hl, hv => by
    simp only [ValidStringAux, Bool.and_eq_true, Bool.or_eq_true, decide_eq_true_eq,
      bne_iff_ne, ne_eq, beq_iff_eq] at hv
    obtain ⟨⟨_, hr⟩, hrec⟩ := hv
    simp only [decodeRunesAux, encodeRunes]
    rw [encode_decodeRunesAux n (rest.drop _)
      (by simp only [List.length_drop, List.length_cons] at hl ⊢; omega) hrec]
    exact encode_decode_step b rest hr

/-- On valid UTF-8 the conversion to runes and back is the identity. -/
theorem encodeRunes_decodeRunes (s : GoString) (h : ValidString s = true) :
    encodeRunes (decodeRunes s) = s :=
  encode_decodeRunesAux s.length s (Nat.le_refl _) h

theorem encodeRunes_append (a b : List Nat) :
    encodeRunes (a ++ b) = encodeRunes a ++ encodeRunes b := by
  induction a with
  | nil => rfl
  | cons r rs ih => simp [encodeRunes, ih]

theorem joinValues_splitChunksAux {isDigit : Nat → Bool} : ∀ (n : Nat) (rs : List Nat),
    rs.length ≤ n → joinValues (splitChunksAux isDigit n rs) = encodeRunes rs
  | 0, rs, hl => by
    have : rs = [] := List.length_eq_zero.1 (by omega)
    subst this
    rfl
  | _ + 1, [], _ => rfl
  | n + 1, r :: rest, hl => by
    have hd : (rest.dropWhile (fun x => isDigit x == isDigit r)).length ≤ n := by
      have := (List.dropWhile_sublist (fun x => isDigit x == isDigit r) (l := rest)).length_le
      simp only [List.length_cons] at hl
      omega
    simp only [splitChunksAux, joinValues, List.foldr_cons]
    have ih := @joinValues_splitChunksAux isDigit n _ hd
    unfold joinValues at ih
    rw [ih]
    simp only [encodeRunes, List.append_assoc]
    rw [← encodeRunes_append, List.takeWhile_append_dropWhile]

/-- The chunk values of a string concatenate to the re-encoding of its runes. -/
theorem joinValues_splitChunks {isDigit : Nat → Bool} (s : GoString) :
    joinValues (splitChunks isDigit s) = encodeRunes (decodeRunes s) :=
  joinValues_splitChunksAux _ _ (Nat.le_refl _)

/-- On valid UTF-8 strings `splitChunks` is injective. -/
theorem splitChunks_injective {isDigit : Nat → Bool} (a b : GoString) (ha : ValidString a = true)
    (hb : ValidString b = true) (h : splitChunks isDigit a = splitChunks isDigit b) : a = b := by
  rw [← encodeRunes_decodeRunes a ha, ← encodeRunes_decodeRunes b hb,
    ← joinValues_splitChunks, ← joinValues_splitChunks, h]

/-! ## The iteration bounds of the conversion loops are sufficient -/

/-- Any bound of at least the byte length gives the same runes. -/
theorem decodeRunesAux_fuel : ∀ (n m : Nat) (s : GoString),
    s.length ≤ n → s.length ≤ m → decodeRunesAux n s = decodeRunesAux m s
  | 0, m, s, hn, _ => by
    have : s = [] := List.length_eq_zero.1 (by omega)
    subst this
    cases m <;> rfl
  | n + 1, m, [], _, _ => by cases m <;> rfl
  | n + 1, 0, _ :: _, _, hm => by simp at hm
  | n + 1, m + 1, b :: rest, hn, hm => by
    simp only [decodeRunesAux]
    congr 1
    apply decodeRunesAux_fuel n m
    · simp only [List.length_drop, List.length_cons] at hn ⊢; omega
    · simp only [List.length_drop, List.length_cons] at hm ⊢; omega

/-- Any bound of at least the number of runes gives the same chunks. -/
theorem splitChunksAux_fuel {isDigit : Nat → Bool} : ∀ (n m : Nat) (rs : List Nat),
    rs.length ≤ n → rs.length ≤ m → splitChunksAux isDigit n rs = splitChunksAux isDigit m rs
  | 0, m, rs, hn, _ => by
    have : rs = [] := List.length_eq_zero.1 (by omega)
    subst this
    cases m <;> rfl
  | n + 1, m, [], _, _ => by cases m <;> rfl
  | n + 1, 0, _ :: _, _, hm => by simp at hm
  | n + 1, m + 1, r :: rest, hn, hm => by
    have hd := (List.dropWhile_sublist (fun x => isDigit x == isDigit r) (l := rest)).length_le
    simp only [splitChunksAux]
    congr 1
    apply splitChunksAux_fuel n m
    · simp only [List.length_cons] at hn; omega
    · simp only [List.length_cons] at hm; omega

/-! ## Claims about the comparator and the sort -/

/-- C2: `naturalLess` is transitive: if `naturalLess a b` and `naturalLess b c`
then `naturalLess a c`, for all byte strings `a`, `b`, `c` (valid UTF-8 or not). -/
theorem naturalLess_trans {isDigit : Nat → Bool}
    (a b c : GoString) (hab : naturalLess isDigit a b = true)
    (hbc : naturalLess isDigit b c = true) : naturalLess isDigit a c = true :=
  naturalLessLoop_trans _ _ _ hab hbc

theorem naturalLess_trans_witness :
    naturalLess unicode15 (str "ch2") (str "ch10") = true ∧
    naturalLess unicode15 (str "ch10") (str "ch10a") = true ∧
    naturalLess unicode15 (str "ch2") (str "ch10a") = true :=
  ⟨by decide, by decide,
    naturalLess_trans (str "ch2") (str "ch10") (str "ch10a") (by decide) (by decide)⟩

/-- C4: `Natural` rearranges every list of strings into a permutation of the
input that is ordered under the comparator: for all positions `i < j` of the
result, `naturalLess result[j] result[i]` is false; and the list
`["10","2","1","20","3"]` becomes `["1","2","3","10","20"]`. -/
theorem Natural_perm_ordered {isDigit : Nat → Bool} (items : List GoString) :
    (Natural isDigit items).Perm items ∧
    (∀ (i j : Nat) (hij : i < j) (hj : j < (Natural isDigit items).length),
      naturalLess isDigit ((Natural isDigit items).get ⟨j, hj⟩)
        ((Natural isDigit items).get ⟨i, Nat.lt_trans hij hj⟩) = false) ∧
    Natural unicode15 [str "10", str "2", str "1", str "20", str "3"] =
      [str "1", str "2", str "3", str "10", str "20"] := by
  refine ⟨SliceStable_perm (naturalLess isDigit) items, ?_, by decide⟩
  intro i j hij hj
  exact List.pairwise_iff_get.1 (Natural_pairwise items) ⟨i, Nat.lt_trans hij hj⟩ ⟨j, hj⟩ hij

theorem Natural_perm_ordered_witness :
    (Natural unicode15 [str "b", str "a10", str "a9"]).Perm [str "b", str "a10", str "a9"] ∧
    naturalLess unicode15 ((Natural unicode15 [str "b", str "a10", str "a9"]).get ⟨2, by decide⟩)
      ((Natural unicode15 [str "b", str "a10", str "a9"]).get ⟨0, by decide⟩) = false :=
  ⟨(Natural_perm_ordered [str "b", str "a10", str "a9"]).1,
   (Natural_perm_ordered [str "b", str "a10", str "a9"]).2.1 0 2 (by decide) (by decide)⟩

/-- C3: for non-empty strings `x`, `y` of ASCII decimal digits of any length,
`compareNumeric x y < 0` iff the number denoted by `x` is smaller than the one
denoted by `y`, or the numbers are equal and `x` has fewer characters;
`compareNumeric x y = 0` iff `x = y`. -/
theorem compareNumeric_spec (x y : GoString)
    (hx : isDigitString x = true) (hy : isDigitString y = true) :
    (compareNumeric x y < 0 ↔
      natValue x < natValue y ∨ (natValue x = natValue y ∧ x.length < y.length)) ∧
    (compareNumeric x y = 0 ↔ x = y) :=
  ⟨compareNumeric_neg_iff_natValue x y hx hy, compareNumeric_eq_zero_iff x y⟩

theorem compareNumeric_spec_witness :
    compareNumeric (str "2") (str "10") < 0 ∧
    compareNumeric (str "9999999999") (str "99999999999") < 0 ∧
    natValue (str "9999999999") < natValue (str "99999999999") :=
  ⟨by decide, by decide,
   ((compareNumeric_spec (str "9999999999") (str "99999999999")
      (by decide) (by decide)).1.1 (by decide)).resolve_right (by decide)⟩

/-- C1, as stated, fails: two different byte strings that are not valid UTF-8
decode to the same rune sequence and are tied, neither is before the other. -/
theorem naturalLess_tie_invalid_utf8 :
    naturalLess unicode15 [0xFF] [0xFE] = false ∧ naturalLess unicode15 [0xFE] [0xFF] = false ∧
      ([0xFF] : GoString) ≠ [0xFE] := by
  decide

/-- C1 (amended): on valid UTF-8 strings `naturalLess` is a strict total order:
for all valid UTF-8 strings `a` and `b` exactly one of `naturalLess a b`,
`a = b`, `naturalLess b a` holds. -/
theorem naturalLess_trichotomy {isDigit : Nat → Bool} (a b : GoString)
    (ha : ValidString a = true) (hb : ValidString b = true) :
    (naturalLess isDigit a b = true ∧ a ≠ b ∧ naturalLess isDigit b a = false) ∨
    (naturalLess isDigit a b = false ∧ a = b ∧ naturalLess isDigit b a = false) ∨
    (naturalLess isDigit a b = false ∧ a ≠ b ∧ naturalLess isDigit b a = true) := by
  by_cases hab : naturalLess isDigit a b = true
  · left
    refine ⟨hab, ?_, naturalLess_asymm a b hab⟩
    rintro rfl
    rw [naturalLess_irrefl] at hab
    cases hab
  · have hab : naturalLess isDigit a b = false := by simpa using hab
    right
    by_cases hba : naturalLess isDigit b a = true
    · right
      refine ⟨hab, ?_, hba⟩
      rintro rfl
      rw [naturalLess_irrefl] at hba
      cases hba
    · have hba : naturalLess isDigit b a = false := by simpa using hba
      left
      exact ⟨hab, splitChunks_injective a b ha hb ((naturalLess_tie_iff a b).1 ⟨hab, hba⟩), hba⟩

theorem naturalLess_trichotomy_witness :
    ValidString (str "item9") = true ∧ ValidString (str "item10") = true ∧
    naturalLess unicode15 (str "item9") (str "item10") = true ∧ str "item9" ≠ str "item10" ∧
    naturalLess unicode15 (str "item10") (str "item9") = false := by
  refine ⟨by decide, by decide, ?_⟩
  rcases naturalLess_trichotomy (str "item9") (str "item10") (by decide) (by decide)
    with h | h | h
  · exact h
  · exact absurd h.2.1 (by decide)
  · exact absurd h.1 (by decide)


/-! ## The archive writer -/

theorem addImages_cons_fail (faults : Faults) (outputPath : GoString) (i : Nat)
    (img : ImageFile) (rest : List ImageFile) (out : Output) (e : GoError)
    (h : (addImageToArchive faults i outputPath out img).2 = some e) :
    (addImages faults outputPath i (img :: rest) out).2.2 = some e := by
  unfold addImages
  split
  · next out' e' heq =>
    rw [heq] at h
    simpa using h
  · next out' heq =>
    rw [heq] at h
    cases h

theorem addImages_cons_ok (faults : Faults) (outputPath : GoString) (i : Nat)
    (img : ImageFile) (rest : List ImageFile) (out out' : Output)
    (h : addImageToArchive faults i outputPath out img = (out', none)) :
    addImages faults outputPath i (img :: rest) out =
      (out'.fs :: (addImages faults outputPath (i + 1) rest out').1,
        (addImages faults outputPath (i + 1) rest out').2) := by
  rw [addImages]
  simp only [h]

theorem addImages_cons_err (faults : Faults) (outputPath : GoString) (i : Nat)
    (img : ImageFile) (rest : List ImageFile) (out out' : Output) (e : GoError)
    (h : addImageToArchive faults i outputPath out img = (out', some e)) :
    addImages faults outputPath i (img :: rest) out = ([out'.fs], out', some e) := by
  rw [addImages]
  simp only [h]

theorem addImages_append (faults : Faults) (outputPath : GoString) :
    ∀ (xs ys : List ImageFile) (i : Nat) (out : Output),
      (addImages faults outputPath i xs out).2.2 = none →
      (addImages faults outputPath i (xs ++ ys) out).2 =
        (addImages faults outputPath (i + xs.length) ys
          (addImages faults outputPath i xs out).2.1).2
  | [], ys, i, out, _ => by simp [addImages]
  | x :: xs, ys, i, out, h => by
    simp only [List.cons_append, List.length_cons]
    match heq : addImageToArchive faults i outputPath out x with
    | (out', some e) =>
      rw [addImages_cons_err faults outputPath i x xs out out' e heq] at h
      cases h
    | (out', none) =>
      rw [addImages_cons_ok faults outputPath i x xs out out' heq] at h ⊢
      rw [addImages_cons_ok faults outputPath i x (xs ++ ys) out out' heq]
      simp only at h ⊢
      rw [addImages_append faults outputPath xs ys (i + 1) out' h]
      have : i + 1 + xs.length = i + (xs.length + 1) := by omega
      rw [this]

/-- The entry loop fails with the error of entry `k` when the entries before
`k` were added and adding entry `k` fails. -/
theorem addImages_fail_at (faults : Faults) (outputPath : GoString) (images : List ImageFile)
    (out : Output) (k : Nat) (hk : k < images.length) (e : GoError)
    (hpre : (addImages faults outputPath 0 (images.take k) out).2.2 = none)
    (hfail : (addImageToArchive faults k outputPath
      (addImages faults outputPath 0 (images.take k) out).2.1 (images.get ⟨k, hk⟩)).2 = some e) :
    (addImages faults outputPath 0 images out).2.2 = some e := by
  have hsplit : images = images.take k ++ images.get ⟨k, hk⟩ :: images.drop (k + 1) := by
    rw [List.get_eq_getElem, ← List.drop_eq_getElem_cons hk, List.take_append_drop]
  have hlen : (images.take k).length = k := by
    rw [List.length_take]; omega
  conv_lhs => rw [hsplit]
  rw [addImages_append faults outputPath _ _ 0 out hpre, hlen, Nat.zero_add]
  exact addImages_cons_fail faults outputPath k _ _ _ e hfail

theorem addImageToArchive_ok (faults : Faults) (i : Nat) (outputPath : GoString)
    (out out' : Output) (img : ImageFile)
    (h : addImageToArchive faults i outputPath out img = (out', none)) :
    ∃ content, out.fs img.Path = some content ∧
      out'.zw = out.zw ++ [(img.Name, content)] ∧
      out'.fs = out.fs.write outputPath (Content.archive (out.zw ++ [(img.Name, content)]) false) := by
  unfold addImageToArchive at h
  split at h
  · simp at h
  · next content hc =>
    split at h
    · simp at h
    · split at h
      · simp at h
      · split at h
        · simp at h
        · split at h
          · simp at h
          · simp only [Prod.mk.injEq, and_true] at h
            refine ⟨content, hc, ?_, ?_⟩ <;> rw [← h]

/-- When the entry loop succeeds and no source is the output file itself, the
ZIP writer has stored one entry per image, in order, each under the image's
name with the content of the image's source file. -/
theorem addImages_ok_stores (faults : Faults) (fs : FileSys) (outputPath : GoString) :
    ∀ (images : List ImageFile) (i : Nat) (out : Output),
      (∀ img ∈ images, img.Path ≠ outputPath) →
      (∀ p, p ≠ outputPath → out.fs p = fs p) →
      (addImages faults outputPath i images out).2.2 = none →
      ∃ es, (addImages faults outputPath i images out).2.1.zw = out.zw ++ es ∧
        StoresImages fs images es
  | [], _, out, _, _, _ => ⟨[], by simp [addImages], by simp [StoresImages]⟩
  | img :: rest, i, out, hsrc, hfs, hok => by
    match heq : addImageToArchive faults i outputPath out img with
    | (out', some e) =>
      rw [addImages_cons_err faults outputPath i img rest out out' e heq] at hok
      cases hok
    | (out', none) =>
      rw [addImages_cons_ok faults outputPath i img rest out out' heq] at hok ⊢
      obtain ⟨content, hc, hzw, hfs'⟩ := addImageToArchive_ok faults i outputPath out out' img heq
      have hfs'' : ∀ p, p ≠ outputPath → out'.fs p = fs p := by
        intro p hp
        rw [hfs', FileSys.write, if_neg hp]
        exact hfs p hp
      obtain ⟨es, hes, hst⟩ := addImages_ok_stores faults fs outputPath rest (i + 1) out'
        (fun x hx => hsrc x (List.mem_cons_of_mem _ hx)) hfs'' hok
      refine ⟨(img.Name, content) :: es, ?_, ?_⟩
      · simp only
        rw [hes, hzw]
        simp
      · have himg := hfs img.Path (hsrc img (List.mem_cons_self _ _))
        rw [hc] at himg
        unfold StoresImages at hst ⊢
        simp only [List.map_cons]
        rw [hst.1, hst.2, himg]
        exact ⟨rfl, rfl⟩

/-- What a successful `Create` went through and left behind. -/
theorem Create_ok (faults : Faults) (fs : FileSys) (outputPath : GoString)
    (images : List ImageFile) (opts : CreateOptions)
    (h : (Create faults fs outputPath images opts).err = none) :
    (opts.Force = true ∨ fs outputPath = none) ∧ faults Op.osCreate = none ∧
    (addImages faults outputPath 0 images (createdOutput fs outputPath)).2.2 = none ∧
    faults Op.zipClose = none ∧
    (Create faults fs outputPath images opts).fs =
      (addImages faults outputPath 0 images (createdOutput fs outputPath)).2.1.fs.write outputPath
        (Content.archive
          (addImages faults outputPath 0 images (createdOutput fs outputPath)).2.1.zw true) := by
  unfold Create at h ⊢
  by_cases hg : (!opts.Force && (fs outputPath).isSome) = true
  · simp [hg] at h
  · have hguard : opts.Force = true ∨ fs outputPath = none := by
      cases hF : opts.Force
      · right
        simpa [hF] using hg
      · exact Or.inl rfl
    simp only [hg, Bool.false_eq_true, if_false] at h ⊢
    cases hc : faults Op.osCreate with
    | some e => simp [hc] at h
    | none =>
      simp only [hc] at h ⊢
      cases hl : (addImages faults outputPath 0 images (createdOutput fs outputPath)).2.2 with
      | some e => simp [hl] at h
      | none =>
        cases hz : faults Op.zipClose with
        | some e => simp [hl, zipClose, hz] at h
        | none =>
          refine ⟨hguard, ?_, ?_, ?_, ?_⟩
          · trivial
          · rfl
          · rfl
          · simp [zipClose, hz, hl]

/-- What a failed `Create` leaves behind: no file at `outputPath`, or the file
system it started from. -/
theorem Create_err (faults : Faults) (fs : FileSys) (outputPath : GoString)
    (images : List ImageFile) (opts : CreateOptions)
    (h : (Create faults fs outputPath images opts).err ≠ none) :
    (Create faults fs outputPath images opts).fs outputPath = none ∨
    (Create faults fs outputPath images opts).fs = fs := by
  unfold Create at h ⊢
  by_cases hg : (!opts.Force && (fs outputPath).isSome) = true
  · right
    simp [hg]
  · simp only [hg, Bool.false_eq_true, if_false] at h ⊢
    cases hc : faults Op.osCreate with
    | some e => right; simp
    | none =>
      left
      simp only [hc] at h ⊢
      cases hl : (addImages faults outputPath 0 images (createdOutput fs outputPath)).2.2 with
      | some e => simp [FileSys.remove]
      | none =>
        cases hz : faults Op.zipClose with
        | some e => simp [zipClose, hz, FileSys.remove]
        | none => simp [hl, zipClose, hz] at h

/-- C5: if adding entry `k` fails (the entries before it having been added),
`Create` returns exactly that entry's error and no file exists at
`outputPath` when it returns, however many entries were written before. -/
theorem Create_entry_failure (faults : Faults) (fs : FileSys) (outputPath : GoString)
    (images : List ImageFile) (opts : CreateOptions) (k : Nat) (hk : k < images.length)
    (e : GoError)
    (hguard : opts.Force = true ∨ fs outputPath = none)
    (hcreate : faults Op.osCreate = none)
    (hpre : (addImages faults outputPath 0 (images.take k)
      (createdOutput fs outputPath)).2.2 = none)
    (hfail : (addImageToArchive faults k outputPath
      (addImages faults outputPath 0 (images.take k) (createdOutput fs outputPath)).2.1
      (images.get ⟨k, hk⟩)).2 = some e) :
    (Create faults fs outputPath images opts).err = some e ∧
    (Create faults fs outputPath images opts).fs outputPath = none := by
  have hloop := addImages_fail_at faults outputPath images _ k hk e hpre hfail
  have hg : (!opts.Force && (fs outputPath).isSome) = false := by
    rcases hguard with h | h <;> simp [h]
  unfold Create
  simp only [hg, hcreate, Bool.false_eq_true, if_false, hloop]
  simp [FileSys.remove]


theorem Create_entry_failure_witness :
    (Create noFaults fsValid (str "/t/out.cbz")
      [⟨str "/t/valid.jpg", str "valid.jpg"⟩, ⟨str "/t/nonexistent.jpg", str "nonexistent.jpg"⟩]
      ⟨false⟩).err = some (GoError.notExist (str "/t/nonexistent.jpg")) ∧
    (Create noFaults fsValid (str "/t/out.cbz")
      [⟨str "/t/valid.jpg", str "valid.jpg"⟩, ⟨str "/t/nonexistent.jpg", str "nonexistent.jpg"⟩]
      ⟨false⟩).fs (str "/t/out.cbz") = none :=
  Create_entry_failure noFaults fsValid (str "/t/out.cbz")
    [⟨str "/t/valid.jpg", str "valid.jpg"⟩, ⟨str "/t/nonexistent.jpg", str "nonexistent.jpg"⟩]
    ⟨false⟩ 1 (by decide) (GoError.notExist (str "/t/nonexistent.jpg"))
    (Or.inr rfl) rfl (by decide) (by decide)

/-- C6: whenever `Force` is false and a file already exists at `outputPath`,
`Create` returns an error and leaves the file system exactly as it was (it
performs no effect at all); hence a second `Create` at the path of a
successful first one, without `Force`, fails and leaves the first archive
intact. -/
theorem Create_overwrite_guard (faults : Faults) (fs : FileSys) (outputPath : GoString)
    (images : List ImageFile) (opts : CreateOptions) (faults₂ : Faults)
    (images₂ : List ImageFile) :
    (opts.Force = false → (fs outputPath).isSome = true →
      (Create faults fs outputPath images opts).err = some (GoError.alreadyExists outputPath) ∧
      (Create faults fs outputPath images opts).fs = fs ∧
      (Create faults fs outputPath images opts).trace = []) ∧
    ((Create faults fs outputPath images opts).err = none →
      (Create faults₂ (Create faults fs outputPath images opts).fs outputPath images₂
        ⟨false⟩).err = some (GoError.alreadyExists outputPath) ∧
      (Create faults₂ (Create faults fs outputPath images opts).fs outputPath images₂
        ⟨false⟩).fs = (Create faults fs outputPath images opts).fs) := by
  have guard : ∀ (f : Faults) (s : FileSys) (imgs : List ImageFile) (o : CreateOptions),
      o.Force = false → (s outputPath).isSome = true →
      Create f s outputPath imgs o =
        { trace := [], fs := s, err := some (GoError.alreadyExists outputPath) } := by
    intro f s imgs o hF hex
    unfold Create
    simp [hF, hex]
  refine ⟨fun hF hex => ?_, fun hok => ?_⟩
  · rw [guard faults fs images opts hF hex]
    exact ⟨rfl, rfl, rfl⟩
  · have hfs := (Create_ok faults fs outputPath images opts hok).2.2.2.2
    have hex : ((Create faults fs outputPath images opts).fs outputPath).isSome = true := by
      rw [hfs]
      simp [FileSys.write]
    rw [guard faults₂ _ images₂ ⟨false⟩ rfl hex]
    exact ⟨rfl, rfl⟩

theorem Create_overwrite_guard_witness :
    (Create noFaults fsExisting (str "/t/out.cbz") [⟨str "/t/valid.jpg", str "valid.jpg"⟩]
      ⟨false⟩).err = some (GoError.alreadyExists (str "/t/out.cbz")) ∧
    (Create noFaults fsExisting (str "/t/out.cbz") [⟨str "/t/valid.jpg", str "valid.jpg"⟩]
      ⟨false⟩).fs = fsExisting ∧
    (Create noFaults (Create noFaults fsValid (str "/t/out.cbz")
        [⟨str "/t/valid.jpg", str "valid.jpg"⟩] ⟨false⟩).fs (str "/t/out.cbz") [] ⟨false⟩).fs =
      (Create noFaults fsValid (str "/t/out.cbz")
        [⟨str "/t/valid.jpg", str "valid.jpg"⟩] ⟨false⟩).fs :=
  ⟨((Create_overwrite_guard noFaults fsExisting (str "/t/out.cbz")
      [⟨str "/t/valid.jpg", str "valid.jpg"⟩] ⟨false⟩ noFaults []).1 rfl rfl).1,
   ((Create_overwrite_guard noFaults fsExisting (str "/t/out.cbz")
      [⟨str "/t/valid.jpg", str "valid.jpg"⟩] ⟨false⟩ noFaults []).1 rfl rfl).2.1,
   ((Create_overwrite_guard noFaults fsValid (str "/t/out.cbz")
      [⟨str "/t/valid.jpg", str "valid.jpg"⟩] ⟨false⟩ noFaults []).2 (by decide)).2⟩

/-- C8: if every entry was added but closing the ZIP writer fails, `Create`
returns that close error (not success) and no file exists at `outputPath`
when it returns. -/
theorem Create_close_failure (faults : Faults) (fs : FileSys) (outputPath : GoString)
    (images : List ImageFile) (opts : CreateOptions) (e : GoError)
    (hguard : opts.Force = true ∨ fs outputPath = none)
    (hcreate : faults Op.osCreate = none)
    (hloop : (addImages faults outputPath 0 images (createdOutput fs outputPath)).2.2 = none)
    (hclose : faults Op.zipClose = some e) :
    (Create faults fs outputPath images opts).err = some e ∧
    (Create faults fs outputPath images opts).fs outputPath = none := by
  have hg : (!opts.Force && (fs outputPath).isSome) = false := by
    rcases hguard with h | h <;> simp [h]
  unfold Create
  simp only [hg, hcreate, Bool.false_eq_true, if_false, hloop]
  simp [zipClose, hclose, FileSys.remove]

theorem Create_close_failure_witness :
    (Create closeFault fsValid (str "/t/out.cbz") [⟨str "/t/valid.jpg", str "valid.jpg"⟩]
      ⟨true⟩).err = some (GoError.fault 28) ∧
    (Create closeFault fsValid (str "/t/out.cbz") [⟨str "/t/valid.jpg", str "valid.jpg"⟩]
      ⟨true⟩).fs (str "/t/out.cbz") = none :=
  Create_close_failure closeFault fsValid (str "/t/out.cbz")
    [⟨str "/t/valid.jpg", str "valid.jpg"⟩] ⟨true⟩ (GoError.fault 28)
    (Or.inl rfl) rfl (by decide) rfl


/-! ## Chapter discovery -/

theorem nameToChapter_spec : ∀ (chapters : List Chapter) (m : GoString → Option Chapter),
    (∀ n ch, m n = some ch → ch.Name = n) →
    (∀ n ch, nameToChapter m chapters n = some ch → ch.Name = n) ∧
    (∀ n, (n ∈ chapters.map Chapter.Name ∨ (m n).isSome = true) →
      (nameToChapter m chapters n).isSome = true)
  | [], m, hm => ⟨hm, fun n h => by simpa [nameToChapter] using h⟩
  | c :: rest, m, hm => by
    have hm' : ∀ n ch, (fun n => if n = c.Name then some c else m n) n = some ch →
        ch.Name = n := by
      intro n ch h
      by_cases hn : n = c.Name
      · simp only [hn, if_true, Option.some.injEq] at h
        rw [← h, hn]
      · simp only [hn, if_false] at h
        exact hm n ch h
    obtain ⟨h₁, h₂⟩ := nameToChapter_spec rest _ hm'
    refine ⟨h₁, fun n hn => h₂ n ?_⟩
    by_cases hc : n = c.Name
    · right; simp [hc]
    · rcases hn with hn | hn
      · left
        simpa [hc] using hn
      · right; simpa [hc] using hn

/-- The names after `sortChapters` are the sorted names. -/
theorem sortChapters_names {isDigit : Nat → Bool} (chapters : List Chapter) :
    (sortChapters isDigit chapters).map Chapter.Name = Natural isDigit (chapters.map Chapter.Name) := by
  unfold sortChapters
  rw [List.map_map]
  conv_rhs => rw [← List.map_id (Natural isDigit (chapters.map Chapter.Name))]
  apply List.map_congr_left
  intro name hname
  have hmem : name ∈ chapters.map Chapter.Name :=
    (SliceStable_perm (naturalLess isDigit) _).mem_iff.1 hname
  obtain ⟨h₁, h₂⟩ := nameToChapter_spec chapters (fun _ => none) (by intro n ch h; cases h)
  have hsome := h₂ name (Or.inl hmem)
  obtain ⟨ch, hch⟩ := Option.isSome_iff_exists.1 hsome
  simp only [Function.comp_apply, hch, Option.getD_some, id_eq]
  exact h₁ name ch hch

theorem discoverFlatLoop_names (inputDir : List GoString) :
    ∀ entries : List (GoString × Node),
      (discoverFlatLoop inputDir entries).map Chapter.Name =
        (entries.filter (fun e => e.2.IsDir && !HasPrefix e.1 (str "."))).map Prod.fst
  | [] => rfl
  | (name, node) :: rest => by
    have ih := discoverFlatLoop_names inputDir rest
    unfold discoverFlatLoop
    cases hd : node.IsDir
    · simp [List.filter_cons, hd, ih]
    · cases hh : HasPrefix name (str ".")
      · simp [List.filter_cons, hd, hh, ih]
      · simp [List.filter_cons, hd, hh, ih]

/-- C10: flat discovery of an existing directory returns exactly its visible
immediate subdirectories: the chapter names are, up to order, the names of the
entries that are directories and do not start with `.`, each as often as it
is listed (once, entry names being distinct); plain files and hidden
directories never appear. -/
theorem Discover_flat_names {isDigit : Nat → Bool} (root : Node) (inputDir : List GoString)
    (entries : List (GoString × Node))
    (hdir : root.lookup inputDir = some (Node.dir entries)) :
    ∃ chapters, Discover isDigit root inputDir false = Except.ok chapters ∧
      (chapters.map Chapter.Name).Perm
        ((entries.filter (fun e => e.2.IsDir && !HasPrefix e.1 (str "."))).map Prod.fst) ∧
      (∀ name, name ∈ chapters.map Chapter.Name ↔
        ∃ node, (name, node) ∈ entries ∧ node.IsDir = true ∧ HasPrefix name (str ".") = false) ∧
      ((entries.map Prod.fst).Nodup → (chapters.map Chapter.Name).Nodup) := by
  refine ⟨sortChapters isDigit (discoverFlatLoop inputDir entries), ?_, ?_⟩
  · simp [Discover, hdir, Node.IsDir, discoverFlat, ReadDir]
  · have hperm : ((sortChapters isDigit (discoverFlatLoop inputDir entries)).map Chapter.Name).Perm
        ((entries.filter (fun e => e.2.IsDir && !HasPrefix e.1 (str "."))).map Prod.fst) := by
      rw [sortChapters_names, ← discoverFlatLoop_names]
      exact SliceStable_perm (naturalLess isDigit) _
    refine ⟨hperm, ?_, ?_⟩
    · intro name
      rw [hperm.mem_iff]
      simp only [List.mem_map, List.mem_filter, Bool.and_eq_true, Bool.not_eq_true',
        Prod.exists, exists_and_right, exists_eq_right]
    · intro hnd
      rw [hperm.nodup_iff]
      exact hnd.sublist ((List.filter_sublist _).map Prod.fst)

theorem Discover_flat_names_witness :
    Discover unicode15 treeFlat [str "root"] false = Except.ok
      [⟨str "ChapterA", str "/root/ChapterA"⟩, ⟨str "ChapterB", str "/root/ChapterB"⟩] ∧
    ∃ chapters, Discover unicode15 treeFlat [str "root"] false = Except.ok chapters ∧
      (chapters.map Chapter.Name).Perm [str "ChapterA", str "ChapterB"] :=
  ⟨rfl, (Discover_flat_names treeFlat [str "root"] _ rfl).imp (fun _ h => ⟨h.1, h.2.1⟩)⟩

/-! ## The archive writer: round trip and intermediate states -/

theorem StoresImages_length (fs : FileSys) (images : List ImageFile)
    (es : List (GoString × Content)) (h : StoresImages fs images es) :
    es.length = images.length := by
  have := congrArg List.length h.1
  simpa using this

/-- C7, as stated, fails in two ways.  With an empty entry list `Create`
still fails when a file exists at `outputPath` and `Force` is false.  And when
an entry's source is `outputPath` itself, `Create` succeeds but the entry
holds the content of the output file as it was being written, which is the
content of `images[0].Path` neither before the call nor after it. -/
theorem Create_roundtrip_counterexample :
    (Create noFaults fsExisting (str "/t/out.cbz") [] ⟨false⟩).err =
      some (GoError.alreadyExists (str "/t/out.cbz")) ∧
    (Create noFaults fsEmpty (str "/t/out.cbz") [⟨str "/t/out.cbz", str "a"⟩] ⟨false⟩).err =
      none ∧
    ¬ ∃ es,
      (Create noFaults fsEmpty (str "/t/out.cbz") [⟨str "/t/out.cbz", str "a"⟩] ⟨false⟩).fs
        (str "/t/out.cbz") = some (Content.archive es true) ∧
      (StoresImages fsEmpty [⟨str "/t/out.cbz", str "a"⟩] es ∨
        StoresImages
          (Create noFaults fsEmpty (str "/t/out.cbz") [⟨str "/t/out.cbz", str "a"⟩] ⟨false⟩).fs
          [⟨str "/t/out.cbz", str "a"⟩] es) := by
  refine ⟨by decide, by decide, ?_⟩
  rintro ⟨es, hes, hst⟩
  have hfs : (Create noFaults fsEmpty (str "/t/out.cbz")
      [⟨str "/t/out.cbz", str "a"⟩] ⟨false⟩).fs (str "/t/out.cbz") =
      some (Content.archive [(str "a", Content.archive [] false)] true) := rfl
  rw [hfs] at hes
  simp only [Option.some.injEq, Content.archive.injEq, and_true] at hes
  subst hes
  rcases hst with h | h
  · have h2 := h.2
    simp [fsEmpty] at h2
  · have h2 := h.2
    simp only [List.map_cons, List.map_nil] at h2
    rw [hfs] at h2
    simp at h2

/-- C7 (amended): for every entry list none of whose sources is `outputPath`
itself, if `Create` returns success then the archive at `outputPath` is
complete and has exactly one entry per input entry, in the input order, entry
`i` stored under `images[i].Name` with the content of `images[i].Path`; and
for the empty list `Create` succeeds, with an archive of zero entries,
whenever the overwrite guard passes and creating and closing the output do
not fail. -/
theorem Create_roundtrip (faults : Faults) (fs : FileSys) (outputPath : GoString)
    (images : List ImageFile) (opts : CreateOptions) :
    ((∀ img ∈ images, img.Path ≠ outputPath) →
      (Create faults fs outputPath images opts).err = none →
      ∃ es, (Create faults fs outputPath images opts).fs outputPath =
          some (Content.archive es true) ∧
        es.length = images.length ∧ StoresImages fs images es) ∧
    ((opts.Force = true ∨ fs outputPath = none) → faults Op.osCreate = none →
      faults Op.zipClose = none →
      (Create faults fs outputPath [] opts).err = none ∧
      (Create faults fs outputPath [] opts).fs outputPath = some (Content.archive [] true)) := by
  constructor
  · intro hsrc hok
    obtain ⟨_, _, hloop, _, hfs⟩ := Create_ok faults fs outputPath images opts hok
    obtain ⟨es, hes, hst⟩ := addImages_ok_stores faults fs outputPath images 0
      (createdOutput fs outputPath) hsrc
      (fun p hp => by simp [createdOutput, FileSys.write, hp]) hloop
    refine ⟨es, ?_, StoresImages_length fs images es hst, hst⟩
    rw [hfs, hes]
    simp [FileSys.write, createdOutput]
  · intro hguard hcreate hclose
    have hg : (!opts.Force && (fs outputPath).isSome) = false := by
      rcases hguard with h | h <;> simp [h]
    unfold Create
    simp only [hg, hcreate, Bool.false_eq_true, if_false]
    simp [addImages, zipClose, hclose, createdOutput, FileSys.write]

theorem Create_roundtrip_witness :
    (∃ es, (Create noFaults fsValid (str "/t/out.cbz")
        [⟨str "/t/valid.jpg", str "valid.jpg"⟩] ⟨false⟩).fs (str "/t/out.cbz") =
          some (Content.archive es true) ∧
      es.length = 1 ∧
      StoresImages fsValid [⟨str "/t/valid.jpg", str "valid.jpg"⟩] es) ∧
    (Create noFaults fsValid (str "/t/out.cbz") [] ⟨false⟩).err = none ∧
    (Create noFaults fsValid (str "/t/out.cbz") [] ⟨false⟩).fs (str "/t/out.cbz") =
      some (Content.archive [] true) :=
  ⟨(Create_roundtrip noFaults fsValid (str "/t/out.cbz")
      [⟨str "/t/valid.jpg", str "valid.jpg"⟩] ⟨false⟩).1 (by decide) (by decide),
   (Create_roundtrip noFaults fsValid (str "/t/out.cbz")
      [⟨str "/t/valid.jpg", str "valid.jpg"⟩] ⟨false⟩).2 (Or.inr rfl) rfl rfl⟩

/-- C9, as stated, fails: `Create` writes the archive in place, so a state
reached during a successful call has a file at `outputPath` that is not a
complete archive (right after `os.Create` it is empty). -/
theorem Create_intermediate_state_counterexample :
    (Create noFaults fsValid (str "/t/out.cbz") [⟨str "/t/valid.jpg", str "valid.jpg"⟩]
      ⟨false⟩).err = none ∧
    ¬ ∀ s ∈ (Create noFaults fsValid (str "/t/out.cbz")
        [⟨str "/t/valid.jpg", str "valid.jpg"⟩] ⟨false⟩).trace,
      s (str "/t/out.cbz") = none ∨ ∃ es, s (str "/t/out.cbz") = some (Content.archive es true) := by
  refine ⟨by decide, fun h => ?_⟩
  have hmem : (createdOutput fsValid (str "/t/out.cbz")).fs ∈
      (Create noFaults fsValid (str "/t/out.cbz")
        [⟨str "/t/valid.jpg", str "valid.jpg"⟩] ⟨false⟩).trace := by
    have : (Create noFaults fsValid (str "/t/out.cbz")
        [⟨str "/t/valid.jpg", str "valid.jpg"⟩] ⟨false⟩).trace =
        (createdOutput fsValid (str "/t/out.cbz")).fs :: _ := rfl
    rw [this]
    exact List.mem_cons_self _ _
  have hs : (createdOutput fsValid (str "/t/out.cbz")).fs (str "/t/out.cbz") =
      some (Content.archive [] false) := rfl
  rcases h _ hmem with h0 | ⟨es, h1⟩
  · rw [hs] at h0
    cases h0
  · rw [hs] at h1
    simp at h1

theorem addImageToArchive_incomplete (faults : Faults) (i : Nat) (outputPath : GoString)
    (out : Output) (img : ImageFile)
    (h : ∃ es, out.fs outputPath = some (Content.archive es false)) :
    ∃ es, (addImageToArchive faults i outputPath out img).1.fs outputPath =
      some (Content.archive es false) := by
  unfold addImageToArchive
  repeat' split
  all_goals first | exact h | exact ⟨_, if_pos rfl⟩

theorem addImages_incomplete (faults : Faults) (outputPath : GoString) :
    ∀ (images : List ImageFile) (i : Nat) (out : Output),
      (∃ es, out.fs outputPath = some (Content.archive es false)) →
      (∀ s ∈ (addImages faults outputPath i images out).1,
        ∃ es, s outputPath = some (Content.archive es false)) ∧
      ∃ es, (addImages faults outputPath i images out).2.1.fs outputPath =
        some (Content.archive es false)
  | [], i, out, h => by
    simp only [addImages, List.not_mem_nil, false_implies, implies_true, true_and]
    exact h
  | img :: rest, i, out, h => by
    have hstep := addImageToArchive_incomplete faults i outputPath out img h
    cases hr : addImageToArchive faults i outputPath out img with
    | mk out' e =>
      rw [hr] at hstep
      cases e with
      | some e =>
        rw [addImages_cons_err faults outputPath i img rest out out' e hr]
        refine ⟨fun s hs => ?_, hstep⟩
        rw [List.mem_singleton.1 hs]
        exact hstep
      | none =>
        rw [addImages_cons_ok faults outputPath i img rest out out' hr]
        have ih := addImages_incomplete faults outputPath rest (i + 1) out' hstep
        refine ⟨fun s hs => ?_, ih.2⟩
        rcases List.mem_cons.1 hs with rfl | hs
        · exact hstep
        · exact ih.1 s hs

/-- From the creation of the output file until the ZIP writer is closed, the
file at `outputPath` is an incomplete archive: the trace of `Create` is these
states followed by the state after `zipWriter.Close()` and the final state. -/
theorem Create_trace_incomplete (faults : Faults) (fs : FileSys) (outputPath : GoString)
    (images : List ImageFile) (opts : CreateOptions)
    (hguard : opts.Force = true ∨ fs outputPath = none)
    (hcreate : faults Op.osCreate = none) :
    (Create faults fs outputPath images opts).trace =
      ((createdOutput fs outputPath).fs ::
        (addImages faults outputPath 0 images (createdOutput fs outputPath)).1) ++
      [(zipClose faults outputPath
          (addImages faults outputPath 0 images (createdOutput fs outputPath)).2.1).1,
        (Create faults fs outputPath images opts).fs] ∧
    ∀ s ∈ (createdOutput fs outputPath).fs ::
        (addImages faults outputPath 0 images (createdOutput fs outputPath)).1,
      ∃ es, s outputPath = some (Content.archive es false) := by
  have hg : (!opts.Force && (fs outputPath).isSome) = false := by
    rcases hguard with h | h <;> simp [h]
  have h0 : ∃ es, (createdOutput fs outputPath).fs outputPath =
      some (Content.archive es false) := ⟨[], by simp [createdOutput, FileSys.write]⟩
  constructor
  · unfold Create
    simp only [hg, hcreate, Bool.false_eq_true, if_false, List.cons_append]
  · intro s hs
    rcases List.mem_cons.1 hs with rfl | hs
    · exact h0
    · exact (addImages_incomplete faults outputPath images 0 _ h0).1 s hs

/-- C9 (amended): when `Create` returns, `outputPath` holds the complete
archive if the call succeeded; if it failed, either no file is at
`outputPath` or the file system is exactly as before the call (overwrite
guard, output file not creatable).  During the call the archive is written in
place: once the output file is created, `outputPath` holds an empty,
incomplete archive, and in every state from then until the ZIP writer is
closed it holds an incomplete archive. -/
theorem Create_final_state (faults : Faults) (fs : FileSys) (outputPath : GoString)
    (images : List ImageFile) (opts : CreateOptions) :
    ((Create faults fs outputPath images opts).err = none →
      ∃ es, (Create faults fs outputPath images opts).fs outputPath =
        some (Content.archive es true)) ∧
    ((Create faults fs outputPath images opts).err ≠ none →
      (Create faults fs outputPath images opts).fs outputPath = none ∨
      (Create faults fs outputPath images opts).fs = fs) ∧
    ((opts.Force = true ∨ fs outputPath = none) → faults Op.osCreate = none →
      (∃ s rest, (Create faults fs outputPath images opts).trace = s :: rest ∧
        s outputPath = some (Content.archive [] false)) ∧
      ∃ pre closed, (Create faults fs outputPath images opts).trace =
          pre ++ [closed, (Create faults fs outputPath images opts).fs] ∧ pre ≠ [] ∧
        ∀ s ∈ pre, ∃ es, s outputPath = some (Content.archive es false)) := by
  refine ⟨fun hok => ?_, Create_err faults fs outputPath images opts, fun hguard hcreate =>
    ⟨?_, _, _, (Create_trace_incomplete faults fs outputPath images opts hguard hcreate).1,
      List.cons_ne_nil _ _,
      (Create_trace_incomplete faults fs outputPath images opts hguard hcreate).2⟩⟩
  · have hfs := (Create_ok faults fs outputPath images opts hok).2.2.2.2
    refine ⟨(addImages faults outputPath 0 images (createdOutput fs outputPath)).2.1.zw, ?_⟩
    rw [hfs]
    simp [FileSys.write]
  · have hg : (!opts.Force && (fs outputPath).isSome) = false := by
      rcases hguard with h | h <;> simp [h]
    have htr : ∃ rest, (Create faults fs outputPath images opts).trace =
        (createdOutput fs outputPath).fs :: rest := by
      unfold Create
      simp only [hg, hcreate, Bool.false_eq_true, if_false]
      exact ⟨_, rfl⟩
    obtain ⟨rest, hrest⟩ := htr
    exact ⟨(createdOutput fs outputPath).fs, rest, hrest,
      by simp [createdOutput, FileSys.write]⟩

theorem Create_final_state_witness :
    (∃ es, (Create noFaults fsValid (str "/t/out.cbz")
        [⟨str "/t/valid.jpg", str "valid.jpg"⟩] ⟨false⟩).fs (str "/t/out.cbz") =
      some (Content.archive es true)) ∧
    ((Create closeFault fsValid (str "/t/out.cbz")
        [⟨str "/t/valid.jpg", str "valid.jpg"⟩] ⟨false⟩).fs (str "/t/out.cbz") = none ∨
      (Create closeFault fsValid (str "/t/out.cbz")
        [⟨str "/t/valid.jpg", str "valid.jpg"⟩] ⟨false⟩).fs = fsValid) ∧
    (∃ s rest, (Create noFaults fsValid (str "/t/out.cbz")
        [⟨str "/t/valid.jpg", str "valid.jpg"⟩] ⟨false⟩).trace = s :: rest ∧
      s (str "/t/out.cbz") = some (Content.archive [] false)) ∧
    ∃ pre closed, (Create noFaults fsValid (str "/t/out.cbz")
        [⟨str "/t/valid.jpg", str "valid.jpg"⟩] ⟨false⟩).trace =
        pre ++ [closed, (Create noFaults fsValid (str "/t/out.cbz")
          [⟨str "/t/valid.jpg", str "valid.jpg"⟩] ⟨false⟩).fs] ∧ pre ≠ [] ∧
      ∀ s ∈ pre, ∃ es, s (str "/t/out.cbz") = some (Content.archive es false) :=
  ⟨(Create_final_state noFaults fsValid (str "/t/out.cbz")
      [⟨str "/t/valid.jpg", str "valid.jpg"⟩] ⟨false⟩).1 (by decide),
   (Create_final_state closeFault fsValid (str "/t/out.cbz")
      [⟨str "/t/valid.jpg", str "valid.jpg"⟩] ⟨false⟩).2.1 (by decide),
   (Create_final_state noFaults fsValid (str "/t/out.cbz")
      [⟨str "/t/valid.jpg", str "valid.jpg"⟩] ⟨false⟩).2.2 (Or.inr rfl) rfl⟩

/-! ## Stability of the sort -/

theorem tied_trans_left {isDigit : Nat → Bool}
    (a x p : GoString) (hax : tied isDigit a x = true) (hap : tied isDigit a p = true) :
    naturalLess isDigit x p = false := by
  simp only [tied, Bool.and_eq_true, Bool.not_eq_true'] at hax hap
  exact naturalLess_negTrans x a p hax.2 hap.1

/-- Sinking `x` into the sorted prefix does not change the order among the
elements tied with `a`: `x` only passes elements it is strictly before. -/
theorem insertLeft_filter_tied {isDigit : Nat → Bool} (a x : GoString) : ∀ l : List GoString,
    (insertLeft (naturalLess isDigit) x l).filter (tied isDigit a) = (x :: l).filter (tied isDigit a)
  | [] => rfl
  | p :: ps => by
    unfold insertLeft
    by_cases hxp : naturalLess isDigit x p = true
    · rw [if_pos hxp]
      have ih := @insertLeft_filter_tied isDigit a x ps
      by_cases hp : tied isDigit a p = true
      · have hx : tied isDigit a x = false := by
          by_contra h
          have h' : tied isDigit a x = true := by simpa using h
          rw [tied_trans_left a x p h' hp] at hxp
          cases hxp
        rw [List.filter_cons_of_pos hp, ih]
        simp [List.filter_cons, hx, hp]
      · rw [List.filter_cons_of_neg hp, ih]
        simp [List.filter_cons, hp]
    · rw [if_neg hxp]

theorem foldl_insertLeft_filter_tied {isDigit : Nat → Bool} (a : GoString) (items : List GoString) :
    ∀ acc : List GoString,
      (items.foldl (fun sortedRev x => insertLeft (naturalLess isDigit) x sortedRev) acc).filter (tied isDigit a) =
        (items.filter (tied isDigit a)).reverse ++ acc.filter (tied isDigit a) := by
  induction items with
  | nil => intro acc; simp
  | cons x xs ih =>
    intro acc
    rw [List.foldl_cons, ih, insertLeft_filter_tied]
    by_cases hx : tied isDigit a x = true
    · simp [List.filter_cons, hx]
    · simp [List.filter_cons, hx]

/-- The elements tied with `a` come out of `Natural` in their input order. -/
theorem Natural_filter_tied {isDigit : Nat → Bool} (a : GoString) (items : List GoString) :
    (Natural isDigit items).filter (tied isDigit a) = items.filter (tied isDigit a) := by
  unfold Natural SliceStable
  rw [List.filter_reverse, foldl_insertLeft_filter_tied]
  simp

/-- C18: `Natural` is a stable sort: for every input list and every string
`a`, the elements equal to `a` in the comparator's order appear in the result
in the same order as in the input; in particular, if `x` stands before `y` in
the input and neither is `naturalLess` than the other, `x` stands before `y`
in the result. -/
theorem Natural_stable {isDigit : Nat → Bool} (items : List GoString) (a x y : GoString) :
    (Natural isDigit items).filter (tied isDigit a) = items.filter (tied isDigit a) ∧
    (tied isDigit x y = true → List.Sublist [x, y] items → List.Sublist [x, y] (Natural isDigit items)) := by
  refine ⟨Natural_filter_tied a items, fun hxy hsub => ?_⟩
  have hxx : tied isDigit x x = true := by simp [tied, naturalLess_irrefl]
  have h₁ : List.Sublist ([x, y].filter (tied isDigit x)) (items.filter (tied isDigit x)) := hsub.filter _
  rw [← Natural_filter_tied x items] at h₁
  have h₂ : [x, y].filter (tied isDigit x) = [x, y] := by simp [List.filter_cons, hxx, hxy]
  rw [h₂] at h₁
  exact h₁.trans (List.filter_sublist _)

theorem Natural_stable_witness :
    tied unicode15 [0xFF] [0xFE] = true ∧
    List.Sublist [[0xFF], [0xFE]] (Natural unicode15 [str "b", [0xFF], str "a", [0xFE]]) ∧
    List.Sublist [[0xFE], [0xFF]] (Natural unicode15 [str "b", [0xFE], str "a", [0xFF]]) :=
  ⟨by decide,
   (Natural_stable [str "b", [0xFF], str "a", [0xFE]] [] [0xFF] [0xFE]).2 (by decide)
     (by decide),
   (Natural_stable [str "b", [0xFE], str "a", [0xFF]] [] [0xFE] [0xFF]).2 (by decide)
     (by decide)⟩

/-! ## Leading zeros -/

/-- C17, as stated, fails: `naturalLess "01" "1"` is false and
`naturalLess "1" "01"` is true. -/
theorem naturalLess_leading_zero_counterexample :
    ¬ (naturalLess unicode15 (str "01") (str "1") = true ∧ naturalLess unicode15 (str "1") (str "01") = false) := by
  decide

/-- C17 (amended): the comparator orders "1" before "01": for equal numeric
value the run with fewer characters (fewer leading zeros) sorts first, so
`naturalLess "1" "01"` is true and `naturalLess "01" "1"` is false; and the
list `01.jpg, 10.jpg, 02.jpg, 001.jpg` sorts to `01.jpg, 001.jpg, 02.jpg,
10.jpg`. -/
theorem naturalLess_leading_zero :
    naturalLess unicode15 (str "1") (str "01") = true ∧ naturalLess unicode15 (str "01") (str "1") = false ∧
    compareNumeric (str "01") (str "1") = 1 ∧
    Natural unicode15 [str "01.jpg", str "10.jpg", str "02.jpg", str "001.jpg"] =
      [str "01.jpg", str "001.jpg", str "02.jpg", str "10.jpg"] := by
  decide

/-! ## `sortChapters` -/

theorem nameToChapter_not_mem : ∀ (chapters : List Chapter) (m : GoString → Option Chapter)
    (n : GoString), n ∉ chapters.map Chapter.Name → nameToChapter m chapters n = m n
  | [], _, _, _ => rfl
  | c :: rest, m, n, h => by
    simp only [List.map_cons, List.mem_cons, not_or] at h
    rw [nameToChapter, nameToChapter_not_mem rest _ n h.2]
    simp [h.1]

theorem nameToChapter_nodup : ∀ (chapters : List Chapter) (m : GoString → Option Chapter),
    (chapters.map Chapter.Name).Nodup →
    ∀ ch ∈ chapters, nameToChapter m chapters ch.Name = some ch
  | [], _, _, ch, h => by cases h
  | c :: rest, m, hnd, ch, hch => by
    simp only [List.map_cons, List.nodup_cons] at hnd
    rw [nameToChapter]
    rcases List.mem_cons.1 hch with rfl | hmem
    · rw [nameToChapter_not_mem rest _ ch.Name hnd.1]
      simp
    · exact nameToChapter_nodup rest _ hnd.2 ch hmem

/-- With pairwise distinct names sorting keeps every chapter. -/
theorem sortChapters_perm {isDigit : Nat → Bool} (chapters : List Chapter)
    (hnd : (chapters.map Chapter.Name).Nodup) : (sortChapters isDigit chapters).Perm chapters := by
  have hmap : (chapters.map Chapter.Name).map
      (fun name => (nameToChapter (fun _ => none) chapters name).getD { Name := [], Path := [] })
      = chapters := by
    rw [List.map_map]
    conv_rhs => rw [← List.map_id chapters]
    apply List.map_congr_left
    intro ch hch
    simp [nameToChapter_nodup chapters _ hnd ch hch]
  unfold sortChapters
  conv_rhs => rw [← hmap]
  exact (SliceStable_perm (naturalLess isDigit) _).map _

/-- C13: for every list of chapters with pairwise distinct names,
`sortChapters` yields a permutation of that list (each chapter, with its own
Name and Path, is kept) whose names are `Natural` applied to the list of
names. -/
theorem sortChapters_perm_sorted {isDigit : Nat → Bool} (chapters : List Chapter)
    (hnd : (chapters.map Chapter.Name).Nodup) :
    (sortChapters isDigit chapters).Perm chapters ∧
    (sortChapters isDigit chapters).map Chapter.Name = Natural isDigit (chapters.map Chapter.Name) :=
  ⟨sortChapters_perm chapters hnd, sortChapters_names chapters⟩

theorem sortChapters_perm_sorted_witness :
    sortChapters unicode15 [⟨str "Chapter 10", str "/m/Chapter 10"⟩, ⟨str "Chapter 2", str "/m/Chapter 2"⟩,
        ⟨str "Chapter 1", str "/m/Chapter 1"⟩] =
      [⟨str "Chapter 1", str "/m/Chapter 1"⟩, ⟨str "Chapter 2", str "/m/Chapter 2"⟩,
        ⟨str "Chapter 10", str "/m/Chapter 10"⟩] ∧
    (sortChapters unicode15 [⟨str "Chapter 10", str "/m/Chapter 10"⟩,
        ⟨str "Chapter 2", str "/m/Chapter 2"⟩, ⟨str "Chapter 1", str "/m/Chapter 1"⟩]).Perm
      [⟨str "Chapter 10", str "/m/Chapter 10"⟩, ⟨str "Chapter 2", str "/m/Chapter 2"⟩,
        ⟨str "Chapter 1", str "/m/Chapter 1"⟩] :=
  ⟨by decide,
   (sortChapters_perm_sorted [⟨str "Chapter 10", str "/m/Chapter 10"⟩,
      ⟨str "Chapter 2", str "/m/Chapter 2"⟩, ⟨str "Chapter 1", str "/m/Chapter 1"⟩]
      (by decide)).1⟩

/-! ## Recursive discovery -/

theorem not_visits_nil (p : List GoString) (es' : List (GoString × Node)) :
    ¬ Visits [] p es' := by
  intro h
  cases h with
  | last _ _ _ hm _ => cases hm
  | step _ _ _ _ _ hm _ _ => cases hm

theorem visits_cons (name : GoString) (node : Node) (rest : List (GoString × Node))
    (p : List GoString) (es' : List (GoString × Node)) :
    Visits ((name, node) :: rest) p es' ↔
      (HasPrefix name (str ".") = false ∧ ∃ es₁, node = Node.dir es₁ ∧
        ((p = [name] ∧ es' = es₁) ∨ ∃ q, p = name :: q ∧ Visits es₁ q es')) ∨
      Visits rest p es' := by
  constructor
  · intro h
    cases h with
    | last _ n _ hm hh =>
      rcases List.mem_cons.1 hm with heq | hm
      · simp only [Prod.mk.injEq] at heq
        obtain ⟨rfl, rfl⟩ := heq
        exact Or.inl ⟨hh, _, rfl, Or.inl ⟨rfl, rfl⟩⟩
      · exact Or.inr (Visits.last _ _ _ hm hh)
    | step _ n es₁ q _ hm hh hv =>
      rcases List.mem_cons.1 hm with heq | hm
      · simp only [Prod.mk.injEq] at heq
        obtain ⟨rfl, rfl⟩ := heq
        exact Or.inl ⟨hh, _, rfl, Or.inr ⟨q, rfl, hv⟩⟩
      · exact Or.inr (Visits.step _ _ _ _ _ hm hh hv)
  · rintro (⟨hh, es₁, rfl, h⟩ | h)
    · rcases h with ⟨rfl, rfl⟩ | ⟨q, rfl, hv⟩
      · exact Visits.last _ _ _ (List.mem_cons_self _ _) hh
      · exact Visits.step _ _ _ _ _ (List.mem_cons_self _ _) hh hv
    · cases h with
      | last _ n _ hm hh => exact Visits.last _ _ _ (List.mem_cons_of_mem _ hm) hh
      | step _ n es₁ q _ hm hh hv =>
        exact Visits.step _ _ _ _ _ (List.mem_cons_of_mem _ hm) hh hv

mutual
/-- The chapters appended while walking a node below the root. -/
theorem mem_walkDir (inputDir : List GoString) (ch : Chapter) :
    ∀ (node : Node) (rel : List GoString) (name : GoString), rel ≠ [] →
      (ch ∈ walkDir inputDir rel name node ↔
        HasPrefix name (str ".") = false ∧ ∃ es, node = Node.dir es ∧
          ((isLeafDirectory es = true ∧ ch = chapterAt inputDir rel) ∨
            ∃ q es', Visits es q es' ∧ isLeafDirectory es' = true ∧
              ch = chapterAt inputDir (rel ++ q)))
  | Node.file, rel, name, _ => by simp [walkDir]
  | Node.dir es, rel, name, hrel => by
    rw [walkDir]
    have ih := mem_walkEntries inputDir ch es rel
    by_cases hh : HasPrefix name (str ".") = true
    · simp [hh]
    · have hh' : HasPrefix name (str ".") = false := by simpa using hh
      simp only [hh', Bool.false_eq_true, if_false, hrel, List.mem_append, ih, true_and,
        Node.dir.injEq, exists_eq_left', chapterAt]
      by_cases hl : isLeafDirectory es = true
      · simp only [hl, if_true, List.mem_singleton, true_and]
      · simp only [hl, Bool.false_eq_true, if_false, List.not_mem_nil, false_and]
/-- The chapters appended while walking the entries of a directory. -/
theorem mem_walkEntries (inputDir : List GoString) (ch : Chapter) :
    ∀ (es : List (GoString × Node)) (rel : List GoString),
      (ch ∈ walkEntries inputDir rel es ↔
        ∃ p es', Visits es p es' ∧ isLeafDirectory es' = true ∧
          ch = chapterAt inputDir (rel ++ p))
  | [], rel => by
    simp only [walkEntries, List.not_mem_nil, false_iff]
    rintro ⟨p, es', hv, _⟩
    exact not_visits_nil p es' hv
  | (name, node) :: rest, rel => by
    rw [walkEntries, List.mem_append,
      mem_walkDir inputDir ch node (rel ++ [name]) name (by simp),
      mem_walkEntries inputDir ch rest rel]
    constructor
    · rintro (⟨hh, es, rfl, h⟩ | ⟨p, es', hv, hl, hc⟩)
      · rcases h with ⟨hl, hc⟩ | ⟨q, es', hv, hl, hc⟩
        · exact ⟨[name], es, (visits_cons _ _ _ _ _).2 (Or.inl ⟨hh, es, rfl, Or.inl ⟨rfl, rfl⟩⟩),
            hl, hc⟩
        · refine ⟨name :: q, es',
            (visits_cons _ _ _ _ _).2 (Or.inl ⟨hh, es, rfl, Or.inr ⟨q, rfl, hv⟩⟩), hl, ?_⟩
          rw [hc, List.append_assoc]
          rfl
      · exact ⟨p, es', (visits_cons _ _ _ _ _).2 (Or.inr hv), hl, hc⟩
    · rintro ⟨p, es', hv, hl, hc⟩
      rcases (visits_cons _ _ _ _ _).1 hv with ⟨hh, es₁, rfl, h⟩ | hv'
      · left
        refine ⟨hh, es₁, rfl, ?_⟩
        rcases h with ⟨rfl, rfl⟩ | ⟨q, rfl, hq⟩
        · exact Or.inl ⟨hl, hc⟩
        · refine Or.inr ⟨q, es', hq, hl, ?_⟩
          rw [hc, List.append_assoc]
          rfl
      · exact Or.inr ⟨p, es', hv', hl, hc⟩
end

theorem visits_components (es : List (GoString × Node)) (p : List GoString)
    (es' : List (GoString × Node)) (h : Visits es p es') :
    p ≠ [] ∧ ∀ c ∈ p, HasPrefix c (str ".") = false := by
  induction h with
  | last es name es' _ hh => exact ⟨by simp, by simpa using hh⟩
  | step es name es₁ q es' _ hh _ ih =>
    refine ⟨by simp, ?_⟩
    intro c hc
    rcases List.mem_cons.1 hc with rfl | hc
    · exact hh
    · exact ih.2 c hc

theorem wellFormedEntries_mem : ∀ (es : List (GoString × Node)) (name : GoString) (node : Node),
    wellFormedEntries es = true → (name, node) ∈ es →
    validName name = true ∧ node.wellFormed = true
  | [], _, _, _, h => by cases h
  | (n, nd) :: rest, name, node, hwf, hmem => by
    simp only [wellFormedEntries, Bool.and_eq_true] at hwf
    rcases List.mem_cons.1 hmem with heq | hmem
    · simp only [Prod.mk.injEq] at heq
      obtain ⟨rfl, rfl⟩ := heq
      exact ⟨hwf.1.1.1, hwf.1.2⟩
    · exact wellFormedEntries_mem rest name node hwf.2 hmem

theorem visits_wellFormed (es : List (GoString × Node)) (p : List GoString)
    (es' : List (GoString × Node)) (h : Visits es p es') :
    wellFormedEntries es = true →
    (∀ c ∈ p, validName c = true) ∧ wellFormedEntries es' = true := by
  induction h with
  | last es name es' hm _ =>
    intro hwf
    obtain ⟨hv, hn⟩ := wellFormedEntries_mem es name _ hwf hm
    exact ⟨by simpa using hv, by simpa [Node.wellFormed] using hn⟩
  | step es name es₁ q es' hm _ _ ih =>
    intro hwf
    obtain ⟨hv, hn⟩ := wellFormedEntries_mem es name _ hwf hm
    obtain ⟨h₁, h₂⟩ := ih (by simpa [Node.wellFormed] using hn)
    refine ⟨?_, h₂⟩
    intro c hc
    rcases List.mem_cons.1 hc with rfl | hc
    · exact hv
    · exact h₁ c hc

theorem findEntry_mem : ∀ (es : List (GoString × Node)) (name : GoString) (node : Node),
    findEntry name es = some node → (name, node) ∈ es
  | [], _, _, h => by cases h
  | (n, nd) :: rest, name, node, h => by
    unfold findEntry at h
    by_cases hn : n = name
    · simp only [hn, if_true, Option.some.injEq] at h
      rw [hn, h]
      exact List.mem_cons_self _ _
    · rw [if_neg hn] at h
      exact List.mem_cons_of_mem _ (findEntry_mem rest name node h)

theorem lookup_wellFormed : ∀ (path : List GoString) (root node : Node),
    root.wellFormed = true → root.lookup path = some node → node.wellFormed = true
  | [], root, node, hwf, h => by
    simp only [Node.lookup, Option.some.injEq] at h
    rw [← h]
    exact hwf
  | c :: cs, Node.file, node, _, h => by simp [Node.lookup] at h
  | c :: cs, Node.dir es, node, hwf, h => by
    simp only [Node.lookup] at h
    cases hf : findEntry c es with
    | none => simp [hf] at h
    | some n =>
      simp only [hf] at h
      have hmem := findEntry_mem es c n hf
      have hn := (wellFormedEntries_mem es c n (by simpa [Node.wellFormed] using hwf) hmem).2
      exact lookup_wellFormed cs n node hn h

theorem validName_sep (name : GoString) (h : validName name = true) : Separator ∉ name := by
  simp only [validName, Bool.and_eq_true, Bool.not_eq_true', List.contains_eq_any_beq,
    List.any_eq_false, beq_iff_eq] at h
  intro hmem
  exact h.2 _ hmem rfl

theorem splitSep_of_no_sep : ∀ a : GoString, Separator ∉ a → splitSep a = [a]
  | [], _ => rfl
  | c :: rest, h => by
    simp only [List.mem_cons, not_or] at h
    have hc : c ≠ Separator := fun e => h.1 e.symm
    rw [splitSep, if_neg hc, splitSep_of_no_sep rest h.2]

theorem splitSep_append_sep : ∀ (a b : GoString), Separator ∉ a →
    splitSep (a ++ Separator :: b) = a :: splitSep b
  | [], b, _ => by simp [splitSep]
  | c :: rest, b, h => by
    simp only [List.mem_cons, not_or] at h
    have hc : c ≠ Separator := fun e => h.1 e.symm
    rw [List.cons_append, splitSep, if_neg hc, splitSep_append_sep rest b h.2]

/-- Splitting the joined components gives the components back. -/
theorem splitSep_joinSep : ∀ rel : List GoString, rel ≠ [] →
    (∀ c ∈ rel, Separator ∉ c) → splitSep (joinSep rel) = rel
  | [], h, _ => absurd rfl h
  | [c], _, h => by
    rw [joinSep, splitSep_of_no_sep c (h c (List.mem_cons_self _ _))]
  | c :: d :: rest, _, h => by
    rw [joinSep, splitSep_append_sep c _ (h c (List.mem_cons_self _ _)),
      splitSep_joinSep (d :: rest) (by simp) (fun x hx => h x (List.mem_cons_of_mem _ hx))]

theorem nameToChapter_mem : ∀ (chapters : List Chapter) (m : GoString → Option Chapter)
    (n : GoString) (ch : Chapter), nameToChapter m chapters n = some ch →
    ch ∈ chapters ∨ m n = some ch
  | [], _, _, _, h => Or.inr h
  | c :: rest, m, n, ch, h => by
    rw [nameToChapter] at h
    rcases nameToChapter_mem rest _ n ch h with hmem | hm
    · exact Or.inl (List.mem_cons_of_mem _ hmem)
    · by_cases hn : n = c.Name
      · simp only [hn, if_true, Option.some.injEq] at hm
        rw [← hm]
        exact Or.inl (List.mem_cons_self _ _)
      · simp only [hn, if_false] at hm
        exact Or.inr hm

/-- Sorting reports only chapters it was given. -/
theorem mem_of_mem_sortChapters {isDigit : Nat → Bool} (chapters : List Chapter) (ch : Chapter)
    (h : ch ∈ sortChapters isDigit chapters) : ch ∈ chapters := by
  unfold sortChapters at h
  obtain ⟨name, hname, hch⟩ := List.mem_map.1 h
  have hmem : name ∈ chapters.map Chapter.Name :=
    (SliceStable_perm (naturalLess isDigit) _).mem_iff.1 hname
  have hsome := (nameToChapter_spec chapters (fun _ => none)
    (by intro n c hc; cases hc)).2 name (Or.inl hmem)
  obtain ⟨c, hc⟩ := Option.isSome_iff_exists.1 hsome
  rw [hc] at hch
  simp only [Option.getD_some] at hch
  rcases nameToChapter_mem chapters _ name c hc with hm | hm
  · rw [← hch]; exact hm
  · cases hm

/-- What recursive discovery computes on an existing directory. -/
theorem Discover_recursive_eq {isDigit : Nat → Bool} (root : Node) (inputDir : List GoString)
    (es : List (GoString × Node)) (h : root.lookup inputDir = some (Node.dir es)) :
    Discover isDigit root inputDir true = Except.ok (sortChapters isDigit
      (if HasPrefix (baseName inputDir) (str ".") = true then []
       else walkEntries inputDir [] es)) := by
  simp only [Discover, h, Node.IsDir, Bool.not_true, Bool.false_eq_true, if_false, if_true,
    discoverRecursive]
  rw [walkDir]
  simp

theorem Discover_ok_dir {isDigit : Nat → Bool}
    (root : Node) (inputDir : List GoString) (recursive : Bool)
    (chapters : List Chapter) (h : Discover isDigit root inputDir recursive = Except.ok chapters) :
    ∃ es, root.lookup inputDir = some (Node.dir es) := by
  unfold Discover at h
  cases hl : root.lookup inputDir with
  | none => simp [hl] at h
  | some info =>
    cases info with
    | file => simp [hl, Node.IsDir] at h
    | dir es => exact ⟨es, rfl⟩

/-- Every chapter of recursive discovery is the chapter of a directory reached
from the input directory through visible directories only, which is a leaf. -/
theorem Discover_recursive_sound {isDigit : Nat → Bool} (root : Node) (inputDir : List GoString)
    (chapters : List Chapter) (h : Discover isDigit root inputDir true = Except.ok chapters)
    (ch : Chapter) (hch : ch ∈ chapters) :
    ∃ es rel es', root.lookup inputDir = some (Node.dir es) ∧ Visits es rel es' ∧
      isLeafDirectory es' = true ∧ ch = chapterAt inputDir rel := by
  obtain ⟨es, hes⟩ := Discover_ok_dir root inputDir true chapters h
  rw [Discover_recursive_eq root inputDir es hes] at h
  simp only [Except.ok.injEq] at h
  rw [← h] at hch
  have hmem := mem_of_mem_sortChapters _ ch hch
  by_cases hh : HasPrefix (baseName inputDir) (str ".") = true
  · simp [hh] at hmem
  · rw [if_neg hh] at hmem
    obtain ⟨p, es', hv, hl, hc⟩ := (mem_walkEntries inputDir ch es []).1 hmem
    exact ⟨es, p, es', hes, hv, hl, by simpa using hc⟩

/-- C12: hidden subtrees are pruned in recursive discovery: every chapter
returned by `Discover inputDir true` is the chapter of a relative path none
of whose components starts with `.`; in a well-formed tree no component of
its Name (split at `/`) starts with `.`.  So neither a hidden directory nor a
descendant of one is reported. -/
theorem Discover_recursive_prunes_hidden {isDigit : Nat → Bool}
    (root : Node) (inputDir : List GoString)
    (chapters : List Chapter) (h : Discover isDigit root inputDir true = Except.ok chapters) :
    ∀ ch ∈ chapters,
      (∃ rel, rel ≠ [] ∧ ch = chapterAt inputDir rel ∧
        ∀ c ∈ rel, HasPrefix c (str ".") = false) ∧
      (root.wellFormed = true → ∀ c ∈ splitSep ch.Name, HasPrefix c (str ".") = false) := by
  intro ch hch
  obtain ⟨es, rel, es', hes, hv, _, hc⟩ := Discover_recursive_sound root inputDir chapters h ch hch
  obtain ⟨hne, hvis⟩ := visits_components es rel es' hv
  refine ⟨⟨rel, hne, hc, hvis⟩, fun hwf => ?_⟩
  have hwfes : wellFormedEntries es = true := by
    simpa [Node.wellFormed] using lookup_wellFormed inputDir root _ hwf hes
  have hvalid := (visits_wellFormed es rel es' hv hwfes).1
  rw [hc]
  simp only [chapterAt]
  rw [splitSep_joinSep rel hne (fun c hc => validName_sep c (hvalid c hc))]
  exact hvis

theorem Discover_recursive_prunes_hidden_witness :
    Discover unicode15 treeHiddenVol [str "root"] true =
      Except.ok [⟨str "Volume1/Chapter1", str "/root/Volume1/Chapter1"⟩] ∧
    ∀ ch ∈ [(⟨str "Volume1/Chapter1", str "/root/Volume1/Chapter1"⟩ : Chapter)],
      ∀ c ∈ splitSep ch.Name, HasPrefix c (str ".") = false :=
  ⟨rfl, fun ch hch =>
    (@Discover_recursive_prunes_hidden unicode15 treeHiddenVol [str "root"] _ rfl ch hch).2 (by decide)⟩

/-- C11 fails for an input directory whose own name starts with `.`: recursive
discovery of `/.manga` returns nothing although `Chapter1` below it is a leaf,
while flat discovery of the same directory, and recursive discovery of the
same content under the name `/manga`, return `Chapter1`. -/
theorem Discover_recursive_hidden_root (isDigit : Nat → Bool) :
    Discover isDigit treeHiddenRoot [str ".manga"] true = Except.ok [] ∧
    Discover isDigit treeHiddenRoot [str ".manga"] false =
      Except.ok [⟨str "Chapter1", str "/.manga/Chapter1"⟩] ∧
    Discover isDigit treeHiddenRoot [str "manga"] true =
      Except.ok [⟨str "Chapter1", str "/manga/Chapter1"⟩] ∧
    treeHiddenRoot.lookup [str ".manga", str "Chapter1"] =
      some (Node.dir [(str "1.jpg", Node.file)]) ∧
    isLeafDirectory [(str "1.jpg", Node.file)] = true :=
  ⟨rfl, rfl, rfl, rfl, rfl⟩

/-! ## Recursive discovery reports every visible leaf once -/

theorem joinSep_inj (r₁ r₂ : List GoString) (h₁ : r₁ ≠ []) (h₂ : r₂ ≠ [])
    (hv₁ : ∀ c ∈ r₁, Separator ∉ c) (hv₂ : ∀ c ∈ r₂, Separator ∉ c)
    (h : joinSep r₁ = joinSep r₂) : r₁ = r₂ := by
  rw [← splitSep_joinSep r₁ h₁ hv₁, ← splitSep_joinSep r₂ h₂ hv₂, h]

theorem visits_head (es : List (GoString × Node)) (p : List GoString)
    (es' : List (GoString × Node)) (h : Visits es p es') :
    ∃ name q, p = name :: q ∧ name ∈ es.map Prod.fst := by
  cases h with
  | last _ name _ hm _ => exact ⟨name, [], rfl, List.mem_map.2 ⟨_, hm, rfl⟩⟩
  | step _ name _ q _ hm _ _ => exact ⟨name, q, rfl, List.mem_map.2 ⟨_, hm, rfl⟩⟩

theorem findEntry_of_mem : ∀ (es : List (GoString × Node)) (name : GoString) (node : Node),
    wellFormedEntries es = true → (name, node) ∈ es → findEntry name es = some node
  | [], _, _, _, h => by cases h
  | (n, nd) :: rest, name, node, hwf, hmem => by
    simp only [wellFormedEntries, Bool.and_eq_true, Bool.not_eq_true',
      List.contains_eq_any_beq, List.any_eq_false, beq_iff_eq] at hwf
    unfold findEntry
    rcases List.mem_cons.1 hmem with heq | hmem
    · simp only [Prod.mk.injEq] at heq
      obtain ⟨rfl, rfl⟩ := heq
      simp
    · have hne : n ≠ name := by
        intro e
        exact hwf.1.1.2 name (List.mem_map.2 ⟨_, hmem, rfl⟩) e
      rw [if_neg hne]
      exact findEntry_of_mem rest name node hwf.2 hmem

theorem lookup_append : ∀ (p q : List GoString) (root : Node),
    root.lookup (p ++ q) = (root.lookup p).bind (fun n => n.lookup q)
  | [], q, root => by simp [Node.lookup]
  | c :: cs, q, Node.file => by
    cases q <;> simp [Node.lookup]
  | c :: cs, q, Node.dir es => by
    simp only [List.cons_append, Node.lookup]
    cases findEntry c es with
    | none => rfl
    | some n => exact lookup_append cs q n

/-- A path of visible components that `lookup` resolves to a directory is a
path the walk follows. -/
theorem visits_of_lookup : ∀ (rel : List GoString) (es esD : List (GoString × Node)),
    rel ≠ [] → (∀ c ∈ rel, HasPrefix c (str ".") = false) →
    (Node.dir es).lookup rel = some (Node.dir esD) → Visits es rel esD
  | [], _, _, h, _, _ => absurd rfl h
  | [c], es, esD, _, hvis, h => by
    simp only [Node.lookup] at h
    cases hf : findEntry c es with
    | none => simp [hf] at h
    | some n =>
      simp only [hf, Node.lookup, Option.some.injEq] at h
      rw [h] at hf
      exact Visits.last _ _ _ (findEntry_mem es c _ hf) (hvis c (List.mem_cons_self _ _))
  | c :: d :: cs, es, esD, _, hvis, h => by
    simp only [Node.lookup] at h
    cases hf : findEntry c es with
    | none => simp [hf] at h
    | some n =>
      simp only [hf] at h
      cases n with
      | file => simp [Node.lookup] at h
      | dir es₁ =>
        exact Visits.step _ _ _ _ _ (findEntry_mem es c _ hf) (hvis c (List.mem_cons_self _ _))
          (visits_of_lookup (d :: cs) es₁ esD (by simp)
            (fun x hx => hvis x (List.mem_cons_of_mem _ hx)) h)

/-- In a well-formed tree a path the walk follows is resolved by `lookup` to
the directory the walk reaches. -/
theorem lookup_of_visits (es : List (GoString × Node)) (rel : List GoString)
    (esD : List (GoString × Node)) (h : Visits es rel esD) :
    wellFormedEntries es = true → (Node.dir es).lookup rel = some (Node.dir esD) := by
  induction h with
  | last es name es' hm _ =>
    intro hwf
    simp [Node.lookup, findEntry_of_mem es name _ hwf hm]
  | step es name es₁ q es' hm _ _ ih =>
    intro hwf
    have hn := (wellFormedEntries_mem es name _ hwf hm).2
    simp only [Node.lookup, findEntry_of_mem es name _ hwf hm]
    exact ih (by simpa [Node.wellFormed] using hn)

theorem walkEntries_name_ne (inputDir rel : List GoString) (es : List (GoString × Node))
    (hrel : rel ≠ []) (hsep : ∀ c ∈ rel, Separator ∉ c) (hwf : wellFormedEntries es = true)
    (ch : Chapter) (hch : ch ∈ walkEntries inputDir rel es) : ch.Name ≠ joinSep rel := by
  obtain ⟨p, es', hv, _, hc⟩ := (mem_walkEntries inputDir ch es rel).1 hch
  obtain ⟨hp, _⟩ := visits_components es p es' hv
  have hvalid := (visits_wellFormed es p es' hv hwf).1
  intro heq
  rw [hc] at heq
  simp only [chapterAt] at heq
  have := joinSep_inj (rel ++ p) rel (by simp [hrel]) hrel
    (fun c hc => by
      rcases List.mem_append.1 hc with h | h
      · exact hsep c h
      · exact validName_sep c (hvalid c h))
    hsep heq
  exact hp (List.append_right_eq_self.1 this)

theorem walkDir_walkEntries_name_ne (inputDir rel : List GoString) (name : GoString)
    (node : Node) (rest : List (GoString × Node)) (hsep : ∀ c ∈ rel, Separator ∉ c)
    (hwf : wellFormedEntries ((name, node) :: rest) = true) (ch₁ ch₂ : Chapter)
    (h₁ : ch₁ ∈ walkDir inputDir (rel ++ [name]) name node)
    (h₂ : ch₂ ∈ walkEntries inputDir rel rest) : ch₁.Name ≠ ch₂.Name := by
  simp only [wellFormedEntries, Bool.and_eq_true, Bool.not_eq_true',
    List.contains_eq_any_beq, List.any_eq_false, beq_iff_eq] at hwf
  obtain ⟨⟨⟨hname, hfresh⟩, hnode⟩, hrest⟩ := hwf
  obtain ⟨_, es₁, rfl, hcase⟩ :=
    (mem_walkDir inputDir ch₁ node (rel ++ [name]) name (by simp)).1 h₁
  have hwf₁ : wellFormedEntries es₁ = true := by simpa [Node.wellFormed] using hnode
  obtain ⟨p, es', hv, _, hc₂⟩ := (mem_walkEntries inputDir ch₂ rest rel).1 h₂
  obtain ⟨name', q', rfl, hmem'⟩ := visits_head rest p es' hv
  have hvalid₂ := (visits_wellFormed rest _ es' hv hrest).1
  have key : ∀ q₀ : List GoString, (∀ c ∈ q₀, validName c = true) →
      joinSep (rel ++ name :: q₀) ≠ joinSep (rel ++ name' :: q') := by
    intro q₀ hq₀ heq
    have := joinSep_inj _ _ (by simp) (by simp)
      (fun c hc => by
        rcases List.mem_append.1 hc with h | h
        · exact hsep c h
        · rcases List.mem_cons.1 h with rfl | h
          · exact validName_sep _ hname
          · exact validName_sep c (hq₀ c h))
      (fun c hc => by
        rcases List.mem_append.1 hc with h | h
        · exact hsep c h
        · exact validName_sep c (hvalid₂ c h))
      heq
    have hcons := List.append_cancel_left this
    simp only [List.cons.injEq] at hcons
    exact hfresh name' hmem' hcons.1
  rw [hc₂]
  rcases hcase with ⟨_, hc₁⟩ | ⟨q, es'', hv₁, _, hc₁⟩
  · rw [hc₁]
    simp only [chapterAt]
    have := key [] (by simp)
    simpa using this
  · rw [hc₁]
    simp only [chapterAt, List.append_assoc, List.singleton_append]
    exact key q (visits_wellFormed es₁ q es'' hv₁ hwf₁).1

mutual
/-- In a well-formed tree the walk reports pairwise distinct names. -/
theorem walkDir_names_nodup (inputDir : List GoString) :
    ∀ (node : Node) (rel : List GoString) (name : GoString), rel ≠ [] →
      node.wellFormed = true → (∀ c ∈ rel, Separator ∉ c) →
      ((walkDir inputDir rel name node).map Chapter.Name).Nodup
  | Node.file, _, _, _, _, _ => by simp [walkDir]
  | Node.dir es, rel, name, hrel, hwf, hsep => by
    have hwf' : wellFormedEntries es = true := by simpa [Node.wellFormed] using hwf
    have ih := walkEntries_names_nodup inputDir es rel hwf' hsep
    rw [walkDir]
    by_cases hh : HasPrefix name (str ".") = true
    · simp [hh]
    · simp only [hh, Bool.false_eq_true, if_false, hrel, List.map_append]
      rw [List.nodup_append]
      refine ⟨?_, ih, ?_⟩
      · by_cases hl : isLeafDirectory es = true <;> simp [hl]
      · intro n hn₁ hn₂
        obtain ⟨ch, hch, rfl⟩ := List.mem_map.1 hn₂
        apply walkEntries_name_ne inputDir rel es hrel hsep hwf' ch hch
        by_cases hl : isLeafDirectory es = true
        · simpa [hl] using hn₁
        · simp [hl] at hn₁
/-- In a well-formed tree the walk over the entries reports pairwise distinct
names. -/
theorem walkEntries_names_nodup (inputDir : List GoString) :
    ∀ (es : List (GoString × Node)) (rel : List GoString),
      wellFormedEntries es = true → (∀ c ∈ rel, Separator ∉ c) →
      ((walkEntries inputDir rel es).map Chapter.Name).Nodup
  | [], _, _, _ => by simp [walkEntries]
  | (name, node) :: rest, rel, hwf, hsep => by
    have hwf' := hwf
    simp only [wellFormedEntries, Bool.and_eq_true] at hwf'
    have hsep' : ∀ c ∈ rel ++ [name], Separator ∉ c := by
      intro c hc
      rcases List.mem_append.1 hc with h | h
      · exact hsep c h
      · simp only [List.mem_singleton] at h
        rw [h]
        exact validName_sep _ hwf'.1.1.1
    have ih₁ := walkDir_names_nodup inputDir node (rel ++ [name]) name (by simp) hwf'.1.2 hsep'
    have ih₂ := walkEntries_names_nodup inputDir rest rel hwf'.2 hsep
    rw [walkEntries, List.map_append, List.nodup_append]
    refine ⟨ih₁, ih₂, ?_⟩
    intro n hn₁ hn₂
    obtain ⟨ch₁, hch₁, rfl⟩ := List.mem_map.1 hn₁
    obtain ⟨ch₂, hch₂, heq⟩ := List.mem_map.1 hn₂
    exact walkDir_walkEntries_name_ne inputDir rel name node rest hsep hwf ch₁ ch₂ hch₁ hch₂
      heq.symm
end

/-- For an input directory whose own name does not start with `.`, in a
well-formed tree, recursive discovery reports exactly the leaves: a directory
`D` strictly below the input directory, reached through components that do not
start with `.`, gets a chapter if and only if it contains no visible
subdirectory. -/
theorem Discover_recursive_leaves {isDigit : Nat → Bool}
    (root : Node) (inputDir rel : List GoString)
    (esD : List (GoString × Node)) (chapters : List Chapter)
    (hwf : root.wellFormed = true)
    (hname : HasPrefix (baseName inputDir) (str ".") = false)
    (hrel : rel ≠ []) (hvis : ∀ c ∈ rel, HasPrefix c (str ".") = false)
    (hD : root.lookup (inputDir ++ rel) = some (Node.dir esD))
    (h : Discover isDigit root inputDir true = Except.ok chapters) :
    chapterAt inputDir rel ∈ chapters ↔ isLeafDirectory esD = true := by
  obtain ⟨es, hes⟩ := Discover_ok_dir root inputDir true chapters h
  have hwfes : wellFormedEntries es = true := by
    simpa [Node.wellFormed] using lookup_wellFormed inputDir root _ hwf hes
  rw [Discover_recursive_eq root inputDir es hes] at h
  simp only [hname, Bool.false_eq_true, if_false, Except.ok.injEq] at h
  have hperm := @sortChapters_perm isDigit _ (walkEntries_names_nodup inputDir es [] hwfes (by simp))
  rw [h] at hperm
  rw [lookup_append, hes] at hD
  simp only [Option.some_bind] at hD
  have hvD := visits_of_lookup rel es esD hrel hvis hD
  rw [hperm.mem_iff, mem_walkEntries]
  constructor
  · rintro ⟨p, es', hv, hl, hc⟩
    simp only [chapterAt, List.nil_append, Chapter.mk.injEq] at hc
    have hp := visits_components es p es' hv
    have hpe : rel = p := joinSep_inj rel p hrel hp.1
      (fun c hc => validName_sep c ((visits_wellFormed es rel esD hvD hwfes).1 c hc))
      (fun c hc => validName_sep c ((visits_wellFormed es p es' hv hwfes).1 c hc)) hc.1
    subst hpe
    have h₁ := lookup_of_visits es rel es' hv hwfes
    rw [hD] at h₁
    simp only [Option.some.injEq, Node.dir.injEq] at h₁
    rw [h₁]
    exact hl
  · intro hl
    exact ⟨rel, esD, hvD, hl, by simp⟩

/-! ## The image collector -/

theorem extSetOf_spec (caseTable : Nat → Nat) : ∀ (exts : List GoString)
    (m : GoString → Bool) (key : GoString),
    extSetOf caseTable m exts key = true ↔
      (∃ e ∈ exts, key = ToLower caseTable (TrimPrefix e (str "."))) ∨ m key = true
  | [], m, key => by simp [extSetOf]
  | ext :: rest, m, key => by
    rw [extSetOf, extSetOf_spec caseTable rest]
    by_cases hk : key = ToLower caseTable (TrimPrefix ext (str "."))
    · simp [hk]
    · simp [hk]

theorem collectNames_eq_filter (caseTable : Nat → Nat) (extSet : GoString → Bool) :
    ∀ entries : List (GoString × Node),
      collectNames caseTable extSet entries =
        (entries.filter (fun e => !e.2.IsDir &&
          extSet (ToLower caseTable (TrimPrefix (Ext e.1) (str "."))))).map Prod.fst
  | [] => rfl
  | (name, node) :: rest => by
    have ih := collectNames_eq_filter caseTable extSet rest
    unfold collectNames
    cases hd : node.IsDir
    · cases he : extSet (ToLower caseTable (TrimPrefix (Ext name) (str ".")))
      · simp [List.filter_cons, hd, he, ih]
      · simp [List.filter_cons, hd, he, ih]
    · simp [List.filter_cons, hd, ih]

theorem extLoop_spec : ∀ (rev after : GoString), Separator ∉ rev →
    extLoop rev after =
      if 46 ∈ rev then 46 :: ((rev.takeWhile (fun c => c != 46)).reverse ++ after) else []
  | [], _, _ => by simp [extLoop]
  | c :: before, after, h => by
    simp only [List.mem_cons, not_or] at h
    have hc : c ≠ Separator := fun e => h.1 e.symm
    rw [extLoop, if_neg hc]
    by_cases hdot : c = 46
    · subst hdot
      simp
    · rw [if_neg hdot, extLoop_spec before (c :: after) h.2]
      have hne : (46 : Nat) ≠ c := fun e => hdot e.symm
      by_cases hm : 46 ∈ before
      · simp [hm, hdot, List.takeWhile_cons]
      · simp [hm, hne]

theorem str_dot : str "." = [46] := by decide

theorem TrimPrefix_dot_cons (x : GoString) : TrimPrefix (46 :: x) (str ".") = x := by
  simp [TrimPrefix, HasPrefix, str_dot]

theorem TrimPrefix_dot_nil : TrimPrefix [] (str ".") = [] := by
  simp [TrimPrefix, HasPrefix, str_dot]

theorem Natural_perm {isDigit : Nat → Bool}
    (items : List GoString) : (Natural isDigit items).Perm items :=
  SliceStable_perm (naturalLess isDigit) items

/-- On a name without a separator, the extension without its dot is the
suffix after the last `.` of the name. -/
theorem TrimPrefix_Ext (name : GoString) (h : Separator ∉ name) :
    TrimPrefix (Ext name) (str ".") = suffixAfterLastDot name := by
  unfold Ext suffixAfterLastDot
  rw [extLoop_spec name.reverse [] (by simpa using h)]
  by_cases hm : 46 ∈ name
  · simp only [List.mem_reverse, hm, if_true, List.append_nil]
    exact TrimPrefix_dot_cons _
  · simp only [List.mem_reverse, hm, if_false]
    exact TrimPrefix_dot_nil

theorem CollectImages_eq {isDigit : Nat → Bool}
    (caseTable : Nat → Nat) (root : Node) (dir : List GoString)
    (entries : List (GoString × Node)) (extensions : List GoString)
    (hdir : root.lookup dir = some (Node.dir entries)) :
    CollectImages isDigit caseTable root dir extensions =
      Except.ok ((Natural isDigit ((entries.filter (fun e => !e.2.IsDir &&
          extSetOf caseTable (fun _ => false) extensions
            (ToLower caseTable (TrimPrefix (Ext e.1) (str "."))))).map Prod.fst)).map
        (fun name => { Path := pathString (dir ++ [name]), Name := name })) := by
  simp only [CollectImages, ReadDir, hdir, collectNames_eq_filter]

/-- C14: collector membership: for every readable directory and allow-list, a
name appears in the result of `CollectImages` if and only if it is the name
of an immediate entry that is not a directory and whose extension without the
dot, lower-cased, equals some allow-list element with one leading `.`
removed and lower-cased; the result lists these names as often as the
directory does; the extension without the dot is the suffix after the last
`.` of the name; and when nothing qualifies the result is the empty list,
not an error. -/
theorem CollectImages_membership {isDigit : Nat → Bool} (caseTable : Nat → Nat) (root : Node)
    (dir : List GoString) (entries : List (GoString × Node)) (extensions : List GoString)
    (hdir : root.lookup dir = some (Node.dir entries)) :
    ∃ images, CollectImages isDigit caseTable root dir extensions = Except.ok images ∧
      (∀ name, name ∈ images.map ImageFile.Name ↔
        ∃ node, (name, node) ∈ entries ∧ node.IsDir = false ∧
          ∃ e ∈ extensions, ToLower caseTable (TrimPrefix (Ext name) (str ".")) =
            ToLower caseTable (TrimPrefix e (str "."))) ∧
      (images.map ImageFile.Name).Perm
        ((entries.filter (fun e => !e.2.IsDir &&
          extSetOf caseTable (fun _ => false) extensions
            (ToLower caseTable (TrimPrefix (Ext e.1) (str "."))))).map Prod.fst) ∧
      (∀ name, Separator ∉ name → TrimPrefix (Ext name) (str ".") = suffixAfterLastDot name) ∧
      ((∀ name node, (name, node) ∈ entries → node.IsDir = false →
          ∀ e ∈ extensions, ToLower caseTable (TrimPrefix (Ext name) (str ".")) ≠
            ToLower caseTable (TrimPrefix e (str "."))) → images = []) := by
  refine ⟨_, CollectImages_eq caseTable root dir entries extensions hdir, ?_, ?_,
    TrimPrefix_Ext, ?_⟩
  · intro name
    rw [List.map_map]
    have hid : (ImageFile.Name ∘ fun name : GoString =>
        ({ Path := pathString (dir ++ [name]), Name := name } : ImageFile)) = id := rfl
    rw [hid, List.map_id, (Natural_perm _).mem_iff]
    simp only [List.mem_map, List.mem_filter, Bool.and_eq_true, Bool.not_eq_true',
      extSetOf_spec, Bool.false_eq_true, or_false, Prod.exists, exists_and_right,
      exists_eq_right]
  · rw [List.map_map]
    have hid : (ImageFile.Name ∘ fun name : GoString =>
        ({ Path := pathString (dir ++ [name]), Name := name } : ImageFile)) = id := rfl
    rw [hid, List.map_id]
    exact Natural_perm _
  · intro hnone
    have hfil : entries.filter (fun e => !e.2.IsDir &&
        extSetOf caseTable (fun _ => false) extensions
          (ToLower caseTable (TrimPrefix (Ext e.1) (str ".")))) = [] := by
      rw [List.filter_eq_nil_iff]
      rintro ⟨name, node⟩ hmem hq
      simp only [Bool.and_eq_true, Bool.not_eq_true', extSetOf_spec, Bool.false_eq_true,
        or_false] at hq
      obtain ⟨hd, e, he, heq⟩ := hq
      exact hnone name node hmem hd e he heq
    rw [hfil]
    rfl

theorem CollectImages_membership_witness :
    CollectImages unicode15 plainCaseTable treeImages [str "d"] [str "jpg"] =
      Except.ok [⟨str "/d/01.jpg", str "01.jpg"⟩] ∧
    ∃ images, CollectImages unicode15 plainCaseTable treeImages [str "d"] [str "jpg"] =
        Except.ok images ∧
      (images.map ImageFile.Name).Perm [str "01.jpg"] :=
  ⟨rfl, (CollectImages_membership plainCaseTable treeImages [str "d"] _ [str "jpg"] rfl).imp
    (fun _ h => ⟨h.1, h.2.2.1⟩)⟩

theorem joinSep_snoc : ∀ (dir : List GoString) (name : GoString), dir ≠ [] →
    joinSep (dir ++ [name]) = joinSep dir ++ Separator :: name
  | [], _, h => absurd rfl h
  | [c], name, _ => by simp [joinSep]
  | c :: d :: rest, name, _ => by
    have ih := joinSep_snoc (d :: rest) name (by simp)
    simp only [List.cons_append] at ih ⊢
    rw [joinSep, ih, joinSep]
    simp

theorem pathString_snoc (dir : List GoString) (name : GoString) :
    ∃ front, pathString (dir ++ [name]) = front ++ Separator :: name := by
  unfold pathString
  cases dir with
  | nil => exact ⟨[], by simp [joinSep]⟩
  | cons c rest =>
    refine ⟨Separator :: joinSep (c :: rest), ?_⟩
    rw [joinSep_snoc (c :: rest) name (by simp)]
    simp

theorem takeWhile_append_stop {α : Type} (p : α → Bool) (a : List α) (c : α) (r : List α)
    (ha : ∀ x ∈ a, p x = true) (hc : p c = false) : (a ++ c :: r).takeWhile p = a := by
  induction a with
  | nil => simp [List.takeWhile_cons, hc]
  | cons x xs ih =>
    rw [List.cons_append, List.takeWhile_cons, ha x (List.mem_cons_self _ _)]
    simp only [if_true]
    rw [ih (fun y hy => ha y (List.mem_cons_of_mem _ hy))]

/-- The base name of a path that ends in a separator followed by a valid
entry name is that name. -/
theorem Base_append (front name : GoString) (hne : name ≠ []) (hsep : Separator ∉ name) :
    Base (front ++ Separator :: name) = name := by
  have hrev : (front ++ Separator :: name).reverse =
      name.reverse ++ Separator :: front.reverse := by simp
  have hdrop : (name.reverse ++ Separator :: front.reverse).dropWhile
      (fun c => c == Separator) = name.reverse ++ Separator :: front.reverse := by
    cases hn : name.reverse with
    | nil => simp at hn; exact absurd hn hne
    | cons y ys =>
      have hy : y ∈ name := by
        rw [← List.mem_reverse, hn]
        exact List.mem_cons_self _ _
      have hys : (y == Separator) = false := by
        simp only [beq_eq_false_iff_ne, ne_eq]
        intro e
        exact hsep (e ▸ hy)
      simp [List.dropWhile_cons, hys]
  have htake : (name.reverse ++ Separator :: front.reverse).takeWhile
      (fun c => c != Separator) = name.reverse := by
    apply takeWhile_append_stop
    · intro x hx
      simp only [bne_iff_ne, ne_eq]
      intro e
      exact hsep (e ▸ List.mem_reverse.1 hx)
    · simp
  unfold Base
  rw [if_neg (by simp), hrev, hdrop, htake, List.reverse_reverse, if_neg hne]

theorem validName_ne_nil (name : GoString) (h : validName name = true) : name ≠ [] := by
  simp only [validName, Bool.and_eq_true, Bool.not_eq_true', List.isEmpty_eq_false] at h
  exact h.1.1.1

/-- C15: collector output shape: for every readable directory and
allow-list, the Names returned by `CollectImages` are `Natural` applied to
the qualifying filenames, each Name is the name of an entry of the
directory, each Path is the directory path joined with that Name, and, entry
names being valid, the base name of Path is Name. -/
theorem CollectImages_shape {isDigit : Nat → Bool} (caseTable : Nat → Nat) (root : Node)
    (dir : List GoString) (entries : List (GoString × Node)) (extensions : List GoString)
    (hdir : root.lookup dir = some (Node.dir entries)) :
    ∃ images, CollectImages isDigit caseTable root dir extensions = Except.ok images ∧
      images.map ImageFile.Name =
        Natural isDigit ((entries.filter (fun e => !e.2.IsDir &&
          extSetOf caseTable (fun _ => false) extensions
            (ToLower caseTable (TrimPrefix (Ext e.1) (str "."))))).map Prod.fst) ∧
      (∀ img ∈ images, (∃ node, (img.Name, node) ∈ entries) ∧
        img.Path = pathString (dir ++ [img.Name])) ∧
      (root.wellFormed = true → ∀ img ∈ images, Base img.Path = img.Name) := by
  refine ⟨_, CollectImages_eq caseTable root dir entries extensions hdir, ?_, ?_⟩
  · rw [List.map_map]
    exact List.map_id _
  · have hshape : ∀ img ∈ (Natural isDigit ((entries.filter (fun e => !e.2.IsDir &&
          extSetOf caseTable (fun _ => false) extensions
            (ToLower caseTable (TrimPrefix (Ext e.1) (str "."))))).map Prod.fst)).map
          (fun name => ({ Path := pathString (dir ++ [name]), Name := name } : ImageFile)),
        (∃ node, (img.Name, node) ∈ entries) ∧ img.Path = pathString (dir ++ [img.Name]) := by
      intro img himg
      obtain ⟨name, hname, rfl⟩ := List.mem_map.1 himg
      refine ⟨?_, rfl⟩
      rw [(Natural_perm _).mem_iff] at hname
      obtain ⟨⟨n, node⟩, hmem, rfl⟩ := List.mem_map.1 hname
      exact ⟨node, (List.mem_filter.1 hmem).1⟩
    refine ⟨hshape, fun hwf img himg => ?_⟩
    obtain ⟨⟨node, hmem⟩, hpath⟩ := hshape img himg
    have hwfes : wellFormedEntries entries = true := by
      simpa [Node.wellFormed] using lookup_wellFormed dir root _ hwf hdir
    have hvalid := (wellFormedEntries_mem entries img.Name node hwfes hmem).1
    obtain ⟨front, hfront⟩ := pathString_snoc dir img.Name
    rw [hpath, hfront]
    exact Base_append front img.Name (validName_ne_nil _ hvalid) (validName_sep _ hvalid)

theorem CollectImages_shape_witness :
    CollectImages unicode15 plainCaseTable treePages [str "d"] [str "jpg"] =
      Except.ok [⟨str "/d/1.jpg", str "1.jpg"⟩, ⟨str "/d/2.jpg", str "2.jpg"⟩,
        ⟨str "/d/10.jpg", str "10.jpg"⟩] ∧
    ∃ images, CollectImages unicode15 plainCaseTable treePages [str "d"] [str "jpg"] =
        Except.ok images ∧ ∀ img ∈ images, Base img.Path = img.Name :=
  ⟨rfl, (CollectImages_shape plainCaseTable treePages [str "d"] _ [str "jpg"] rfl).imp
    (fun _ h => ⟨h.1, h.2.2.2 (by decide)⟩)⟩

/-! ## Lower-casing is insensitive to the case of ASCII letters -/

theorem lowerASCII_of_ge (c : Nat) (h : 128 ≤ c) : lowerASCII c = c := by
  unfold lowerASCII
  rw [if_neg (by omega)]

theorem lowerASCII_lt (c : Nat) (h : c < 128) : lowerASCII c < 128 := by
  unfold lowerASCII
  split_ifs <;> omega

theorem lowerASCII_idem (c : Nat) : lowerASCII (lowerASCII c) = lowerASCII c := by
  unfold lowerASCII
  split_ifs <;> omega

theorem lowerASCII_range (c lo hi : Nat) (hlo : 128 ≤ lo) :
    (lo ≤ lowerASCII c ∧ lowerASCII c ≤ hi) ↔ (lo ≤ c ∧ c ≤ hi) := by
  by_cases hc : 128 ≤ c
  · rw [lowerASCII_of_ge c hc]
  · have := lowerASCII_lt c (by omega)
    constructor <;> intro h <;> omega

theorem acceptLo_ge (s0 : Nat) : 128 ≤ acceptLo s0 := by
  unfold acceptLo
  split_ifs <;> omega

theorem acceptHi_le (s0 : Nat) : acceptHi s0 ≤ 191 := by
  unfold acceptHi
  split_ifs <;> omega

/-- Decoding commutes with lower-casing the ASCII bytes. -/
theorem DecodeRuneInString_map_lower (l : GoString) :
    DecodeRuneInString (l.map lowerASCII) =
      (lowerASCII (DecodeRuneInString l).1, (DecodeRuneInString l).2) := by
  cases l with
  | nil => simp [DecodeRuneInString, RuneError, lowerASCII]
  | cons x rest =>
    by_cases hx : x < 128
    · have hfx := lowerASCII_lt x hx
      simp [DecodeRuneInString, hx, hfx]
    · have hfx : lowerASCII x = x := lowerASCII_of_ge x (by omega)
      have hlo := acceptLo_ge x
      have hhi := acceptHi_le x
      have hE : lowerASCII RuneError = RuneError := by decide
      rw [List.map_cons, hfx]
      unfold DecodeRuneInString
      simp only [hx, if_false]
      by_cases h2 : x < 0xC2
      · simp only [h2, if_true, hE]
      · simp only [h2, if_false]
        by_cases h3 : x < 0xE0
        · simp only [h3, if_true]
          cases rest with
          | nil => simp [hE]
          | cons s1 t =>
            simp only [List.map_cons]
            have hiff := lowerASCII_range s1 _ (acceptHi x) hlo
            by_cases hc : acceptLo x ≤ s1 ∧ s1 ≤ acceptHi x
            · have h1 : lowerASCII s1 = s1 := lowerASCII_of_ge s1 (by omega)
              rw [if_pos (hiff.2 hc), if_pos hc, h1]
              simp only
              rw [lowerASCII_of_ge _ (by omega)]
            · rw [if_neg (mt hiff.1 hc), if_neg hc]
              simp only [hE]
        · simp only [h3, if_false]
          by_cases h4 : x < 0xF0
          · simp only [h4, if_true]
            match rest with
            | [] => simp [hE]
            | [_] => simp [hE]
            | s1 :: s2 :: t =>
              simp only [List.map_cons]
              have hiff : (acceptLo x ≤ lowerASCII s1 ∧ lowerASCII s1 ≤ acceptHi x ∧
                  0x80 ≤ lowerASCII s2 ∧ lowerASCII s2 ≤ 0xBF) ↔
                  (acceptLo x ≤ s1 ∧ s1 ≤ acceptHi x ∧ 0x80 ≤ s2 ∧ s2 ≤ 0xBF) := by
                have r1 := lowerASCII_range s1 _ (acceptHi x) hlo
                have r2 := lowerASCII_range s2 0x80 0xBF (by omega)
                constructor
                · rintro ⟨a1, a2, b1, b2⟩
                  exact ⟨(r1.1 ⟨a1, a2⟩).1, (r1.1 ⟨a1, a2⟩).2, (r2.1 ⟨b1, b2⟩).1,
                    (r2.1 ⟨b1, b2⟩).2⟩
                · rintro ⟨a1, a2, b1, b2⟩
                  exact ⟨(r1.2 ⟨a1, a2⟩).1, (r1.2 ⟨a1, a2⟩).2, (r2.2 ⟨b1, b2⟩).1,
                    (r2.2 ⟨b1, b2⟩).2⟩
              by_cases hc : acceptLo x ≤ s1 ∧ s1 ≤ acceptHi x ∧ 0x80 ≤ s2 ∧ s2 ≤ 0xBF
              · have h1 : lowerASCII s1 = s1 := lowerASCII_of_ge s1 (by omega)
                have h2' : lowerASCII s2 = s2 := lowerASCII_of_ge s2 (by omega)
                have hx16 : 1 ≤ x % 16 ∨ 0xA0 ≤ s1 := by
                  have := hc.1
                  unfold acceptLo at this
                  split_ifs at this <;> omega
                rw [if_pos (hiff.2 hc), if_pos hc, h1, h2']
                simp only
                rw [lowerASCII_of_ge _ (by omega)]
              · rw [if_neg (mt hiff.1 hc), if_neg hc]
                simp only [hE]
          · simp only [h4, if_false]
            by_cases h5 : x < 0xF5
            · simp only [h5, if_true]
              match rest with
              | [] => simp [hE]
              | [_] => simp [hE]
              | [_, _] => simp [hE]
              | s1 :: s2 :: s3 :: t =>
                simp only [List.map_cons]
                have hiff : (acceptLo x ≤ lowerASCII s1 ∧ lowerASCII s1 ≤ acceptHi x ∧
                    0x80 ≤ lowerASCII s2 ∧ lowerASCII s2 ≤ 0xBF ∧
                    0x80 ≤ lowerASCII s3 ∧ lowerASCII s3 ≤ 0xBF) ↔
                    (acceptLo x ≤ s1 ∧ s1 ≤ acceptHi x ∧ 0x80 ≤ s2 ∧ s2 ≤ 0xBF ∧
                      0x80 ≤ s3 ∧ s3 ≤ 0xBF) := by
                  have r1 := lowerASCII_range s1 _ (acceptHi x) hlo
                  have r2 := lowerASCII_range s2 0x80 0xBF (by omega)
                  have r3 := lowerASCII_range s3 0x80 0xBF (by omega)
                  constructor
                  · rintro ⟨a1, a2, b1, b2, c1, c2⟩
                    exact ⟨(r1.1 ⟨a1, a2⟩).1, (r1.1 ⟨a1, a2⟩).2, (r2.1 ⟨b1, b2⟩).1,
                      (r2.1 ⟨b1, b2⟩).2, (r3.1 ⟨c1, c2⟩).1, (r3.1 ⟨c1, c2⟩).2⟩
                  · rintro ⟨a1, a2, b1, b2, c1, c2⟩
                    exact ⟨(r1.2 ⟨a1, a2⟩).1, (r1.2 ⟨a1, a2⟩).2, (r2.2 ⟨b1, b2⟩).1,
                      (r2.2 ⟨b1, b2⟩).2, (r3.2 ⟨c1, c2⟩).1, (r3.2 ⟨c1, c2⟩).2⟩
                by_cases hc : acceptLo x ≤ s1 ∧ s1 ≤ acceptHi x ∧ 0x80 ≤ s2 ∧ s2 ≤ 0xBF
                    ∧ 0x80 ≤ s3 ∧ s3 ≤ 0xBF
                · have h1 : lowerASCII s1 = s1 := lowerASCII_of_ge s1 (by omega)
                  have h2' : lowerASCII s2 = s2 := lowerASCII_of_ge s2 (by omega)
                  have h3' : lowerASCII s3 = s3 := lowerASCII_of_ge s3 (by omega)
                  have hx8 : 1 ≤ x % 8 ∨ 0x90 ≤ s1 := by
                    have := hc.1
                    unfold acceptLo at this
                    split_ifs at this <;> omega
                  rw [if_pos (hiff.2 hc), if_pos hc, h1, h2', h3']
                  simp only
                  rw [lowerASCII_of_ge _ (by omega)]
                · rw [if_neg (mt hiff.1 hc), if_neg hc]
                  simp only [hE]
            · simp only [h5, if_false, hE]

theorem decodeRunesAux_map_lower : ∀ (n : Nat) (l : GoString),
    decodeRunesAux n (l.map lowerASCII) = (decodeRunesAux n l).map lowerASCII
  | 0, _ => rfl
  | _ + 1, [] => rfl
  | n + 1, b :: rest => by
    have hd := DecodeRuneInString_map_lower (b :: rest)
    rw [List.map_cons] at hd
    simp only [List.map_cons, decodeRunesAux, hd]
    rw [← List.map_drop, decodeRunesAux_map_lower n]

theorem decodeRunes_map_lower (l : GoString) :
    decodeRunes (l.map lowerASCII) = (decodeRunes l).map lowerASCII := by
  unfold decodeRunes
  rw [List.length_map, decodeRunesAux_map_lower]

theorem unicodeToLower_lowerASCII (caseTable : Nat → Nat) (r : Nat) :
    unicodeToLower caseTable (lowerASCII r) = unicodeToLower caseTable r := by
  unfold unicodeToLower lowerASCII
  split_ifs <;> first | rfl | omega

/-- On an ASCII-only string `ToLower` lower-cases byte by byte. -/
theorem ToLower_ascii (caseTable : Nat → Nat) (l : GoString)
    (h : l.all (fun c => decide (c < 0x80)) = true) :
    ToLower caseTable l = l.map lowerASCII := by
  unfold ToLower
  rw [if_pos h]
  by_cases hu : l.any (fun c => decide (65 ≤ c ∧ c ≤ 90)) = true
  · rw [if_neg (by simp only [hu, Bool.not_true, Bool.false_eq_true, not_false_eq_true])]
  · have hu' : l.any (fun c => decide (65 ≤ c ∧ c ≤ 90)) = false := by simpa using hu
    rw [if_pos (by simp only [hu', Bool.not_false])]
    simp only [List.any_eq_false, decide_eq_true_eq] at hu'
    conv_lhs => rw [← List.map_id l]
    apply List.map_congr_left
    intro c hc
    unfold lowerASCII
    rw [if_neg (hu' c hc)]
    rfl

/-- `ToLower` does not see the case of ASCII letters. -/
theorem ToLower_map_lower (caseTable : Nat → Nat) (l : GoString) :
    ToLower caseTable (l.map lowerASCII) = ToLower caseTable l := by
  by_cases h : l.all (fun c => decide (c < 0x80)) = true
  · have h' : (l.map lowerASCII).all (fun c => decide (c < 0x80)) = true := by
      simp only [List.all_eq_true, decide_eq_true_eq, List.mem_map] at h ⊢
      rintro c ⟨d, hd, rfl⟩
      exact lowerASCII_lt d (h d hd)
    rw [ToLower_ascii caseTable _ h', ToLower_ascii caseTable _ h, List.map_map]
    apply List.map_congr_left
    intro c _
    exact lowerASCII_idem c
  · have h' : ¬ (l.map lowerASCII).all (fun c => decide (c < 0x80)) = true := by
      simp only [List.all_eq_true, decide_eq_true_eq, List.mem_map, not_forall] at h ⊢
      obtain ⟨c, hc, hge⟩ := h
      exact ⟨c, ⟨c, hc, lowerASCII_of_ge c (by omega)⟩, hge⟩
    unfold ToLower
    rw [if_neg h', if_neg h, decodeRunes_map_lower, List.map_map]
    congr 1
    apply List.map_congr_left
    intro r _
    exact unicodeToLower_lowerASCII caseTable r

theorem ToLower_congr (caseTable : Nat → Nat) (a b : GoString)
    (h : a.map lowerASCII = b.map lowerASCII) : ToLower caseTable a = ToLower caseTable b := by
  rw [← ToLower_map_lower caseTable a, ← ToLower_map_lower caseTable b, h]

theorem dropDot_cons_ne (c : Nat) (rest : GoString) (hc : c ≠ 46) :
    dropDot (c :: rest) = c :: rest := by
  unfold dropDot
  split
  · next h =>
    simp only [List.cons.injEq] at h
    exact absurd h.1 hc
  · rfl

theorem TrimPrefix_dot (e : GoString) : TrimPrefix e (str ".") = dropDot e := by
  cases e with
  | nil => exact TrimPrefix_dot_nil
  | cons c rest =>
    by_cases hc : c = 46
    · subst hc
      exact TrimPrefix_dot_cons rest
    · have hc' : (46 : Nat) ≠ c := fun e => hc e.symm
      rw [dropDot_cons_ne c rest hc]
      simp [TrimPrefix, HasPrefix, str_dot, hc']

/-- Spellings that differ by a leading `.` and ASCII case normalise alike. -/
theorem sameSpelling_norm (caseTable : Nat → Nat) (e e' : GoString) (h : sameSpelling e e') :
    ToLower caseTable (TrimPrefix e (str ".")) = ToLower caseTable (TrimPrefix e' (str ".")) := by
  rw [TrimPrefix_dot, TrimPrefix_dot]
  exact ToLower_congr caseTable _ _ h

theorem extSetOf_congr (caseTable : Nat → Nat) (exts exts' : List GoString)
    (h : List.Forall₂ sameSpelling exts exts') :
    ∀ m : GoString → Bool, extSetOf caseTable m exts = extSetOf caseTable m exts' := by
  induction h with
  | nil => intro m; rfl
  | cons hhead _ ih =>
    intro m
    rw [extSetOf, extSetOf, sameSpelling_norm caseTable _ _ hhead]
    exact ih _

/-- C16: allow-list spelling does not matter: two allow-lists whose elements
differ, position by position, only by one leading `.` and by the case of
ASCII letters give the same result of `CollectImages`; and a file whose
extension equals an allow-list element up to the case of ASCII letters is
in the result. -/
theorem CollectImages_spelling {isDigit : Nat → Bool}
    (caseTable : Nat → Nat) (root : Node) (dir : List GoString)
    (exts exts' : List GoString) :
    (List.Forall₂ sameSpelling exts exts' →
      CollectImages isDigit caseTable root dir exts = CollectImages isDigit caseTable root dir exts') ∧
    (∀ (entries : List (GoString × Node)) (name e : GoString),
      root.lookup dir = some (Node.dir entries) → (name, Node.file) ∈ entries → e ∈ exts →
      sameSpelling e (Ext name) →
      ∃ images, CollectImages isDigit caseTable root dir exts = Except.ok images ∧
        name ∈ images.map ImageFile.Name) := by
  constructor
  · intro h
    unfold CollectImages
    rw [extSetOf_congr caseTable exts exts' h]
  · intro entries name e hdir hmem he hs
    refine ⟨_, CollectImages_eq caseTable root dir entries exts hdir, ?_⟩
    rw [List.map_map]
    have hid : (ImageFile.Name ∘ fun name : GoString =>
        ({ Path := pathString (dir ++ [name]), Name := name } : ImageFile)) = id := rfl
    rw [hid, List.map_id, (Natural_perm _).mem_iff]
    refine List.mem_map.2 ⟨(name, Node.file), List.mem_filter.2 ⟨hmem, ?_⟩, rfl⟩
    simp only [Node.IsDir, Bool.not_false, Bool.true_and]
    rw [extSetOf_spec]
    exact Or.inl ⟨e, he, (sameSpelling_norm caseTable e (Ext name) hs).symm⟩

theorem CollectImages_spelling_witness :
    CollectImages unicode15 plainCaseTable treeUpper [str "d"] [str ".JPG", str "Png"] =
      CollectImages unicode15 plainCaseTable treeUpper [str "d"] [str "jpg", str ".png"] ∧
    ∃ images, CollectImages unicode15 plainCaseTable treeUpper [str "d"] [str "jpg"] = Except.ok images ∧
      str "01.JPG" ∈ images.map ImageFile.Name :=
  ⟨(CollectImages_spelling plainCaseTable treeUpper [str "d"] [str ".JPG", str "Png"]
      [str "jpg", str ".png"]).1
      (List.Forall₂.cons rfl (List.Forall₂.cons rfl List.Forall₂.nil)),
   (CollectImages_spelling plainCaseTable treeUpper [str "d"] [str "jpg"] []).2 _
      (str "01.JPG") (str "jpg") rfl (List.mem_cons_self _ _) (by decide) rfl⟩

/-! ## Image normalization -/

theorem extLoop_suffix : ∀ (rev after : GoString),
    ∃ front, rev.reverse ++ after = front ++ extLoop rev after
  | [], after => ⟨after, by simp [extLoop]⟩
  | c :: before, after => by
    unfold extLoop
    by_cases hs : c = Separator
    · exact ⟨(c :: before).reverse ++ after, by simp [hs]⟩
    · rw [if_neg hs]
      by_cases hd : c = 46
      · exact ⟨before.reverse, by simp [hd]⟩
      · rw [if_neg hd]
        obtain ⟨front, hfront⟩ := extLoop_suffix before (c :: after)
        exact ⟨front, by rw [← hfront]; simp⟩

/-- The extension is a suffix of the name. -/
theorem Ext_suffix (name : GoString) : ∃ stem, name = stem ++ Ext name := by
  obtain ⟨front, h⟩ := extLoop_suffix name.reverse []
  exact ⟨front, by simpa [Ext] using h⟩

theorem TrimSuffix_append (s stem ext : GoString) (h : s = stem ++ ext) :
    TrimSuffix s ext = stem := by
  have hsuf : HasSuffix s ext = true := by
    unfold HasSuffix
    rw [List.isSuffixOf_iff_suffix, h]
    exact List.suffix_append _ _
  unfold TrimSuffix
  rw [if_pos hsuf, h, List.length_append, Nat.add_sub_cancel]
  exact List.take_left _ _

/-- The name given to a converted file is the name with its extension
replaced by `.png`. -/
theorem pngName_spec (name : GoString) :
    ∃ stem, name = stem ++ Ext name ∧ pngName name = stem ++ str ".png" := by
  obtain ⟨stem, h⟩ := Ext_suffix name
  exact ⟨stem, h, by unfold pngName; rw [TrimSuffix_append name stem (Ext name) h]⟩

theorem convertWebPToPNG_ok (env : ConvEnv) (i : Nat) (fs fs' : FileSys)
    (img converted : ImageFile)
    (h : convertWebPToPNG env i fs img = (fs', Except.ok converted)) :
    converted = { Path := joinPath env.tempDir (pngName img.Name), Name := pngName img.Name } := by
  unfold convertWebPToPNG at h
  split at h
  · simp at h
  · split at h
    · simp at h
    · split at h
      · simp at h
      · split at h
        · simp at h
        · split at h
          · simp at h
          · simp only [Prod.mk.injEq, Except.ok.injEq] at h
            exact h.2.symm

theorem convertLoop_ok (env : ConvEnv) : ∀ (images : List ImageFile) (i : Nat)
    (fs fs' : FileSys) (result : List ImageFile),
    convertLoop env i images fs = (fs', Except.ok result) →
    result = images.map (convertedEntry env)
  | [], _, _, _, _, h => by
    simp only [convertLoop, Prod.mk.injEq, Except.ok.injEq] at h
    rw [← h.2]
    rfl
  | img :: rest, i, fs, fs', result, h => by
    unfold convertLoop at h
    by_cases hw : isWebP env.caseTable img.Name = true
    · simp only [hw, Bool.not_true, Bool.false_eq_true, if_false] at h
      split at h
      · simp at h
      · next fs₁ converted hc =>
        have hconv := convertWebPToPNG_ok env i fs fs₁ img converted hc
        split at h
        · next fs₂ r hr =>
          simp only [Prod.mk.injEq, Except.ok.injEq] at h
          rw [← h.2, convertLoop_ok env rest (i + 1) fs₁ fs₂ r hr, hconv]
          simp [convertedEntry, hw]
        · simp at h
    · have hw' : isWebP env.caseTable img.Name = false := by simpa using hw
      simp only [hw', Bool.not_false, if_true] at h
      split at h
      · next fs₂ r hr =>
        simp only [Prod.mk.injEq, Except.ok.injEq] at h
        rw [← h.2, convertLoop_ok env rest (i + 1) fs fs₂ r hr]
        simp [convertedEntry, hw']
      · simp at h

/-- A successful normalization returns, position by position, the converted
entry of each input entry. -/
theorem ConvertWebPImages_ok (env : ConvEnv) (fs : FileSys) (images : List ImageFile)
    (hok : (ConvertWebPImages env fs images).err = none) :
    (ConvertWebPImages env fs images).images = images.map (convertedEntry env) := by
  unfold ConvertWebPImages at hok ⊢
  by_cases hany : images.any (fun img => isWebP env.caseTable img.Name) = true
  · simp only [hany, Bool.not_true, Bool.false_eq_true, if_false] at hok ⊢
    cases hm : env.faults ConvOp.mkdirTemp with
    | some e => simp [hm] at hok
    | none =>
      simp only [hm] at hok ⊢
      split
      · next fs' e hl =>
        rw [hl] at hok
        simp at hok
      · next fs' result hl =>
        exact convertLoop_ok env images 0 fs fs' result hl
  · have hany' : images.any (fun img => isWebP env.caseTable img.Name) = false := by
      simpa using hany
    simp only [hany', Bool.not_false, if_true]
    simp only [List.any_eq_false] at hany'
    conv_lhs => rw [← List.map_id images]
    apply List.map_congr_left
    intro img himg
    simp [convertedEntry, hany' img himg]

/-- C19: image normalization is positional and touches only WebP entries:
whenever `ConvertWebPImages` succeeds, the result has the same length as the
input and, for every index `i`, if `images[i].Name` has no `.webp` extension
(case-insensitive) then `result[i]` equals `images[i]`, otherwise
`result[i].Name` is `images[i].Name` with its extension replaced by `.png`. -/
theorem ConvertWebPImages_positional (env : ConvEnv) (fs : FileSys)
    (images : List ImageFile) (hok : (ConvertWebPImages env fs images).err = none) :
    (ConvertWebPImages env fs images).images.length = images.length ∧
    ∀ (i : Nat) (hi : i < images.length)
      (hr : i < (ConvertWebPImages env fs images).images.length),
      (isWebP env.caseTable (images.get ⟨i, hi⟩).Name = false →
        (ConvertWebPImages env fs images).images.get ⟨i, hr⟩ = images.get ⟨i, hi⟩) ∧
      (isWebP env.caseTable (images.get ⟨i, hi⟩).Name = true →
        ∃ stem, (images.get ⟨i, hi⟩).Name = stem ++ Ext (images.get ⟨i, hi⟩).Name ∧
          ((ConvertWebPImages env fs images).images.get ⟨i, hr⟩).Name = stem ++ str ".png") := by
  have hres := ConvertWebPImages_ok env fs images hok
  refine ⟨by rw [hres, List.length_map], fun i hi hr => ?_⟩
  have hget : (ConvertWebPImages env fs images).images.get ⟨i, hr⟩ =
      convertedEntry env (images.get ⟨i, hi⟩) := by
    simp only [List.get_eq_getElem, hres, List.getElem_map]
  rw [hget]
  constructor
  · intro hw
    rw [convertedEntry, if_neg (by rw [hw]; exact Bool.false_ne_true)]
  · intro hw
    obtain ⟨stem, h₁, h₂⟩ := pngName_spec (images.get ⟨i, hi⟩).Name
    exact ⟨stem, h₁, by rw [convertedEntry, if_pos hw]; exact h₂⟩

theorem ConvertWebPImages_positional_witness :
    (ConvertWebPImages plainEnv fsAll
      [⟨str "/d/01.webp", str "01.webp"⟩, ⟨str "/d/02.png", str "02.png"⟩,
       ⟨str "/d/03.webp", str "03.webp"⟩, ⟨str "/d/04.jpg", str "04.jpg"⟩]).images.map
        ImageFile.Name = [str "01.png", str "02.png", str "03.png", str "04.jpg"] ∧
    (ConvertWebPImages plainEnv fsAll
      [⟨str "/d/01.webp", str "01.webp"⟩, ⟨str "/d/02.png", str "02.png"⟩,
       ⟨str "/d/03.webp", str "03.webp"⟩, ⟨str "/d/04.jpg", str "04.jpg"⟩]).images.length = 4 :=
  ⟨by decide,
   (ConvertWebPImages_positional plainEnv fsAll
      [⟨str "/d/01.webp", str "01.webp"⟩, ⟨str "/d/02.png", str "02.png"⟩,
       ⟨str "/d/03.webp", str "03.webp"⟩, ⟨str "/d/04.jpg", str "04.jpg"⟩] (by decide)).1⟩

theorem pngName_inj (a b : GoString) (h : pngName a = pngName b) :
    TrimSuffix a (Ext a) = TrimSuffix b (Ext b) := by
  unfold pngName at h
  exact List.append_cancel_right h

theorem convertedEntry_Name (env : ConvEnv) (img : ImageFile) :
    (convertedEntry env img).Name =
      if isWebP env.caseTable img.Name then pngName img.Name else img.Name := by
  unfold convertedEntry
  split <;> rfl

/-- C20, as stated, fails: the distinct names `01.webp` and `01.png` both map
to `01.png`, and so do `a.WEBP` and `a.webp` to `a.png`. -/
theorem ConvertWebPImages_names_counterexample :
    ([⟨str "/d/01.webp", str "01.webp"⟩, ⟨str "/d/01.png", str "01.png"⟩].map
        ImageFile.Name).Nodup ∧
    (ConvertWebPImages plainEnv fsAll
      [⟨str "/d/01.webp", str "01.webp"⟩, ⟨str "/d/01.png", str "01.png"⟩]).err = none ∧
    (ConvertWebPImages plainEnv fsAll
      [⟨str "/d/01.webp", str "01.webp"⟩, ⟨str "/d/01.png", str "01.png"⟩]).images.map
        ImageFile.Name = [str "01.png", str "01.png"] ∧
    ¬ ((ConvertWebPImages plainEnv fsAll
      [⟨str "/d/01.webp", str "01.webp"⟩, ⟨str "/d/01.png", str "01.png"⟩]).images.map
        ImageFile.Name).Nodup ∧
    ([⟨str "/d/a.WEBP", str "a.WEBP"⟩, ⟨str "/d/a.webp", str "a.webp"⟩].map
        ImageFile.Name).Nodup ∧
    (ConvertWebPImages plainEnv fsAll
      [⟨str "/d/a.WEBP", str "a.WEBP"⟩, ⟨str "/d/a.webp", str "a.webp"⟩]).images =
      [⟨str "/tmp/convert/a.png", str "a.png"⟩, ⟨str "/tmp/convert/a.png", str "a.png"⟩] := by
  decide

/-- C20 (amended): the names returned by a successful `ConvertWebPImages` are
pairwise distinct whenever the input names are pairwise distinct, no two
WebP entries have the same stem (name without its extension), and no
non-WebP entry is named as the stem of a WebP entry followed by `.png`. -/
theorem ConvertWebPImages_names_nodup (env : ConvEnv) (fs : FileSys)
    (images : List ImageFile)
    (hok : (ConvertWebPImages env fs images).err = none)
    (hnames : (images.map ImageFile.Name).Nodup)
    (hstem : ∀ a ∈ images, ∀ b ∈ images, isWebP env.caseTable a.Name = true →
      isWebP env.caseTable b.Name = true →
      TrimSuffix a.Name (Ext a.Name) = TrimSuffix b.Name (Ext b.Name) → a.Name = b.Name)
    (hpng : ∀ a ∈ images, ∀ b ∈ images, isWebP env.caseTable a.Name = true →
      isWebP env.caseTable b.Name = false →
      TrimSuffix a.Name (Ext a.Name) ++ str ".png" ≠ b.Name) :
    ((ConvertWebPImages env fs images).images.map ImageFile.Name).Nodup := by
  rw [ConvertWebPImages_ok env fs images hok, List.map_map]
  have hinj := List.inj_on_of_nodup_map hnames
  refine List.Nodup.map_on ?_ (List.Nodup.of_map _ hnames)
  intro a ha b hb hab
  apply hinj ha hb
  simp only [Function.comp_apply, convertedEntry_Name] at hab
  by_cases hwa : isWebP env.caseTable a.Name = true
  · by_cases hwb : isWebP env.caseTable b.Name = true
    · rw [if_pos hwa, if_pos hwb] at hab
      exact hstem a ha b hb hwa hwb (pngName_inj _ _ hab)
    · rw [if_pos hwa, if_neg hwb] at hab
      exact absurd hab (hpng a ha b hb hwa (by simpa using hwb))
  · by_cases hwb : isWebP env.caseTable b.Name = true
    · rw [if_neg hwa, if_pos hwb] at hab
      exact absurd hab.symm (hpng b hb a ha hwb (by simpa using hwa))
    · rw [if_neg hwa, if_neg hwb] at hab
      exact hab

theorem ConvertWebPImages_names_nodup_witness :
    ((ConvertWebPImages plainEnv fsAll
      [⟨str "/d/01.webp", str "01.webp"⟩, ⟨str "/d/02.WebP", str "02.WebP"⟩,
       ⟨str "/d/03.png", str "03.png"⟩]).images.map ImageFile.Name).Nodup ∧
    (ConvertWebPImages plainEnv fsAll
      [⟨str "/d/01.webp", str "01.webp"⟩, ⟨str "/d/02.WebP", str "02.WebP"⟩,
       ⟨str "/d/03.png", str "03.png"⟩]).images.map ImageFile.Name =
      [str "01.png", str "02.png", str "03.png"] :=
  ⟨ConvertWebPImages_names_nodup plainEnv fsAll
      [⟨str "/d/01.webp", str "01.webp"⟩, ⟨str "/d/02.WebP", str "02.WebP"⟩,
       ⟨str "/d/03.png", str "03.png"⟩] (by decide) (by decide) (by decide) (by decide),
   by decide⟩

/-! ## The first chunk and chunk prefixes -/

theorem decodeRunes_cons (b : Nat) (rest : GoString) :
    decodeRunes (b :: rest) = (DecodeRuneInString (b :: rest)).1 ::
      decodeRunesAux rest.length (rest.drop ((DecodeRuneInString (b :: rest)).2 - 1)) := by
  simp only [decodeRunes, List.length_cons, decodeRunesAux]

/-- The first chunk of a non-empty string is of the kind of its first rune. -/
theorem splitChunks_head {isDigit : Nat → Bool} (s : GoString) (hs : s ≠ []) :
    ∃ c rest, splitChunks isDigit s = c :: rest ∧ c.isNumeric = isDigit (DecodeRuneInString s).1 := by
  cases s with
  | nil => exact absurd rfl hs
  | cons b rest =>
    unfold splitChunks
    rw [decodeRunes_cons]
    simp only [List.length_cons, splitChunksAux]
    exact ⟨_, _, rfl, rfl⟩

theorem naturalLessLoop_prefix_first : ∀ (cs : List chunk) (d : chunk) (ds : List chunk),
    naturalLessLoop cs (cs ++ d :: ds) = true
  | [], d, ds => by
    rw [List.nil_append, naturalLessLoop_nil_left]
    simp
  | c :: cs, d, ds => by
    rw [List.cons_append, naturalLessLoop_cons,
      if_neg (not_not.2 ((strictCmp_compareChunks.eq_zero_iff c c).2 rfl))]
    exact naturalLessLoop_prefix_first cs d ds

/-- C25: a chunk-prefix sorts first: if the chunk sequence of `a` is a proper
prefix of the chunk sequence of `b` then `naturalLess a b` is true; the empty
string sorts before every non-empty string, and no string sorts before the
empty string. -/
theorem naturalLess_chunk_prefix_first {isDigit : Nat → Bool} (a b : GoString) :
    (∀ d ds, splitChunks isDigit b = splitChunks isDigit a ++ d :: ds → naturalLess isDigit a b = true) ∧
    (b ≠ [] → naturalLess isDigit [] b = true) ∧
    naturalLess isDigit a [] = false := by
  refine ⟨?_, ?_, ?_⟩
  · intro d ds h
    unfold naturalLess
    rw [h]
    exact naturalLessLoop_prefix_first _ d ds
  · intro hb
    obtain ⟨c, rest, hc, _⟩ := splitChunks_head b hb
    have he : splitChunks isDigit ([] : GoString) = [] := rfl
    unfold naturalLess
    rw [hc, he, naturalLessLoop_nil_left]
    simp
  · unfold naturalLess
    exact naturalLessLoop_nil_right _

theorem naturalLess_chunk_prefix_first_witness :
    splitChunks unicode15 (str "ch10") = splitChunks unicode15 (str "ch") ++ [⟨str "10", true⟩] ∧
    naturalLess unicode15 (str "ch") (str "ch10") = true ∧
    naturalLess unicode15 (str "") (str "a") = true :=
  ⟨by decide,
   (naturalLess_chunk_prefix_first (str "ch") (str "ch10")).1 ⟨str "10", true⟩ [] (by decide),
   (naturalLess_chunk_prefix_first (str "") (str "a")).2.1 (by decide)⟩

/-- C23: numbers sort before letters: for all non-empty strings `a` and `b`
such that the first character of `a` is a decimal digit and the first
character of `b` is not, `naturalLess a b` is true and `naturalLess b a` is
false.  A decimal digit is what `unicode.IsDigit` of the toolchain accepts:
the statement holds for every such predicate `isDigit`. -/
theorem naturalLess_digit_before_letter (isDigit : Nat → Bool)
    (a b : GoString) (ha : a ≠ []) (hb : b ≠ [])
    (hda : isDigit (DecodeRuneInString a).1 = true)
    (hdb : isDigit (DecodeRuneInString b).1 = false) :
    naturalLess isDigit a b = true ∧ naturalLess isDigit b a = false := by
  obtain ⟨ca, ra, hca, hna⟩ := @splitChunks_head isDigit a ha
  obtain ⟨cb, rb, hcb, hnb⟩ := @splitChunks_head isDigit b hb
  rw [hda] at hna
  rw [hdb] at hnb
  unfold naturalLess
  rw [hca, hcb, naturalLessLoop_cons, naturalLessLoop_cons,
    compareChunks_numeric_text ca cb hna hnb, compareChunks_text_numeric cb ca hnb hna]
  exact ⟨by simp, by simp⟩

theorem naturalLess_digit_before_letter_witness :
    naturalLess unicode15 (str "1") (str "a") = true ∧ naturalLess unicode15 (str "a") (str "1") = false :=
  naturalLess_digit_before_letter unicode15 (str "1") (str "a") (by decide) (by decide) (by decide)
    (by decide)

/-! ## The sort and the order of its input -/

theorem insertLeft_of_not_less {α : Type} (less : α → α → Bool) (x : α) (acc : List α)
    (h : ∀ p ∈ acc, less x p = false) : insertLeft less x acc = x :: acc := by
  cases acc with
  | nil => rfl
  | cons p ps =>
    unfold insertLeft
    rw [if_neg (by rw [h p (List.mem_cons_self _ _)]; exact Bool.false_ne_true)]

theorem foldl_insertLeft_sorted {α : Type} (less : α → α → Bool) : ∀ (l acc : List α),
    l.Pairwise (fun a b => less b a = false) → (∀ x ∈ l, ∀ p ∈ acc, less x p = false) →
    l.foldl (fun sortedRev x => insertLeft less x sortedRev) acc = l.reverse ++ acc
  | [], _, _, _ => rfl
  | x :: l, acc, hp, hacc => by
    rw [List.foldl_cons, insertLeft_of_not_less less x acc (hacc x (List.mem_cons_self _ _))]
    rw [List.pairwise_cons] at hp
    rw [foldl_insertLeft_sorted less l (x :: acc) hp.2]
    · simp
    · intro y hy p hpm
      rcases List.mem_cons.1 hpm with rfl | hpm
      · exact hp.1 y hy
      · exact hacc y (List.mem_cons_of_mem _ hy) p hpm

/-- The stable sort leaves a sorted slice as it is. -/
theorem SliceStable_sorted {α : Type} (less : α → α → Bool) (l : List α)
    (h : l.Pairwise (fun a b => less b a = false)) : SliceStable less l = l := by
  unfold SliceStable
  rw [foldl_insertLeft_sorted less l [] h (fun _ _ _ hp => absurd hp (List.not_mem_nil _))]
  simp

/-- Two sorted lists with the same elements, no two different ones tied, are
the same list. -/
theorem sorted_perm_eq {isDigit : Nat → Bool} (l₁ l₂ : List GoString)
    (hv : ∀ x ∈ l₁, ∀ y ∈ l₁, tied isDigit x y = true → x = y) (hp : l₁.Perm l₂)
    (h₁ : l₁.Pairwise (fun a b => naturalLess isDigit b a = false))
    (h₂ : l₂.Pairwise (fun a b => naturalLess isDigit b a = false)) : l₁ = l₂ := by
  have hanti : ∀ a ∈ l₁, ∀ b ∈ l₁,
      naturalLess isDigit b a = false → naturalLess isDigit a b = false → a = b := fun a ha b hb hba hab =>
    hv a ha b hb (by simp [tied, hab, hba])
  haveI : IsAntisymm GoString
      (fun a b => naturalLess isDigit b a = false ∧ (naturalLess isDigit a b = false → a = b)) :=
    ⟨fun a b hab hba => hab.2 hba.1⟩
  have hs₁ : l₁.Sorted
      (fun a b => naturalLess isDigit b a = false ∧ (naturalLess isDigit a b = false → a = b)) :=
    h₁.imp_of_mem (fun ha hb h => ⟨h, hanti _ ha _ hb h⟩)
  have hs₂ : l₂.Sorted
      (fun a b => naturalLess isDigit b a = false ∧ (naturalLess isDigit a b = false → a = b)) :=
    h₂.imp_of_mem (fun ha hb h =>
      ⟨h, hanti _ (hp.mem_iff.2 ha) _ (hp.mem_iff.2 hb) h⟩)
  exact List.eq_of_perm_of_sorted hp hs₁ hs₂

/-- Tied valid UTF-8 strings are equal. -/
theorem tied_valid_eq {isDigit : Nat → Bool}
    (x y : GoString) (hx : ValidString x = true) (hy : ValidString y = true)
    (h : tied isDigit x y = true) : x = y := by
  simp only [tied, Bool.and_eq_true, Bool.not_eq_true'] at h
  exact splitChunks_injective x y hx hy ((naturalLess_tie_iff x y).1 h)

theorem Natural_perm_eq {isDigit : Nat → Bool} (xs ys : List GoString)
    (hv : ∀ x ∈ xs, ∀ y ∈ xs, tied isDigit x y = true → x = y) (hp : xs.Perm ys) :
    Natural isDigit xs = Natural isDigit ys := by
  refine sorted_perm_eq _ _ (fun x hx y hy => hv x ((Natural_perm xs).mem_iff.1 hx) y
    ((Natural_perm xs).mem_iff.1 hy)) ?_ (Natural_pairwise xs) (Natural_pairwise ys)
  exact ((Natural_perm xs).trans hp).trans (Natural_perm ys).symm

/-- C30, as stated, fails: the two orders of the tied strings `"\xff"` and
`"\xfe"` are permutations of each other and each is returned unchanged. -/
theorem Natural_input_order_counterexample :
    List.Perm [([0xFF] : GoString), [0xFE]] [[0xFE], [0xFF]] ∧
    Natural unicode15 [[0xFF], [0xFE]] = [[0xFF], [0xFE]] ∧
    Natural unicode15 [[0xFE], [0xFF]] = [[0xFE], [0xFF]] ∧
    Natural unicode15 [[0xFF], [0xFE]] ≠ Natural unicode15 [[0xFE], [0xFF]] := by
  decide

/-- C30 (amended): the result of `Natural` does not depend on the input order
when no two different strings of the input are tied in the comparator's order,
in particular when every string of the input is valid UTF-8: if `ys` is a
permutation of such a list `xs` then `Natural xs = Natural ys`; and `Natural`
is idempotent on every list. -/
theorem Natural_input_order {isDigit : Nat → Bool} (xs ys : List GoString) :
    ((∀ x ∈ xs, ∀ y ∈ xs, tied isDigit x y = true → x = y) → xs.Perm ys → Natural isDigit xs = Natural isDigit ys) ∧
    ((∀ x ∈ xs, ValidString x = true) → xs.Perm ys → Natural isDigit xs = Natural isDigit ys) ∧
    Natural isDigit (Natural isDigit xs) = Natural isDigit xs :=
  ⟨Natural_perm_eq xs ys,
   fun hv => Natural_perm_eq xs ys (fun x hx y hy => tied_valid_eq x y (hv x hx) (hv y hy)),
   SliceStable_sorted (naturalLess isDigit) _ (Natural_pairwise xs)⟩

theorem Natural_input_order_witness :
    Natural unicode15 [str "10.jpg", str "2.jpg", str "1.jpg"] =
      Natural unicode15 [str "2.jpg", str "1.jpg", str "10.jpg"] ∧
    Natural unicode15 [str "2.jpg", str "1.jpg", str "10.jpg"] =
      [str "1.jpg", str "2.jpg", str "10.jpg"] :=
  ⟨(Natural_input_order [str "10.jpg", str "2.jpg", str "1.jpg"]
      [str "2.jpg", str "1.jpg", str "10.jpg"]).2.1 (by decide) (by decide),
   by decide⟩

/-! ## The archive writer: the destination after a failure -/

/-- A failure of `Create` after the output file has been created removes the
file at `outputPath`. -/
theorem Create_err_removed (faults : Faults) (fs : FileSys) (outputPath : GoString)
    (images : List ImageFile) (opts : CreateOptions)
    (h : (Create faults fs outputPath images opts).err ≠ none)
    (hguard : opts.Force = true ∨ fs outputPath = none)
    (hcreate : faults Op.osCreate = none) :
    (Create faults fs outputPath images opts).fs outputPath = none := by
  have hg : ¬ ((!opts.Force && (fs outputPath).isSome) = true) := by
    rcases hguard with hf | hn
    · simp [hf]
    · simp [hn]
  unfold Create at h ⊢
  simp only [hg, Bool.false_eq_true, if_false, hcreate] at h ⊢
  cases hl : (addImages faults outputPath 0 images (createdOutput fs outputPath)).2.2 with
  | some e => simp [FileSys.remove]
  | none =>
    cases hz : faults Op.zipClose with
    | some e => simp [zipClose, hz, FileSys.remove]
    | none => simp [hl, zipClose, hz] at h

/-- A failure of `Create` by the overwrite guard or by `os.Create` leaves the
file system as it was. -/
theorem Create_err_unchanged (faults : Faults) (fs : FileSys) (outputPath : GoString)
    (images : List ImageFile) (opts : CreateOptions)
    (h : (opts.Force = false ∧ (fs outputPath).isSome = true) ∨
      (faults Op.osCreate).isSome = true) :
    (Create faults fs outputPath images opts).fs = fs := by
  unfold Create
  by_cases hg : (!opts.Force && (fs outputPath).isSome) = true
  · simp [hg]
  · simp only [hg, Bool.false_eq_true, if_false]
    rcases h with ⟨hf, hs⟩ | hc
    · simp [hf, hs] at hg
    · cases hc' : faults Op.osCreate with
      | some e => rfl
      | none => simp [hc'] at hc

/-- C26, as stated, fails: with `Force` set, a call that fails on a missing
source image leaves no file at a destination where a file existed before. -/
theorem Create_all_or_nothing_counterexample :
    (Create noFaults fsExisting (str "/t/out.cbz")
      [⟨str "/t/nonexistent.jpg", str "nonexistent.jpg"⟩] ⟨true⟩).err =
      some (GoError.notExist (str "/t/nonexistent.jpg")) ∧
    fsExisting (str "/t/out.cbz") = some (Content.bytes [1, 2, 3]) ∧
    (Create noFaults fsExisting (str "/t/out.cbz")
      [⟨str "/t/nonexistent.jpg", str "nonexistent.jpg"⟩] ⟨true⟩).fs (str "/t/out.cbz") = none ∧
    (Create noFaults fsExisting (str "/t/out.cbz")
      [⟨str "/t/nonexistent.jpg", str "nonexistent.jpg"⟩] ⟨true⟩).fs (str "/t/out.cbz") ≠
      fsExisting (str "/t/out.cbz") := by
  refine ⟨by decide, rfl, rfl, ?_⟩
  intro h
  have h₁ : (Create noFaults fsExisting (str "/t/out.cbz")
      [⟨str "/t/nonexistent.jpg", str "nonexistent.jpg"⟩] ⟨true⟩).fs (str "/t/out.cbz") =
      none := rfl
  have h₂ : fsExisting (str "/t/out.cbz") = some (Content.bytes [1, 2, 3]) := rfl
  rw [h₁, h₂] at h
  cases h

/-- C26 (amended): whenever `Create` returns an error, the file at
`outputPath` is in the same state as before the call if no file existed there
before the call, and the whole file system is as before the call if the
overwrite guard tripped or the output file could not be created; a failure
after the output file has been created leaves no file at `outputPath`, so a
file that existed there before a failing call with `Force` set is lost. -/
theorem Create_failure_destination (faults : Faults) (fs : FileSys) (outputPath : GoString)
    (images : List ImageFile) (opts : CreateOptions)
    (h : (Create faults fs outputPath images opts).err ≠ none) :
    (fs outputPath = none →
      (Create faults fs outputPath images opts).fs outputPath = fs outputPath) ∧
    (opts.Force = false → (fs outputPath).isSome = true →
      (Create faults fs outputPath images opts).fs = fs) ∧
    ((faults Op.osCreate).isSome = true →
      (Create faults fs outputPath images opts).fs = fs) ∧
    (opts.Force = true → faults Op.osCreate = none →
      (Create faults fs outputPath images opts).fs outputPath = none) := by
  refine ⟨fun hn => ?_, fun hf hs => ?_, fun hc => ?_, fun hf hc => ?_⟩
  · rcases Create_err faults fs outputPath images opts h with h₁ | h₁
    · rw [h₁, hn]
    · rw [h₁]
  · exact Create_err_unchanged faults fs outputPath images opts (Or.inl ⟨hf, hs⟩)
  · exact Create_err_unchanged faults fs outputPath images opts (Or.inr hc)
  · exact Create_err_removed faults fs outputPath images opts h (Or.inl hf) hc

theorem Create_failure_destination_witness :
    (Create noFaults fsValid (str "/t/out.cbz")
      [⟨str "/t/nonexistent.jpg", str "nonexistent.jpg"⟩] ⟨false⟩).fs (str "/t/out.cbz") =
      fsValid (str "/t/out.cbz") ∧
    (Create noFaults fsExisting (str "/t/out.cbz")
      [⟨str "/t/nonexistent.jpg", str "nonexistent.jpg"⟩] ⟨true⟩).fs (str "/t/out.cbz") = none :=
  ⟨(Create_failure_destination noFaults fsValid (str "/t/out.cbz")
      [⟨str "/t/nonexistent.jpg", str "nonexistent.jpg"⟩] ⟨false⟩ (by decide)).1 rfl,
   (Create_failure_destination noFaults fsExisting (str "/t/out.cbz")
      [⟨str "/t/nonexistent.jpg", str "nonexistent.jpg"⟩] ⟨true⟩ (by decide)).2.2.2 rfl rfl⟩

/-! ## Discovery: directories without subdirectories, one-level trees -/

theorem walkEntries_leaf (inputDir : List GoString) :
    ∀ (es : List (GoString × Node)) (rel : List GoString),
      isLeafDirectory es = true → walkEntries inputDir rel es = []
  | [], _, _ => by rw [walkEntries]
  | (name, node) :: rest, rel, h => by
    rw [isLeafDirectory] at h
    rw [walkEntries]
    by_cases hc : (node.IsDir && !HasPrefix name (str ".")) = true
    · rw [if_pos hc] at h
      cases h
    · rw [if_neg hc] at h
      rw [walkEntries_leaf inputDir rest rel h, List.append_nil]
      cases node with
      | file => rw [walkDir]
      | dir sub =>
        have hh : HasPrefix name (str ".") = true := by simpa [Node.IsDir] using hc
        rw [walkDir, if_pos hh]

theorem discoverFlatLoop_leaf (inputDir : List GoString) :
    ∀ es : List (GoString × Node), isLeafDirectory es = true → discoverFlatLoop inputDir es = []
  | [], _ => rfl
  | (name, node) :: rest, h => by
    rw [isLeafDirectory] at h
    rw [discoverFlatLoop]
    by_cases hc : (node.IsDir && !HasPrefix name (str ".")) = true
    · rw [if_pos hc] at h
      cases h
    · rw [if_neg hc] at h
      have ih := discoverFlatLoop_leaf inputDir rest h
      cases node with
      | file => simpa [Node.IsDir] using ih
      | dir sub =>
        have hh : HasPrefix name (str ".") = true := by simpa [Node.IsDir] using hc
        simpa [Node.IsDir, hh] using ih

theorem sortChapters_nil {isDigit : Nat → Bool} : sortChapters isDigit [] = [] := rfl

theorem Discover_flat_eq {isDigit : Nat → Bool} (root : Node) (inputDir : List GoString)
    (es : List (GoString × Node)) (h : root.lookup inputDir = some (Node.dir es)) :
    Discover isDigit root inputDir false =
      Except.ok (sortChapters isDigit (discoverFlatLoop inputDir es)) := by
  simp [Discover, h, Node.IsDir, discoverFlat, ReadDir]

/-- C22: an input root without qualifying subdirectories is not an error: for
every existing directory that has no non-hidden subdirectory, `Discover`
returns the empty list and no error, in flat mode and in recursive mode. -/
theorem Discover_no_subdirectories {isDigit : Nat → Bool} (root : Node) (inputDir : List GoString)
    (entries : List (GoString × Node))
    (hdir : root.lookup inputDir = some (Node.dir entries))
    (hleaf : isLeafDirectory entries = true) (recursive : Bool) :
    Discover isDigit root inputDir recursive = Except.ok [] := by
  cases recursive with
  | false =>
    rw [Discover_flat_eq root inputDir entries hdir, discoverFlatLoop_leaf inputDir entries hleaf,
      sortChapters_nil]
  | true =>
    rw [Discover_recursive_eq root inputDir entries hdir, walkEntries_leaf inputDir entries [] hleaf,
      ite_self, sortChapters_nil]

theorem Discover_no_subdirectories_witness :
    Discover unicode15 treeNoChapters [str "in"] false = Except.ok [] ∧
    Discover unicode15 treeNoChapters [str "in"] true = Except.ok [] ∧
    Discover unicode15 (Node.dir [(str "empty", Node.dir [])]) [str "empty"] false = Except.ok [] :=
  ⟨Discover_no_subdirectories treeNoChapters [str "in"] _ rfl (by decide) false,
   Discover_no_subdirectories treeNoChapters [str "in"] _ rfl (by decide) true,
   Discover_no_subdirectories (Node.dir [(str "empty", Node.dir [])]) [str "empty"] _ rfl
     (by decide) false⟩

theorem walkEntries_one_level (inputDir : List GoString) :
    ∀ es : List (GoString × Node),
      (∀ name sub, (name, Node.dir sub) ∈ es → HasPrefix name (str ".") = false →
        isLeafDirectory sub = true) →
      walkEntries inputDir [] es = discoverFlatLoop inputDir es
  | [], _ => by rw [walkEntries, discoverFlatLoop]
  | (name, node) :: rest, h => by
    have ih := walkEntries_one_level inputDir rest
      (fun n sub hm => h n sub (List.mem_cons_of_mem _ hm))
    rw [walkEntries, discoverFlatLoop, ih]
    cases node with
    | file => simp [walkDir, Node.IsDir]
    | dir sub =>
      rw [walkDir]
      by_cases hh : HasPrefix name (str ".") = true
      · simp [hh, Node.IsDir]
      · have hh' : HasPrefix name (str ".") = false := by simpa using hh
        have hl := h name sub (List.mem_cons_self _ _) hh'
        simp [hh', Node.IsDir, hl, walkEntries_leaf inputDir sub _ hl, joinSep]

/-- Flat and recursive discovery agree on a one-level tree whose root has a
name that does not start with `.`. -/
theorem Discover_one_level_agree {isDigit : Nat → Bool} (root : Node) (inputDir : List GoString)
    (es : List (GoString × Node)) (hdir : root.lookup inputDir = some (Node.dir es))
    (hname : HasPrefix (baseName inputDir) (str ".") = false)
    (hone : ∀ name sub, (name, Node.dir sub) ∈ es → HasPrefix name (str ".") = false →
      isLeafDirectory sub = true) :
    Discover isDigit root inputDir true = Discover isDigit root inputDir false := by
  rw [Discover_recursive_eq root inputDir es hdir, Discover_flat_eq root inputDir es hdir,
    if_neg (by rw [hname]; exact Bool.false_ne_true), walkEntries_one_level inputDir es hone]

/-- C29 fails for an input directory whose own name starts with `.`: on the
one-level tree `/home/.comics` with the chapters `A` and `B`, recursive
discovery returns nothing while flat discovery returns `A` and `B`. -/
theorem Discover_one_level_hidden_root :
    treeDotRoot.lookup [str "home", str ".comics"] =
      some (Node.dir [(str "B", Node.dir [(str "1.jpg", Node.file)]),
        (str "A", Node.dir [(str "1.jpg", Node.file)])]) ∧
    isLeafDirectory [(str "1.jpg", Node.file)] = true ∧
    Discover unicode15 treeDotRoot [str "home", str ".comics"] true = Except.ok [] ∧
    Discover unicode15 treeDotRoot [str "home", str ".comics"] false =
      Except.ok [⟨str "A", str "/home/.comics/A"⟩, ⟨str "B", str "/home/.comics/B"⟩] ∧
    Discover unicode15 treeDotRoot [str "home", str ".comics"] true ≠
      Discover unicode15 treeDotRoot [str "home", str ".comics"] false := by
  refine ⟨rfl, rfl, rfl, rfl, ?_⟩
  intro h
  have h₁ : Discover unicode15 treeDotRoot [str "home", str ".comics"] true = Except.ok [] := rfl
  have h₂ : Discover unicode15 treeDotRoot [str "home", str ".comics"] false =
      Except.ok [⟨str "A", str "/home/.comics/A"⟩, ⟨str "B", str "/home/.comics/B"⟩] := rfl
  rw [h₁, h₂] at h
  cases h

/-! ## Recursive discovery and directories that hold images -/

/-- C21 fails on the code for a directory that holds images and a
subdirectory: `/lib/Vol1` is a visible directory that directly holds the image
`cover.jpg` (the collector returns it), and recursive discovery of `/lib`
returns only `Vol1/Ch1`, no chapter for `Vol1`, whatever the digit table. -/
theorem Discover_recursive_skips_image_directory :
    treeMixed.lookup [str "lib", str "Vol1"] =
      some (Node.dir [(str "cover.jpg", Node.file),
        (str "Ch1", Node.dir [(str "1.jpg", Node.file)])]) ∧
    (∀ isDigit : Nat → Bool,
      CollectImages isDigit plainCaseTable treeMixed [str "lib", str "Vol1"] [str "jpg"] =
        Except.ok [⟨str "/lib/Vol1/cover.jpg", str "cover.jpg"⟩]) ∧
    (∀ isDigit : Nat → Bool, Discover isDigit treeMixed [str "lib"] true =
      Except.ok [⟨str "Vol1/Ch1", str "/lib/Vol1/Ch1"⟩]) ∧
    chapterAt [str "lib"] [str "Vol1"] ∉
      [(⟨str "Vol1/Ch1", str "/lib/Vol1/Ch1"⟩ : Chapter)] :=
  ⟨rfl, fun _ => rfl, fun _ => rfl, by decide⟩

/-- In recursive mode every leaf directory of the tree is found: for every
input directory whose own name does not start with `.` and every directory
below it, outside any hidden directory, that contains no non-hidden
subdirectory (whether or not it holds image files), `Discover` succeeds and
returns a chapter for that directory. -/
theorem Discover_recursive_finds_leaves {isDigit : Nat → Bool}
    (root : Node) (inputDir rel : List GoString)
    (esD : List (GoString × Node))
    (hwf : root.wellFormed = true)
    (hname : HasPrefix (baseName inputDir) (str ".") = false)
    (hrel : rel ≠ []) (hvis : ∀ c ∈ rel, HasPrefix c (str ".") = false)
    (hD : root.lookup (inputDir ++ rel) = some (Node.dir esD))
    (hleaf : isLeafDirectory esD = true) :
    ∃ chapters, Discover isDigit root inputDir true = Except.ok chapters ∧
      chapterAt inputDir rel ∈ chapters := by
  have hdir : ∃ es, root.lookup inputDir = some (Node.dir es) := by
    rw [lookup_append] at hD
    cases hl : root.lookup inputDir with
    | none => simp [hl] at hD
    | some n =>
      cases n with
      | dir es => exact ⟨es, rfl⟩
      | file =>
        cases rel with
        | nil => exact absurd rfl hrel
        | cons c cs => simp [hl, Node.lookup] at hD
  obtain ⟨es, hes⟩ := hdir
  have hok := @Discover_recursive_eq isDigit root inputDir es hes
  exact ⟨_, hok, (Discover_recursive_leaves root inputDir rel esD _ hwf hname hrel hvis hD hok).2
    hleaf⟩

/-- The leaf `Vol1/Ch1` of the tree `/lib` is found. -/
theorem Discover_recursive_leaf_found :
    ∃ chapters, Discover unicode15 treeMixed [str "lib"] true = Except.ok chapters ∧
      chapterAt [str "lib"] [str "Vol1", str "Ch1"] ∈ chapters :=
  Discover_recursive_finds_leaves treeMixed [str "lib"] [str "Vol1", str "Ch1"]
    [(str "1.jpg", Node.file)] (by decide) (by decide) (by decide) (by decide) rfl (by decide)

/-! ## UTF-8: decoded runes are scalar values, and encoding preserves order -/

theorem DecodeRuneInString_scalar (s : GoString) : Scalar (DecodeRuneInString s).1 := by
  unfold DecodeRuneInString
  repeat' split
  all_goals
    simp only [Scalar, RuneError, acceptLo, acceptHi] at *
    try split_ifs at *
    all_goals omega

theorem encodeRune_ne_nil (r : Nat) : encodeRune r ≠ [] := by
  unfold encodeRune
  split_ifs <;> simp

theorem encodeRune_one (r : Nat) (h : r ≤ 0x7F) : encodeRune r = [r] := by
  unfold encodeRune
  rw [if_pos h]

theorem encodeRune_two_bytes (r : Nat) (h₁ : 0x7F < r) (h₂ : r ≤ 0x7FF) :
    encodeRune r = [0xC0 + r / 64, 0x80 + r % 64] := by
  unfold encodeRune
  rw [if_neg (by omega), if_pos h₂]

theorem encodeRune_three_bytes (r : Nat) (h : Scalar r) (h₁ : 0x7FF < r) (h₂ : r ≤ 0xFFFF) :
    encodeRune r = [0xE0 + r / 4096, 0x80 + r / 64 % 64, 0x80 + r % 64] := by
  unfold Scalar at h
  unfold encodeRune
  rw [if_neg (by omega), if_neg (by omega), if_neg (by omega), if_pos h₂]

theorem encodeRune_four_bytes (r : Nat) (h : Scalar r) (h₁ : 0xFFFF < r) :
    encodeRune r =
      [0xF0 + r / 262144, 0x80 + r / 4096 % 64, 0x80 + r / 64 % 64, 0x80 + r % 64] := by
  unfold Scalar at h
  unfold encodeRune
  rw [if_neg (by omega), if_neg (by omega), if_neg (by omega), if_neg (by omega)]

theorem DecodeRuneInString_encodeRune (r : Nat) (rest : GoString) (h : Scalar r) :
    DecodeRuneInString (encodeRune r ++ rest) = (r, (encodeRune r).length) := by
  have hs := h
  unfold Scalar at hs
  by_cases h1 : r ≤ 0x7F
  · rw [encodeRune_one r h1]
    simp only [List.cons_append, List.nil_append, DecodeRuneInString, List.length_singleton]
    rw [if_pos (by omega)]
  · by_cases h2 : r ≤ 0x7FF
    · rw [encodeRune_two_bytes r (by omega) h2]
      simp only [List.cons_append, List.nil_append, DecodeRuneInString, acceptLo, acceptHi,
        List.length_cons, List.length_nil]
      rw [if_neg (by omega), if_neg (by omega), if_pos (by omega)]
      split_ifs <;> first | omega | (congr 1; omega)
    · by_cases h3 : r ≤ 0xFFFF
      · rw [encodeRune_three_bytes r h (by omega) h3]
        simp only [List.cons_append, List.nil_append, DecodeRuneInString, acceptLo, acceptHi,
          List.length_cons, List.length_nil]
        rw [if_neg (by omega), if_neg (by omega), if_neg (by omega), if_pos (by omega)]
        split_ifs <;> first | omega | (congr 1; omega)
      · rw [encodeRune_four_bytes r h (by omega)]
        simp only [List.cons_append, List.nil_append, DecodeRuneInString, acceptLo, acceptHi,
          List.length_cons, List.length_nil]
        rw [if_neg (by omega), if_neg (by omega), if_neg (by omega), if_neg (by omega),
          if_pos (by omega)]
        split_ifs <;> first | omega | (congr 1; omega)

theorem strLess_append_left : ∀ (p x y : GoString), strLess (p ++ x) (p ++ y) = strLess x y
  | [], _, _ => rfl
  | c :: p, x, y => by
    simp only [List.cons_append, strLess, lt_irrefl, if_false]
    exact strLess_append_left p x y

theorem strLess_cons_lt (a b : Nat) (x y : GoString) (h : a < b) :
    strLess (a :: x) (b :: y) = true := by
  rw [strLess, if_pos h]

theorem encodeRune_lt (r r' : Nat) (x y : GoString) (h : Scalar r) (h' : Scalar r')
    (hlt : r < r') : strLess (encodeRune r ++ x) (encodeRune r' ++ y) = true := by
  have hs := h
  have hs' := h'
  unfold Scalar at hs hs'
  by_cases h1 : r' ≤ 0x7F
  · rw [encodeRune_one r (by omega), encodeRune_one r' h1]
    exact strLess_cons_lt _ _ _ _ hlt
  · by_cases h2 : r' ≤ 0x7FF
    · rw [encodeRune_two_bytes r' (by omega) h2]
      by_cases g1 : r ≤ 0x7F
      · rw [encodeRune_one r g1]
        exact strLess_cons_lt _ _ _ _ (by omega)
      · rw [encodeRune_two_bytes r (by omega) (by omega)]
        simp only [List.cons_append, List.nil_append, strLess]
        split_ifs <;> first | rfl | omega
    · by_cases h3 : r' ≤ 0xFFFF
      · rw [encodeRune_three_bytes r' h' (by omega) h3]
        by_cases g1 : r ≤ 0x7F
        · rw [encodeRune_one r g1]
          exact strLess_cons_lt _ _ _ _ (by omega)
        · by_cases g2 : r ≤ 0x7FF
          · rw [encodeRune_two_bytes r (by omega) g2]
            exact strLess_cons_lt _ _ _ _ (by omega)
          · rw [encodeRune_three_bytes r h (by omega) (by omega)]
            simp only [List.cons_append, List.nil_append, strLess]
            split_ifs <;> first | rfl | omega
      · rw [encodeRune_four_bytes r' h' (by omega)]
        by_cases g1 : r ≤ 0x7F
        · rw [encodeRune_one r g1]
          exact strLess_cons_lt _ _ _ _ (by omega)
        · by_cases g2 : r ≤ 0x7FF
          · rw [encodeRune_two_bytes r (by omega) g2]
            exact strLess_cons_lt _ _ _ _ (by omega)
          · by_cases g3 : r ≤ 0xFFFF
            · rw [encodeRune_three_bytes r h (by omega) g3]
              exact strLess_cons_lt _ _ _ _ (by omega)
            · rw [encodeRune_four_bytes r h (by omega)]
              simp only [List.cons_append, List.nil_append, strLess]
              split_ifs <;> first | rfl | omega

theorem decodeRunes_step (b : Nat) (rest : GoString) :
    decodeRunes (b :: rest) = (DecodeRuneInString (b :: rest)).1 ::
      decodeRunes (rest.drop ((DecodeRuneInString (b :: rest)).2 - 1)) := by
  rw [decodeRunes_cons]
  congr 1
  exact decodeRunesAux_fuel _ _ _ (by simp) (Nat.le_refl _)

theorem decodeRunes_encodeRune_append (r : Nat) (rest : GoString) (h : Scalar r) :
    decodeRunes (encodeRune r ++ rest) = r :: decodeRunes rest := by
  have hd := DecodeRuneInString_encodeRune r rest h
  cases he : encodeRune r with
  | nil => exact absurd he (encodeRune_ne_nil r)
  | cons b t =>
    rw [he] at hd
    rw [List.cons_append] at hd ⊢
    rw [decodeRunes_step, hd]
    simp

/-- Decoding the encoding of scalar values gives them back. -/
theorem decodeRunes_encodeRunes : ∀ rs : List Nat, (∀ r ∈ rs, Scalar r) →
    decodeRunes (encodeRunes rs) = rs
  | [], _ => rfl
  | r :: rs, h => by
    rw [encodeRunes, decodeRunes_encodeRune_append r _ (h r (List.mem_cons_self _ _)),
      decodeRunes_encodeRunes rs (fun x hx => h x (List.mem_cons_of_mem _ hx))]

theorem decodeRunesAux_scalar : ∀ (n : Nat) (s : GoString), ∀ r ∈ decodeRunesAux n s, Scalar r
  | 0, _, r, hr => by simp [decodeRunesAux] at hr
  | _ + 1, [], r, hr => by simp [decodeRunesAux] at hr
  | n + 1, b :: rest, r, hr => by
    simp only [decodeRunesAux, List.mem_cons] at hr
    rcases hr with rfl | hr
    · exact DecodeRuneInString_scalar _
    · exact decodeRunesAux_scalar n _ r hr

/-- The runes of a string are scalar values. -/
theorem decodeRunes_scalar (s : GoString) : ∀ r ∈ decodeRunes s, Scalar r :=
  decodeRunesAux_scalar _ _

theorem encodeRunes_ne_nil (r : Nat) (rs : List Nat) : encodeRunes (r :: rs) ≠ [] := by
  rw [encodeRunes]
  intro h
  exact encodeRune_ne_nil r (List.append_eq_nil.1 h).1

theorem strLess_nil_left (s : GoString) (h : s ≠ []) : strLess [] s = true := by
  cases s with
  | nil => exact absurd rfl h
  | cons _ _ => rfl

theorem strLess_nil_right (s : GoString) : strLess s [] = false := by
  cases s <;> rfl

/-- The byte order of UTF-8 encodings is the code point order. -/
theorem strLess_encodeRunes : ∀ (xs ys : List Nat), (∀ r ∈ xs, Scalar r) → (∀ r ∈ ys, Scalar r) →
    strLess (encodeRunes xs) (encodeRunes ys) = codePointLess xs ys
  | [], [], _, _ => rfl
  | [], y :: ys, _, _ => by
    rw [codePointLess]
    exact strLess_nil_left _ (encodeRunes_ne_nil y ys)
  | x :: xs, [], _, _ => by
    rw [codePointLess]
    exact strLess_nil_right _
  | x :: xs, y :: ys, hx, hy => by
    have sx := hx x (List.mem_cons_self _ _)
    have sy := hy y (List.mem_cons_self _ _)
    rw [codePointLess, encodeRunes, encodeRunes]
    by_cases h₁ : x < y
    · rw [if_pos h₁]
      exact encodeRune_lt x y _ _ sx sy h₁
    · rw [if_neg h₁]
      by_cases h₂ : y < x
      · rw [if_pos h₂]
        exact strLess_asymm _ _ (encodeRune_lt y x _ _ sy sx h₂)
      · rw [if_neg h₂]
        have hxy : x = y := by omega
        subst hxy
        rw [strLess_append_left]
        exact strLess_encodeRunes xs ys (fun r hr => hx r (List.mem_cons_of_mem _ hr))
          (fun r hr => hy r (List.mem_cons_of_mem _ hr))

/-! ## Strings without digits -/

theorem splitChunksAux_digit_free {isDigit : Nat → Bool} : ∀ (n : Nat) (r : Nat) (rest : List Nat),
    (∀ x ∈ r :: rest, isDigit x = false) →
    splitChunksAux isDigit (n + 1) (r :: rest) = [⟨encodeRunes (r :: rest), false⟩] := by
  intro n r rest h
  have hr : isDigit r = false := h r (List.mem_cons_self _ _)
  have hall : ∀ x ∈ rest, (isDigit x == isDigit r) = true := fun x hx => by
    rw [h x (List.mem_cons_of_mem _ hx), hr]
    rfl
  have ht : rest.takeWhile (fun x => isDigit x == isDigit r) = rest :=
    List.takeWhile_eq_self_iff.2 hall
  have hd : rest.dropWhile (fun x => isDigit x == isDigit r) = [] :=
    List.dropWhile_eq_nil_iff.2 hall
  rw [splitChunksAux, ht, hd, hr]
  cases n <;> rfl

/-- A non-empty string without digits is one non-numeric chunk. -/
theorem splitChunks_digit_free {isDigit : Nat → Bool}
    (s : GoString) (h : ∀ r ∈ decodeRunes s, isDigit r = false) :
    splitChunks isDigit s =
      if decodeRunes s = [] then [] else [⟨encodeRunes (decodeRunes s), false⟩] := by
  unfold splitChunks
  cases hd : decodeRunes s with
  | nil => rfl
  | cons r rest =>
    rw [hd] at h
    rw [if_neg (List.cons_ne_nil _ _), List.length_cons]
    exact splitChunksAux_digit_free _ r rest h

theorem naturalLessLoop_text (va vb : GoString) :
    naturalLessLoop [⟨va, false⟩] [⟨vb, false⟩] = strLess va vb := by
  rw [naturalLessLoop_cons, compareChunks_text _ _ rfl rfl]
  by_cases h : compareStrings va vb = 0
  · rw [if_neg (not_not.2 h)]
    have := (compareStrings_eq_zero_iff va vb).1 h
    subst this
    rw [strLess_irrefl]
    rfl
  · rw [if_pos h]
    by_cases hl : strLess va vb = true
    · rw [hl]
      exact decide_eq_true ((compareStrings_neg_iff va vb).2 hl)
    · have hl' : strLess va vb = false := by simpa using hl
      rw [hl']
      exact decide_eq_false (fun hc => hl ((compareStrings_neg_iff va vb).1 hc))

/-- On strings without digits the comparator is the byte order of the
re-encoded runes. -/
theorem naturalLess_digit_free_bytes {isDigit : Nat → Bool} (a b : GoString)
    (ha : ∀ r ∈ decodeRunes a, isDigit r = false)
    (hb : ∀ r ∈ decodeRunes b, isDigit r = false) :
    naturalLess isDigit a b = strLess (encodeRunes (decodeRunes a)) (encodeRunes (decodeRunes b)) := by
  unfold naturalLess
  rw [splitChunks_digit_free a ha, splitChunks_digit_free b hb]
  cases hda : decodeRunes a with
  | nil =>
    cases hdb : decodeRunes b with
    | nil => rfl
    | cons y ys =>
      rw [if_pos rfl, if_neg (List.cons_ne_nil _ _)]
      exact (strLess_nil_left _ (encodeRunes_ne_nil y ys)).symm
  | cons x xs =>
    cases hdb : decodeRunes b with
    | nil =>
      rw [if_neg (List.cons_ne_nil _ _), if_pos rfl]
      exact (strLess_nil_right _).symm
    | cons y ys =>
      rw [if_neg (List.cons_ne_nil _ _), if_neg (List.cons_ne_nil _ _)]
      exact naturalLessLoop_text _ _

/-- C24: on digit-free strings natural order is plain lexicographic order:
for all strings `a` and `b` that contain no decimal digit, `naturalLess a b`
holds if and only if `a` precedes `b` in lexicographic order by code point;
on valid UTF-8 this is the order `a < b` of Go strings.  A decimal digit is
what `unicode.IsDigit` of the toolchain accepts: the statement holds for every
such predicate `isDigit`. -/
theorem naturalLess_digit_free (isDigit : Nat → Bool) (a b : GoString)
    (ha : ∀ r ∈ decodeRunes a, isDigit r = false)
    (hb : ∀ r ∈ decodeRunes b, isDigit r = false) :
    (naturalLess isDigit a b = true ↔ codePointLess (decodeRunes a) (decodeRunes b) = true) ∧
    (ValidString a = true → ValidString b = true → naturalLess isDigit a b = strLess a b) := by
  constructor
  · rw [naturalLess_digit_free_bytes a b ha hb,
      strLess_encodeRunes _ _ (decodeRunes_scalar a) (decodeRunes_scalar b)]
  · intro va vb
    rw [naturalLess_digit_free_bytes a b ha hb, encodeRunes_decodeRunes a va,
      encodeRunes_decodeRunes b vb]

theorem naturalLess_digit_free_witness :
    (naturalLess unicode15 (str "alpha") (str "bravo") = true ↔
      codePointLess (decodeRunes (str "alpha")) (decodeRunes (str "bravo")) = true) ∧
    naturalLess unicode15 (str "bravo") (str "charlie") = strLess (str "bravo") (str "charlie") ∧
    Natural unicode15 [str "charlie", str "alpha", str "bravo"] =
      [str "alpha", str "bravo", str "charlie"] :=
  ⟨(naturalLess_digit_free unicode15 (str "alpha") (str "bravo") (by decide) (by decide)).1,
   (naturalLess_digit_free unicode15 (str "bravo") (str "charlie") (by decide) (by decide)).2
     (by decide) (by decide),
   by decide⟩

/-! ## `splitChunks` partitions the runes into maximal runs -/

theorem splitChunksAux_runs {isDigit : Nat → Bool} : ∀ (n : Nat) (rs : List Nat) (c : chunk),
    c ∈ splitChunksAux isDigit n rs →
    ∃ run, run ≠ [] ∧ c.value = encodeRunes run ∧ (∀ r ∈ run, isDigit r = c.isNumeric) ∧
      ∀ r ∈ run, r ∈ rs
  | 0, _, c, h => by simp [splitChunksAux] at h
  | _ + 1, [], c, h => by simp [splitChunksAux] at h
  | n + 1, r :: rest, c, h => by
    simp only [splitChunksAux, List.mem_cons] at h
    rcases h with rfl | h
    · refine ⟨r :: rest.takeWhile (fun x => isDigit x == isDigit r), List.cons_ne_nil _ _, rfl,
        ?_, ?_⟩
      · intro x hx
        rcases List.mem_cons.1 hx with rfl | hx
        · rfl
        · simpa using (List.mem_takeWhile_imp hx)
      · intro x hx
        rcases List.mem_cons.1 hx with rfl | hx
        · exact List.mem_cons_self _ _
        · exact List.mem_cons_of_mem _ ((List.takeWhile_sublist _).subset hx)
    · obtain ⟨run, h₁, h₂, h₃, h₄⟩ := splitChunksAux_runs n _ c h
      exact ⟨run, h₁, h₂, h₃, fun x hx =>
        List.mem_cons_of_mem _ ((List.dropWhile_sublist _).subset (h₄ x hx))⟩

theorem splitChunksAux_head {isDigit : Nat → Bool} : ∀ (n : Nat) (rs : List Nat), rs.length ≤ n →
    ∀ c ∈ (splitChunksAux isDigit n rs).head?, ∀ r ∈ rs.head?, c.isNumeric = isDigit r
  | 0, rs, _, c, hc, _, _ => by simp [splitChunksAux] at hc
  | _ + 1, [], _, c, hc, _, _ => by simp [splitChunksAux] at hc
  | n + 1, r :: rest, _, c, hc, x, hx => by
    simp only [splitChunksAux, List.head?_cons, Option.mem_def, Option.some.injEq] at hc hx
    subst hc
    subst hx
    rfl

theorem splitChunksAux_chain {isDigit : Nat → Bool} : ∀ (n : Nat) (rs : List Nat), rs.length ≤ n →
    List.Chain' (fun c d : chunk => c.isNumeric ≠ d.isNumeric) (splitChunksAux isDigit n rs)
  | 0, _, _ => by simp [splitChunksAux]
  | _ + 1, [], _ => by simp [splitChunksAux]
  | n + 1, r :: rest, hl => by
    have hd : (rest.dropWhile (fun x => isDigit x == isDigit r)).length ≤ n := by
      have := (List.dropWhile_sublist (fun x => isDigit x == isDigit r) (l := rest)).length_le
      simp only [List.length_cons] at hl
      omega
    rw [splitChunksAux, List.chain'_cons']
    refine ⟨?_, splitChunksAux_chain n _ hd⟩
    intro d hdm
    cases hrest : rest.dropWhile (fun x => isDigit x == isDigit r) with
    | nil =>
      rw [hrest] at hdm
      cases n <;> simp [splitChunksAux] at hdm
    | cons x xs =>
      have hx : (isDigit x == isDigit r) = false := by
        have := List.head_dropWhile_not (fun x => isDigit x == isDigit r) rest
          (by rw [hrest]; exact List.cons_ne_nil _ _)
        simpa [hrest] using this
      have hnum := splitChunksAux_head n _ hd d hdm x (by rw [hrest]; rfl)
      rw [hnum]
      intro heq
      simp only [beq_eq_false_iff_ne, ne_eq] at hx
      exact hx heq.symm

/-- C27, as stated, fails: the chunk of the invalid byte `"\xff"` holds the
three bytes of U+FFFD, so the chunk values do not concatenate to the input. -/
theorem splitChunks_partition_counterexample :
    splitChunks unicode15 [0xFF] = [⟨[0xEF, 0xBF, 0xBD], false⟩] ∧
    joinValues (splitChunks unicode15 [0xFF]) ≠ [0xFF] := by
  decide

/-- C27 (amended): `splitChunks` partitions the runes of its input into
maximal runs: concatenating the chunk values in order gives the re-encoding
`string([]rune(s))` of the input, which is `s` itself when `s` is valid UTF-8;
every chunk is non-empty; the characters of a chunk marked numeric are all
digits and a chunk not marked numeric contains none; adjacent chunks differ in
kind; and `splitChunks("")` is the empty sequence.  A digit is what
`unicode.IsDigit` of the toolchain accepts: the statement holds for every such
predicate `isDigit`. -/
theorem splitChunks_partition (isDigit : Nat → Bool) (s : GoString) :
    joinValues (splitChunks isDigit s) = encodeRunes (decodeRunes s) ∧
    (ValidString s = true → joinValues (splitChunks isDigit s) = s) ∧
    (∀ c ∈ splitChunks isDigit s,
      c.value ≠ [] ∧ ∀ r ∈ decodeRunes c.value, isDigit r = c.isNumeric) ∧
    List.Chain' (fun c d : chunk => c.isNumeric ≠ d.isNumeric) (splitChunks isDigit s) ∧
    splitChunks isDigit [] = [] := by
  refine ⟨joinValues_splitChunks s, fun hv => ?_, fun c hc => ?_,
    splitChunksAux_chain _ _ (Nat.le_refl _), rfl⟩
  · rw [joinValues_splitChunks, encodeRunes_decodeRunes s hv]
  · obtain ⟨run, h₁, h₂, h₃, h₄⟩ := splitChunksAux_runs _ _ c hc
    constructor
    · rw [h₂]
      cases run with
      | nil => exact absurd rfl h₁
      | cons r rs => exact encodeRunes_ne_nil r rs
    · rw [h₂, decodeRunes_encodeRunes run (fun r hr => decodeRunes_scalar s r (h₄ r hr))]
      exact h₃

theorem splitChunks_partition_witness :
    joinValues (splitChunks unicode15 (str "ch10b")) = str "ch10b" ∧
    splitChunks unicode15 (str "ch10b") = [⟨str "ch", false⟩, ⟨str "10", true⟩, ⟨str "b", false⟩] :=
  ⟨(splitChunks_partition unicode15 (str "ch10b")).2.1 (by decide), by decide⟩

/-! ## Numeric chunks with digits outside ASCII -/

/-- C28 fails for digits outside ASCII: the fullwidth digit one, U+FF11 (bytes
`EF BC 91`), is a numeric chunk of value 1, yet `compareChunks` puts it after
the chunk `2`, and the list of `TestNatural_Unicode` is sorted as `file2`,
`file10`, `file１`. -/
theorem compareChunks_unicode_digit :
    splitChunks unicode15 (str "file" ++ [0xEF, 0xBC, 0x91]) =
      [⟨str "file", false⟩, ⟨[0xEF, 0xBC, 0x91], true⟩] ∧
    splitChunks unicode15 (str "file2") = [⟨str "file", false⟩, ⟨str "2", true⟩] ∧
    runValue [0xEF, 0xBC, 0x91] = 1 ∧ runValue (str "2") = 2 ∧
    compareChunks ⟨[0xEF, 0xBC, 0x91], true⟩ ⟨str "2", true⟩ = 1 ∧
    compareChunks ⟨[0xEF, 0xBC, 0x91], true⟩ ⟨str "10", true⟩ = 1 ∧
    naturalLess unicode15 (str "file" ++ [0xEF, 0xBC, 0x91]) (str "file2") = false ∧
    Natural unicode15 [str "file10", str "file2", str "file" ++ [0xEF, 0xBC, 0x91]] =
      [str "file2", str "file10", str "file" ++ [0xEF, 0xBC, 0x91]] := by
  decide

end Manga2cbz
